import Mathlib

/-!
# file-union-finder: a shallow embedding of `file-union-finder.c`

The development models the C program `file-union-finder.c` (one translation unit):
`fgets`-based line reading in `advance_side`, the order check `detect_sort_problems`,
the priming in `open_context`, and the `switch`-driven loop of `main`.

Modelling decisions, all taken from the source:

* a byte is a natural number; a text file is the list of its bytes;
* a line buffer is represented by the C string it holds (the bytes before the first NUL);
  the two buffers of a side are only ever reached through the `*_line` / `prev_*_line`
  pointers, so the model keeps the two pointed-to strings and swaps them on rotation;
* a `FILE *` open for reading is the list of unread bytes plus the end-of-file flag;
  a `NULL` handle (failed `fopen`) is `none`; read errors (`ferror`) do not occur on
  these in-memory streams;
* the output stream is the list of lines written, one entry per `fprintf(out, "%s\n", ..)`;
* `exit(EXIT_FAILURE)` through `bail` and undefined behaviour (a `NULL` stream handed to
  stdio, a store at index `strnlen(..) - 1` when the string is empty) are results of
  their own;
* `strncmp` is a parameter of the merge loop: the C standard fixes only the sign of its
  result, and the `switch` in `main` looks at the exact value.
-/

namespace FileUnionFinder

/-- The C string held by a line buffer: its bytes up to the first NUL. -/
abbrev Line := List Nat

/-- Line buffers have `MAX_LINE_LEN` bytes (`#define MAX_LINE_LEN 256`). -/
def MAX_LINE_LEN : Nat := 256

/-- The newline byte. -/
def NL : Nat := 10

/-- A `FILE *` open for reading: the unread bytes and the end-of-file indicator. -/
structure FileStream where
  rest : List Nat
  eof : Bool
deriving DecidableEq, Repr

/-- The `struct context` of the source. `none` stands for a `NULL` handle. The strings
behind the four line pointers stand for the buffers `left_a`, `left_b`, `right_a`,
`right_b`; `out_fh` holds the lines written so far. -/
structure context where
  left_fh : Option FileStream
  right_fh : Option FileStream
  out_fh : Option (List Line)
  prev_left_line : Line
  prev_right_line : Line
  left_line : Line
  right_line : Line
deriving DecidableEq, Repr

/-- The call sites of `bail`, one per message. -/
inductive Failure where
  | left_file_empty
  | right_file_empty
  | left_out_of_order
  | right_out_of_order
  | bad_LorR
  | read_failed
deriving DecidableEq, Repr

/-- How a piece of the program ends: it returns a value, the process exits with
`EXIT_FAILURE` through `bail` (the context at that moment is kept), the behaviour is
undefined, or the loop model ran out of fuel. -/
inductive Result (α : Type) where
  | ok (a : α)
  | exit_failure (why : Failure) (ctx : context)
  | undefined
  | out_of_fuel
deriving DecidableEq, Repr

/-- Sequencing of results. -/
def Result.bind {α β : Type} (r : Result α) (f : α → Result β) : Result β :=
  match r with
  | .ok a => f a
  | .exit_failure w c => .exit_failure w c
  | .undefined => .undefined
  | .out_of_fuel => .out_of_fuel

/-- Byte-wise lexicographic comparison of two C strings (bytes as unsigned values). -/
def byteCompare : Line → Line → Ordering
  | [], [] => .eq
  | [], _ :: _ => .lt
  | _ :: _, [] => .gt
  | a :: as, b :: bs =>
    if a < b then .lt else if b < a then .gt else byteCompare as bs

/-- The library function `strcmp`, up to the sign of its result: the source only tests
`strcmp(..) > 0`. -/
def strcmp (a b : Line) : Int :=
  match byteCompare a b with
  | .lt => -1
  | .eq => 0
  | .gt => 1

/-- A `strncmp` that returns the sign of the comparison: `-1`, `0` or `1`. -/
def strncmp_sign (a b : Line) (n : Nat) : Int :=
  strcmp (a.take n) (b.take n)

/-- A `strncmp` that returns the difference of the first pair of differing bytes, the
end of a string counting as the byte `0`. -/
def strncmp_diff : Line → Line → Nat → Int
  | _, _, 0 => 0
  | [], [], _ + 1 => 0
  | [], b :: _, _ + 1 => - (b : Int)
  | a :: _, [], _ + 1 => (a : Int)
  | a :: as, b :: bs, n + 1 =>
    if a = b then strncmp_diff as bs n else (a : Int) - (b : Int)

/-- What the C standard promises of `strncmp`: the sign of the result is the byte-wise
comparison of the first `n` bytes. -/
def StrncmpConforms (cmp : Line → Line → Nat → Int) : Prop :=
  ∀ a b n,
    (cmp a b n < 0 ↔ byteCompare (a.take n) (b.take n) = .lt) ∧
    (cmp a b n = 0 ↔ byteCompare (a.take n) (b.take n) = .eq) ∧
    (0 < cmp a b n ↔ byteCompare (a.take n) (b.take n) = .gt)

/-- The library function `strnlen` on a C string. -/
def strnlen (s : Line) (maxlen : Nat) : Nat :=
  min s.length maxlen

/-- The C string found in a buffer into which `bytes` and a closing NUL were stored. -/
def cstr (bytes : List Nat) : Line :=
  bytes.takeWhile (fun b => b ≠ 0)

/-- The reading loop of `fgets`: at most `k` bytes, stopping after a newline or at the
end of the file. Returns the bytes read, the unread bytes, and whether the end of the
file was hit. -/
def fgets_loop : Nat → List Nat → List Nat × List Nat × Bool
  | 0, rest => ([], rest, false)
  | _ + 1, [] => ([], [], true)
  | k + 1, c :: rest =>
    if c = NL then ([c], rest, false)
    else
      let r := fgets_loop k rest
      (c :: r.1, r.2.1, r.2.2)

/-- The library function `fgets(buf, n, fh)`: `none` is the `NULL` result (nothing read);
otherwise the bytes stored in the buffer (a NUL follows them). -/
def fgets (n : Nat) (fh : FileStream) : Option (List Nat) × FileStream :=
  let r := fgets_loop (n - 1) fh.rest
  let fh' : FileStream := { rest := r.2.1, eof := fh.eof || r.2.2 }
  if r.1 = [] then (none, fh') else (some r.1, fh')

/-- The function `bail`: closes the three handles and exits with `EXIT_FAILURE`;
`fclose` of a `NULL` handle is undefined. -/
def bail {α : Type} (msg : Failure) (ctx : context) : Result α :=
  match ctx.left_fh, ctx.right_fh, ctx.out_fh with
  | some _, some _, some _ => .exit_failure msg ctx
  | _, _, _ => .undefined

/-- The function `detect_sort_problems`. -/
def detect_sort_problems (ctx : context) : Result Unit :=
  if ctx.left_line ≠ [] ∧ strcmp ctx.prev_left_line ctx.left_line > 0 then
    bail .left_out_of_order ctx
  else if ctx.right_line ≠ [] ∧ strcmp ctx.prev_right_line ctx.right_line > 0 then
    bail .right_out_of_order ctx
  else
    .ok ()

/-- The pointers `line`, `prev` and `fh` that `advance_side` sets up for one side. -/
structure side_ptrs where
  line : Line
  prev : Line
  fh : Option FileStream
deriving DecidableEq, Repr

/-- The first `switch` of `advance_side`: the pointers of the chosen side, `none` in
the `default` branch. -/
def select_side (ctx : context) (LorR : Char) : Option side_ptrs :=
  if LorR = 'L' then
    some { line := ctx.left_line, prev := ctx.prev_left_line, fh := ctx.left_fh }
  else if LorR = 'R' then
    some { line := ctx.right_line, prev := ctx.prev_right_line, fh := ctx.right_fh }
  else none

/-- Writing through the pointers of `advance_side` back into the context. -/
def store_side (ctx : context) (LorR : Char) (p : side_ptrs) : context :=
  if LorR = 'L' then
    { ctx with left_line := p.line, prev_left_line := p.prev, left_fh := p.fh }
  else
    { ctx with right_line := p.line, prev_right_line := p.prev, right_fh := p.fh }

/-- The buffer rotation of `advance_side`: the pointers are swapped when the current
line is not empty. -/
def rotate (p : side_ptrs) : side_ptrs :=
  if strnlen p.line (MAX_LINE_LEN - 1) > 0 then
    { p with line := p.prev, prev := p.line }
  else p

/-- The value `!feof(*fh)` as a `char`. -/
def not_feof (fh : FileStream) : Nat :=
  if fh.eof then 0 else 1

/-- The function `advance_side`: the new context and the returned `char`. -/
def advance_side (ctx : context) (LorR : Char) : Result (context × Nat) :=
  match select_side ctx LorR with
  | none => bail .bad_LorR ctx
  | some p0 =>
    let p := rotate p0
    match p.fh with
    | none => .undefined
    | some fh =>
      match fgets (MAX_LINE_LEN - 1) fh with
      | (some bytes, fh') =>
        let s := cstr bytes
        if strnlen s (MAX_LINE_LEN - 1) = 0 then .undefined
        else
          let len := strnlen s (MAX_LINE_LEN - 1) - 1
          let ctx' := store_side ctx LorR { p with line := s.take len, fh := some fh' }
          (detect_sort_problems ctx').bind (fun _ => .ok (ctx', not_feof fh'))
      | (none, fh') =>
        let ctx' := store_side ctx LorR { p with line := [], fh := some fh' }
        .ok (ctx', not_feof fh')

/-- The function `open_file`, given the outcome of `fopen` for reading. -/
def open_file (contents : Option (List Nat)) : Option FileStream :=
  contents.map (fun bytes => { rest := bytes, eof := false })

/-- The first part of `open_context`: the three `open_file` calls, the zeroed buffers
and the initial line pointers. -/
def fresh_context (left right : Option (List Nat)) (out : Bool) : context :=
  { left_fh := open_file left
    right_fh := open_file right
    out_fh := if out then some [] else none
    prev_left_line := []
    left_line := []
    prev_right_line := []
    right_line := [] }

/-- The function `open_context`. `left` and `right` are the contents of the two input
files (`none` when `fopen` fails), `out` tells whether the output file can be opened. -/
def open_context (left right : Option (List Nat)) (out : Bool) : Result context :=
  let ctx := fresh_context left right out
  (advance_side ctx 'L').bind (fun l =>
    if l.2 = 0 then bail .left_file_empty l.1
    else
      (advance_side l.1 'R').bind (fun r =>
        if r.2 = 0 then bail .right_file_empty r.1
        else .ok r.1))

/-- The function `close_context`. -/
def close_context (ctx : context) : Result context :=
  match ctx.left_fh, ctx.right_fh, ctx.out_fh with
  | some _, some _, some _ => .ok ctx
  | _, _, _ => .undefined

/-- The statement `fprintf(ctx.out_fh, "%s\n", ctx.left_line)`. -/
def fprintf_left_line (ctx : context) : Result context :=
  match ctx.out_fh with
  | none => .undefined
  | some lines => .ok { ctx with out_fh := some (lines ++ [ctx.left_line]) }

/-- The `default` label of the `switch` in `main`, up to its `break`. -/
def case_default (ctx : context) : Result (context × Nat) :=
  (fprintf_left_line ctx).bind (fun c0 =>
    (advance_side c0 'L').bind (fun l =>
      (advance_side l.1 'R').bind (fun r =>
        .ok (r.1, l.2 + r.2))))

/-- The `case 1` label of the `switch` in `main`; it has no `break` and runs on into
`default`. -/
def case_1 (ctx : context) (active_files : Nat) : Result (context × Nat) :=
  (advance_side ctx 'R').bind (fun r =>
    let _active_files := active_files + r.2
    case_default r.1)

/-- The `case -1` label of the `switch` in `main`; it has no `break` and runs on into
`case 1`. -/
def case_minus_1 (ctx : context) : Result (context × Nat) :=
  (advance_side ctx 'L').bind (fun l => case_1 l.1 l.2)

/-- One pass through the body of the `while` loop of `main`: the `switch`. -/
def merge_step (strncmp : Line → Line → Nat → Int) (ctx : context)
    (active_files : Nat) : Result (context × Nat) :=
  let c := strncmp ctx.left_line ctx.right_line MAX_LINE_LEN
  if c = -1 then case_minus_1 ctx
  else if c = 1 then case_1 ctx active_files
  else case_default ctx

/-- The loop `while (active_files == 2)` of `main`, with a bound on the number of
passes. -/
def merge_loop (strncmp : Line → Line → Nat → Int) :
    Nat → context → Nat → Result context
  | 0, ctx, active_files => if active_files = 2 then .out_of_fuel else .ok ctx
  | fuel + 1, ctx, active_files =>
    if active_files = 2 then
      (merge_step strncmp ctx active_files).bind (fun s =>
        merge_loop strncmp fuel s.1 s.2)
    else .ok ctx

/-- The function `main` after argument parsing: `open_context`, the merge loop and
`close_context`. The result `ok` is the exit with `EXIT_SUCCESS`. The loop bound is
one more than the number of bytes of the left file. -/
def main (strncmp : Line → Line → Nat → Int) (left right : Option (List Nat))
    (out : Bool) : Result context :=
  (open_context left right out).bind (fun ctx =>
    (merge_loop strncmp ((left.getD []).length + 1) ctx 2).bind close_context)

/-- The lines written to the output by a run that exits with `EXIT_SUCCESS`. -/
def output_of (r : Result context) : Option (List Line) :=
  match r with
  | .ok ctx => ctx.out_fh
  | _ => none

/-- The text file made of the given lines, each followed by a newline. -/
def file_of (lines : List Line) : List Nat :=
  lines.flatMap (fun l => l ++ [NL])

/-- The bytes of an ASCII text. -/
def ascii (s : String) : List Nat :=
  s.toList.map Char.toNat

/-- A line that `advance_side` can hold in full: no newline and no NUL inside, and with
its newline it fits into one `fgets` call. -/
def text_line (l : Line) : Prop :=
  (∀ b ∈ l, b ≠ NL ∧ b ≠ 0) ∧ l.length + 1 < MAX_LINE_LEN - 1

instance (l : Line) : Decidable (text_line l) :=
  inferInstanceAs (Decidable ((∀ b ∈ l, b ≠ NL ∧ b ≠ 0) ∧ l.length + 1 < MAX_LINE_LEN - 1))

/-- Byte-wise `a ≤ b`: what `detect_sort_problems` accepts for `prev` and `curr`. -/
def byteLe (a b : Line) : Prop :=
  byteCompare a b ≠ .gt

instance (a b : Line) : Decidable (byteLe a b) :=
  inferInstanceAs (Decidable (byteCompare a b ≠ .gt))

/-! ## Notions used to state and prove the properties -/

/-- The line that the next order check of a side compares against: the current line
if it is not empty (it is rotated into `prev`), the previous line otherwise. -/
def last_seen (line prev : Line) : Line :=
  if line = [] then prev else line

/-- The context after `advance_side(ctx, 'L')` stored `l` as the current left line and
left the stream in state `fh`. -/
def left_advanced (ctx : context) (l : Line) (fh : FileStream) : context :=
  { ctx with left_line := l,
             prev_left_line := last_seen ctx.left_line ctx.prev_left_line,
             left_fh := some fh }

/-- The context after `advance_side(ctx, 'R')` stored `l` as the current right line and
left the stream in state `fh`. -/
def right_advanced (ctx : context) (l : Line) (fh : FileStream) : context :=
  { ctx with right_line := l,
             prev_right_line := last_seen ctx.right_line ctx.prev_right_line,
             right_fh := some fh }

/-- The non-empty lines of a list of lines, in order. -/
def nonempty_lines (ls : List Line) : List Line :=
  ls.filter (fun l => decide (l ≠ []))

/-- One side of the merge after `k` of the lines `ls` of its file have been read:
the stream holds the remaining lines, the end-of-file flag is only set once all lines
are read, the non-empty lines read so far are in non-decreasing order and the last of
them is the line the next order check compares against, and a non-empty current line
is the line read last. -/
def SideInv (ls : List Line) (k : Nat) (fh : Option FileStream) (line prev : Line) : Prop :=
  k ≤ ls.length ∧
  (∃ e, fh = some ⟨file_of (ls.drop k), e⟩ ∧ (e = true → k = ls.length)) ∧
  (nonempty_lines (ls.take k)).Chain' byteLe ∧
  (∀ m ∈ (nonempty_lines (ls.take k)).getLast?, m = last_seen line prev) ∧
  (line ≠ [] → ∃ j, k = j + 1 ∧ ls.get? j = some line)

/-- The invariant of a run on the text files with lines `L` and `R`: both sides are in
step with their files, at least `a` (left) and `b` (right) more lines have been read
than written, and the non-empty lines written are a subsequence of the left lines read
(when `strict`, of the left lines read before a non-empty current line). -/
def RunInv (L R : List Line) (a b : Nat) (strict : Bool) (ctx : context) : Prop :=
  ∃ kL kR out,
    SideInv L kL ctx.left_fh ctx.left_line ctx.prev_left_line ∧
    SideInv R kR ctx.right_fh ctx.right_line ctx.prev_right_line ∧
    ctx.out_fh = some out ∧
    out.length + a ≤ kL ∧ out.length + b ≤ kR ∧
    (nonempty_lines out).Sublist (L.take kL) ∧
    (strict = true → ctx.left_line ≠ [] → (nonempty_lines out).Sublist (L.take (kL - 1)))

/-- The invariant at the head of the `while` loop: `active_files` is the sum of the
two values last returned by `advance_side`, and each side has read at least that many
more lines than were written. -/
def LoopInv (L R : List Line) (ctx : context) (active_files : Nat) : Prop :=
  ∃ l r, active_files = l + r ∧ l ≤ 1 ∧ r ≤ 1 ∧ RunInv L R l r true ctx

/-- The program ended by leaving `main` normally or through `exit(EXIT_FAILURE)`:
no undefined behaviour, and the loop bound was not used up. -/
def Result.exits {α : Type} (r : Result α) : Prop :=
  (∃ a, r = .ok a) ∨ (∃ w c, r = .exit_failure w c)

/-- A context in which both sides are in the same state: the same unread lines, the
same current and previous line. -/
def lockstep (rest : List Nat) (eof : Bool) (cur prev : Line) (out : List Line) : context :=
  { left_fh := some ⟨rest, eof⟩
    right_fh := some ⟨rest, eof⟩
    out_fh := some out
    prev_left_line := prev
    prev_right_line := prev
    left_line := cur
    right_line := cur }

/-- The line that `advance_side` leaves in the buffer after `fgets` stored `bytes`:
the C string with its last byte overwritten by NUL. -/
def stripped (bytes : List Nat) : Line :=
  (cstr bytes).take (strnlen (cstr bytes) (MAX_LINE_LEN - 1) - 1)

/-- The context with `out` as the lines written so far. -/
def with_output (ctx : context) (out : List Line) : context :=
  { ctx with out_fh := some out }

/-- A property of the way a piece of the program ends: `P` of the value it returns, `Q`
of the context in which `bail` ended the run. -/
def Result.holds {α : Type} (P : α → Prop) (Q : context → Prop) (r : Result α) : Prop :=
  match r with
  | .ok a => P a
  | .exit_failure _ c => Q c
  | .undefined => True
  | .out_of_fuel => True

/-- The lines that reading a file from its start yields: the strings that successive
`fgets` calls of `advance_side` leave in the line buffer (last byte overwritten), up to
the call that returns `NULL`. At most `fuel` calls are followed. -/
def read_lines : Nat → List Nat → List Line
  | 0, _ => []
  | fuel + 1, rest =>
    let r := fgets_loop (MAX_LINE_LEN - 1 - 1) rest
    if r.1 = [] then [] else stripped r.1 :: read_lines fuel r.2.1

/-- The lines that `advance_side` reads from a file with the given bytes (every call of
`fgets` that returns data takes at least one byte, so one call more than there are bytes
is enough). -/
def lines_read_from (bytes : List Nat) : List Line :=
  read_lines (bytes.length + 1) bytes

/-- The lines written so far are empty or lines read from the left file `left`. -/
def OutFromLeft (left : List Nat) (ctx : context) : Prop :=
  ∀ out, ctx.out_fh = some out → ∀ o ∈ out, o = [] ∨ o ∈ lines_read_from left

/-- The invariant behind `OutFromLeft`: what is still to be read from the left stream
are lines of the left file, and the left current line and the lines written are empty
or lines read from the left file. -/
def LeftInv (left : List Nat) (ctx : context) : Prop :=
  (∀ fh, ctx.left_fh = some fh → ∀ l ∈ lines_read_from fh.rest, l ∈ lines_read_from left) ∧
  (ctx.left_line = [] ∨ ctx.left_line ∈ lines_read_from left) ∧
  OutFromLeft left ctx

/-- One side reading a text file: the stream holds whole text lines, and once its
end-of-file flag is set nothing is left to read and the current line is empty. -/
def SideText (fh : Option FileStream) (line : Line) : Prop :=
  ∃ ls e, fh = some ⟨file_of ls, e⟩ ∧ (∀ l ∈ ls, text_line l) ∧
    (e = true → ls = [] ∧ line = [])

/-- Both sides are reading text files. -/
def TextInv (ctx : context) : Prop :=
  SideText ctx.left_fh ctx.left_line ∧ SideText ctx.right_fh ctx.right_line

/-- The contexts that occur in a run: the fresh context of `open_context`, and every
context that a returning `advance_side` call or a write of the left current line
produces from one of them. -/
inductive Reachable : context → Prop where
  | fresh (left right : Option (List Nat)) (out : Bool) :
      Reachable (fresh_context left right out)
  | advance {ctx ctx' : context} {r : Nat} (LorR : Char) :
      Reachable ctx → advance_side ctx LorR = .ok (ctx', r) → Reachable ctx'
  | write {ctx ctx' : context} :
      Reachable ctx → fprintf_left_line ctx = .ok ctx' → Reachable ctx'

/-- Each side satisfies `current = ""` or `previous <= current`. -/
def Checked (ctx : context) : Prop :=
  (ctx.left_line ≠ [] → byteLe ctx.prev_left_line ctx.left_line) ∧
  (ctx.right_line ≠ [] → byteLe ctx.prev_right_line ctx.right_line)

/-- The bookkeeping of a run on arbitrary inputs: each stream is open and has `preL`
(`preR`) of the lines of its file behind it, and at least `a` (left) and `b` (right)
more lines have been read than written. -/
def CountInv (left right : List Nat) (a b : Nat) (ctx : context) : Prop :=
  ∃ preL preR out,
    (∃ fl, ctx.left_fh = some fl ∧ lines_read_from left = preL ++ lines_read_from fl.rest) ∧
    (∃ fr, ctx.right_fh = some fr ∧
      lines_read_from right = preR ++ lines_read_from fr.rest) ∧
    ctx.out_fh = some out ∧ out.length + a ≤ preL.length ∧ out.length + b ≤ preR.length

/-- One side of a run on arbitrary bytes after the lines `pre` of its file have been
read: the stream is open and holds what follows them, the non-empty lines among `pre`
are in non-decreasing order, and the last of them is the line that the next order check
compares against. -/
def SideRead (bytes : List Nat) (pre : List Line) (fh : Option FileStream)
    (line prev : Line) : Prop :=
  (∃ f, fh = some f ∧ lines_read_from bytes = pre ++ lines_read_from f.rest) ∧
  (nonempty_lines pre).Chain' byteLe ∧
  (∀ m ∈ (nonempty_lines pre).getLast?, m = last_seen line prev)

/-- Both sides of a run on the files `left` and `right` are as `SideRead` says. -/
def ReadInv (left right : List Nat) (ctx : context) : Prop :=
  (∃ preL, SideRead left preL ctx.left_fh ctx.left_line ctx.prev_left_line) ∧
  (∃ preR, SideRead right preR ctx.right_fh ctx.right_line ctx.prev_right_line)

/-- All three files are open and no NUL byte is left to be read from either input. -/
def OpenNulFree (ctx : context) : Prop :=
  (∃ f, ctx.left_fh = some f ∧ ∀ b ∈ f.rest, b ≠ 0) ∧
  (∃ f, ctx.right_fh = some f ∧ ∀ b ∈ f.rest, b ≠ 0) ∧
  (∃ out, ctx.out_fh = some out)

/-- A piece of the program does not run into undefined behaviour, and `P` holds of the
value it returns. -/
def Result.defined {α : Type} (P : α → Prop) (r : Result α) : Prop :=
  match r with
  | .ok a => P a
  | .exit_failure _ _ => True
  | .undefined => False
  | .out_of_fuel => True

/-- The non-empty lines written are in non-decreasing order, and the last of them is not
above the line that the next order check of the left side compares against. -/
def OutSorted (ctx : context) : Prop :=
  ∀ out, ctx.out_fh = some out →
    (nonempty_lines out).Chain' byteLe ∧
    ∀ m ∈ (nonempty_lines out).getLast?,
      byteLe m (last_seen ctx.left_line ctx.prev_left_line)

/-- One side reading a file that is empty or ends with a newline: the stream is open,
what is left to read is empty or ends with a newline, and once the end-of-file flag is
set nothing is left to read and the current line is empty. -/
def SideTerminated (fh : Option FileStream) (line : Line) : Prop :=
  ∃ f, fh = some f ∧ (∀ x ∈ f.rest.getLast?, x = NL) ∧
    (f.eof = true → f.rest = [] ∧ line = [])

/-- Both sides are reading files that are empty or end with a newline. -/
def TerminatedInv (ctx : context) : Prop :=
  SideTerminated ctx.left_fh ctx.left_line ∧ SideTerminated ctx.right_fh ctx.right_line

/-! ## Lemmas -/

theorem Result.bind_eq_ok {α β : Type} {r : Result α} {f : α → Result β} {b : β}
    (h : r.bind f = .ok b) : ∃ a, r = .ok a ∧ f a = .ok b := by
  cases r <;> simp [Result.bind] at h
  exact ⟨_, rfl, h⟩

theorem advance_side_L_frame {ctx ctx' : context} {r : Nat}
    (h : advance_side ctx 'L' = .ok (ctx', r)) :
    ctx'.right_fh = ctx.right_fh ∧ ctx'.right_line = ctx.right_line ∧
    ctx'.prev_right_line = ctx.prev_right_line ∧ ctx'.out_fh = ctx.out_fh ∧
    (∃ fh, ctx'.left_fh = some fh ∧ r = not_feof fh) := by
  unfold advance_side at h
  simp only [select_side, if_true] at h
  split at h
  · simp at h
  · rename_i fh hfh
    split at h
    · rename_i bytes fh' hg
      split at h
      · simp at h
      · obtain ⟨_, _, h2⟩ := Result.bind_eq_ok h
        simp only [Result.ok.injEq, Prod.mk.injEq] at h2
        obtain ⟨rfl, rfl⟩ := h2
        simp [store_side]
    · rename_i fh' hg
      simp only [Result.ok.injEq, Prod.mk.injEq] at h
      obtain ⟨rfl, rfl⟩ := h
      simp [store_side]

theorem rotate_eq (p : side_ptrs) :
    rotate p = { line := if p.line = [] then p.line else p.prev,
                 prev := last_seen p.line p.prev, fh := p.fh } := by
  unfold rotate strnlen last_seen
  cases hp : p.line with
  | nil => cases p; simp_all
  | cons a t => simp [MAX_LINE_LEN]

theorem advance_side_L_eof {ctx : context} {e : Bool}
    (hfh : ctx.left_fh = some ⟨[], e⟩) :
    advance_side ctx 'L'
      = .ok (left_advanced ctx [] ⟨[], true⟩, 0) := by
  unfold advance_side left_advanced
  simp [select_side, rotate_eq, hfh, fgets, fgets_loop, MAX_LINE_LEN, store_side, not_feof]

theorem advance_side_R_eof {ctx : context} {e : Bool}
    (hfh : ctx.right_fh = some ⟨[], e⟩) :
    advance_side ctx 'R'
      = .ok (right_advanced ctx [] ⟨[], true⟩, 0) := by
  unfold advance_side right_advanced
  simp [select_side, rotate_eq, hfh, fgets, fgets_loop, MAX_LINE_LEN, store_side, not_feof]

theorem fgets_loop_line (l rest : List Nat) (hl : ∀ b ∈ l, b ≠ NL) :
    ∀ k, l.length < k → fgets_loop k (l ++ NL :: rest) = (l ++ [NL], rest, false) := by
  induction l with
  | nil =>
    intro k hk
    cases k with
    | zero => simp at hk
    | succ k => simp [fgets_loop]
  | cons a t ih =>
    intro k hk
    cases k with
    | zero => simp at hk
    | succ k =>
      have ha : a ≠ NL := hl a (by simp)
      have := ih (fun b hb => hl b (by simp [hb])) k (by simpa using hk)
      simp [fgets_loop, ha, this]

theorem file_of_cons (l : Line) (ls : List Line) :
    file_of (l :: ls) = l ++ NL :: file_of ls := by
  simp [file_of]

theorem cstr_text (l : Line) (hl : ∀ b ∈ l, b ≠ 0) : cstr (l ++ [NL]) = l ++ [NL] := by
  unfold cstr
  rw [List.takeWhile_eq_self_iff]
  intro b hb
  simp only [List.mem_append, List.mem_singleton] at hb
  rcases hb with hb | hb
  · simpa using hl b hb
  · simp [hb, NL]

theorem fgets_text (l : Line) (ls : List Line) (e : Bool) (hl : text_line l) :
    fgets (MAX_LINE_LEN - 1) ⟨file_of (l :: ls), e⟩ = (some (l ++ [NL]), ⟨file_of ls, e⟩) := by
  have h1 := fgets_loop_line l (file_of ls) (fun b hb => (hl.1 b hb).1) (MAX_LINE_LEN - 1 - 1)
    (by have := hl.2; simp only [MAX_LINE_LEN] at this ⊢; omega)
  simp [fgets, file_of_cons, h1]

theorem strcmp_pos_iff (a b : Line) : strcmp a b > 0 ↔ ¬ byteLe a b := by
  unfold strcmp byteLe
  cases byteCompare a b <;> simp

theorem detect_sort_problems_ok {ctx : context} {u : Unit}
    (h : detect_sort_problems ctx = .ok u) :
    (ctx.left_line ≠ [] → byteLe ctx.prev_left_line ctx.left_line) ∧
    (ctx.right_line ≠ [] → byteLe ctx.prev_right_line ctx.right_line) := by
  unfold detect_sort_problems at h
  simp only [strcmp_pos_iff] at h
  split at h
  · unfold bail at h; split at h <;> simp at h
  · split at h
    · unfold bail at h; split at h <;> simp at h
    · rename_i h1 h2
      constructor
      · intro hne; by_contra hc; exact h1 ⟨hne, hc⟩
      · intro hne; by_contra hc; exact h2 ⟨hne, hc⟩

theorem advance_side_L_text {ctx : context} (l : Line) (ls : List Line) (e : Bool)
    (hl : text_line l) (hfh : ctx.left_fh = some ⟨file_of (l :: ls), e⟩) :
    advance_side ctx 'L'
      = (detect_sort_problems (left_advanced ctx l ⟨file_of ls, e⟩)).bind
          (fun _ => .ok (left_advanced ctx l ⟨file_of ls, e⟩, not_feof ⟨file_of ls, e⟩)) := by
  have hc : cstr (l ++ [NL]) = l ++ [NL] := cstr_text l (fun b hb => (hl.1 b hb).2)
  have hlen : l.length + 1 ≤ 255 := by have := hl.2; simp only [MAX_LINE_LEN] at this; omega
  have hf : fgets 255 ⟨file_of (l :: ls), e⟩ = (some (l ++ [NL]), ⟨file_of ls, e⟩) :=
    fgets_text l ls e hl
  unfold advance_side left_advanced
  simp [select_side, rotate_eq, hfh, hf, hc, strnlen, store_side, MAX_LINE_LEN, hlen]

theorem advance_side_R_text {ctx : context} (l : Line) (ls : List Line) (e : Bool)
    (hl : text_line l) (hfh : ctx.right_fh = some ⟨file_of (l :: ls), e⟩) :
    advance_side ctx 'R'
      = (detect_sort_problems (right_advanced ctx l ⟨file_of ls, e⟩)).bind
          (fun _ => .ok (right_advanced ctx l ⟨file_of ls, e⟩, not_feof ⟨file_of ls, e⟩)) := by
  have hc : cstr (l ++ [NL]) = l ++ [NL] := cstr_text l (fun b hb => (hl.1 b hb).2)
  have hlen : l.length + 1 ≤ 255 := by have := hl.2; simp only [MAX_LINE_LEN] at this; omega
  have hf : fgets 255 ⟨file_of (l :: ls), e⟩ = (some (l ++ [NL]), ⟨file_of ls, e⟩) :=
    fgets_text l ls e hl
  unfold advance_side right_advanced
  simp [select_side, rotate_eq, hfh, hf, hc, strnlen, store_side, MAX_LINE_LEN, hlen]

theorem nonempty_lines_append (xs ys : List Line) :
    nonempty_lines (xs ++ ys) = nonempty_lines xs ++ nonempty_lines ys := by
  simp [nonempty_lines]

theorem take_succ_of_lt {ls : List Line} {k : Nat} (hk : k < ls.length) :
    ls.take (k + 1) = ls.take k ++ [ls[k]] := by
  rw [List.take_succ]
  simp [List.getElem?_eq_getElem hk]

theorem drop_of_lt {ls : List Line} {k : Nat} (hk : k < ls.length) :
    ls.drop k = ls[k] :: ls.drop (k + 1) := by
  simp

theorem SideInv_read {ls : List Line} {k : Nat} {fh : Option FileStream}
    {line prev : Line} (h : SideInv ls k fh line prev) (hk : k < ls.length)
    (hchk : ls[k] ≠ [] → byteLe (last_seen line prev) ls[k]) :
    SideInv ls (k + 1) (some ⟨file_of (ls.drop (k + 1)), false⟩) ls[k] (last_seen line prev) := by
  obtain ⟨_, _, hch, hlast, _⟩ := h
  refine ⟨hk, ⟨false, rfl, by simp⟩, ?_, ?_, ?_⟩
  · rw [take_succ_of_lt hk, nonempty_lines_append]
    by_cases hne : ls[k] = []
    · simpa [nonempty_lines, hne] using hch
    · have : nonempty_lines [ls[k]] = [ls[k]] := by simp [nonempty_lines, hne]
      rw [this, List.chain'_append]
      refine ⟨hch, by simp, ?_⟩
      intro x hx y hy
      simp only [List.head?_cons, Option.mem_def, Option.some.injEq] at hy
      subst hy
      rw [hlast x hx]
      exact hchk hne
  · rw [take_succ_of_lt hk, nonempty_lines_append]
    by_cases hne : ls[k] = []
    · intro m hm
      have : nonempty_lines [ls[k]] = [] := by simp [nonempty_lines, hne]
      rw [this, List.append_nil] at hm
      rw [hlast m hm, hne]
      simp [last_seen]
    · intro m hm
      have : nonempty_lines [ls[k]] = [ls[k]] := by simp [nonempty_lines, hne]
      rw [this] at hm
      simp only [List.getLast?_append, List.getLast?_singleton, Option.mem_def] at hm
      have hm2 : ls[k] = m := by simpa [Option.or] using hm
      rw [← hm2]
      simp [last_seen, hne]
  · intro _
    exact ⟨k, rfl, by simp [List.get?_eq_getElem?, List.getElem?_eq_getElem hk]⟩

theorem SideInv_eof {ls : List Line} {k : Nat} {fh : Option FileStream}
    {line prev : Line} (h : SideInv ls k fh line prev) (hk : k = ls.length) :
    SideInv ls k (some ⟨[], true⟩) [] (last_seen line prev) := by
  obtain ⟨hle, _, hch, hlast, _⟩ := h
  refine ⟨hle, ⟨true, ?_, fun _ => hk⟩, hch, ?_, by simp⟩
  · simp [hk, file_of]
  · intro m hm
    rw [hlast m hm]
    simp [last_seen]

theorem take_sublist_take (ls : List Line) {i j : Nat} (h : i ≤ j) :
    (ls.take i).Sublist (ls.take j) := by
  have : ls.take i = (ls.take j).take i := by
    rw [List.take_take]; congr 1; omega
  rw [this]
  exact List.take_sublist _ _

/-- A side in step with its file is at the end of the file, or its stream starts
with the next line and the end-of-file flag is clear. -/
theorem SideInv_advance {ls : List Line} {k : Nat} {fh : Option FileStream}
    {line prev : Line} (h : SideInv ls k fh line prev) :
    (k = ls.length ∧ ∃ e, fh = some ⟨[], e⟩) ∨
    (∃ hk : k < ls.length, fh = some ⟨file_of (ls[k] :: ls.drop (k + 1)), false⟩) := by
  obtain ⟨hle, ⟨e, hfh, he⟩, _⟩ := h
  by_cases hk : k < ls.length
  · right
    refine ⟨hk, ?_⟩
    have : e = false := by
      cases e
      · rfl
      · have := he rfl; omega
    rw [hfh, this, drop_of_lt hk]
  · left
    have hk2 : k = ls.length := by omega
    refine ⟨hk2, e, ?_⟩
    rw [hfh]
    simp [hk2, file_of]

theorem RunInv_mono {L R : List Line} {a b a' b' : Nat} {s : Bool} {ctx : context}
    (h : RunInv L R a b s ctx) (ha : a' ≤ a) (hb : b' ≤ b) : RunInv L R a' b' false ctx := by
  obtain ⟨kL, kR, out, hL, hR, hout, hca, hcb, hsub, _⟩ := h
  exact ⟨kL, kR, out, hL, hR, hout, by omega, by omega, hsub, by simp⟩

theorem RunInv_mono_strict {L R : List Line} {a b a' b' : Nat} {s : Bool} {ctx : context}
    (h : RunInv L R a b s ctx) (ha : a' ≤ a) (hb : b' ≤ b) : RunInv L R a' b' s ctx := by
  obtain ⟨kL, kR, out, hL, hR, hout, hca, hcb, hsub, hs⟩ := h
  exact ⟨kL, kR, out, hL, hR, hout, by omega, by omega, hsub, hs⟩

theorem RunInv_advance_L {L R : List Line} {a b : Nat} {s : Bool} {ctx ctx' : context}
    {r : Nat} (hL : ∀ l ∈ L, text_line l) (h : RunInv L R a b s ctx)
    (hadv : advance_side ctx 'L' = .ok (ctx', r)) :
    r ≤ 1 ∧ RunInv L R (a + r) b true ctx' := by
  obtain ⟨kL, kR, out, hSL, hSR, hout, hca, hcb, hsub, hs⟩ := h
  rcases SideInv_advance hSL with ⟨hk, e, hfh⟩ | ⟨hk, hfh⟩
  · rw [advance_side_L_eof hfh] at hadv
    simp only [Result.ok.injEq, Prod.mk.injEq] at hadv
    obtain ⟨rfl, rfl⟩ := hadv
    refine ⟨by omega, kL, kR, out, SideInv_eof hSL hk, hSR, hout, by omega, hcb, hsub, ?_⟩
    intro _ hne
    exact absurd rfl hne
  · rw [advance_side_L_text _ _ _ (hL _ (List.getElem_mem hk)) hfh] at hadv
    obtain ⟨u, hdet, hret⟩ := Result.bind_eq_ok hadv
    simp only [Result.ok.injEq, Prod.mk.injEq] at hret
    obtain ⟨rfl, rfl⟩ := hret
    have hchk := (detect_sort_problems_ok hdet).1
    refine ⟨by simp [not_feof], kL + 1, kR, out, ?_, hSR, hout, ?_, hcb, ?_, ?_⟩
    · exact SideInv_read hSL hk hchk
    · simp [not_feof]; omega
    · exact hsub.trans (take_sublist_take L (by omega))
    · intro _ _
      simpa using hsub

theorem RunInv_advance_R {L R : List Line} {a b : Nat} {s : Bool} {ctx ctx' : context}
    {r : Nat} (hR : ∀ l ∈ R, text_line l) (h : RunInv L R a b s ctx)
    (hadv : advance_side ctx 'R' = .ok (ctx', r)) :
    r ≤ 1 ∧ RunInv L R a (b + r) s ctx' := by
  obtain ⟨kL, kR, out, hSL, hSR, hout, hca, hcb, hsub, hs⟩ := h
  rcases SideInv_advance hSR with ⟨hk, e, hfh⟩ | ⟨hk, hfh⟩
  · rw [advance_side_R_eof hfh] at hadv
    simp only [Result.ok.injEq, Prod.mk.injEq] at hadv
    obtain ⟨rfl, rfl⟩ := hadv
    exact ⟨by omega, kL, kR, out, hSL, SideInv_eof hSR hk, hout, hca, by omega, hsub, hs⟩
  · rw [advance_side_R_text _ _ _ (hR _ (List.getElem_mem hk)) hfh] at hadv
    obtain ⟨u, hdet, hret⟩ := Result.bind_eq_ok hadv
    simp only [Result.ok.injEq, Prod.mk.injEq] at hret
    obtain ⟨rfl, rfl⟩ := hret
    have hchk := (detect_sort_problems_ok hdet).2
    refine ⟨by simp [not_feof], kL, kR + 1, out, hSL, ?_, hout, hca, ?_, hsub, hs⟩
    · exact SideInv_read hSR hk hchk
    · simp [not_feof]; omega

theorem RunInv_fprintf {L R : List Line} {a b : Nat} {ctx ctx' : context}
    (h : RunInv L R (a + 1) (b + 1) true ctx)
    (hpr : fprintf_left_line ctx = .ok ctx') :
    RunInv L R a b false ctx' := by
  obtain ⟨kL, kR, out, hSL, hSR, hout, hca, hcb, hsub, hs⟩ := h
  unfold fprintf_left_line at hpr
  rw [hout] at hpr
  simp only [Result.ok.injEq] at hpr
  subst hpr
  refine ⟨kL, kR, out ++ [ctx.left_line], hSL, hSR, rfl, ?_, ?_, ?_, by simp⟩
  · simp; omega
  · simp; omega
  · rw [nonempty_lines_append]
    by_cases hne : ctx.left_line = []
    · simpa [nonempty_lines, hne] using hsub
    · have h1 : nonempty_lines [ctx.left_line] = [ctx.left_line] := by
        simp [nonempty_lines, hne]
      obtain ⟨j, hj, hget⟩ := hSL.2.2.2.2 hne
      have hjlt : j < L.length := by
        have := hSL.1; omega
      have hLj : L[j] = ctx.left_line := by
        rw [List.get?_eq_getElem?, List.getElem?_eq_getElem hjlt] at hget
        exact Option.some.inj hget
      have h2 := hs rfl hne
      rw [hj] at h2 ⊢
      simp only [Nat.add_sub_cancel] at h2
      rw [h1, take_succ_of_lt hjlt, hLj]
      exact List.Sublist.append h2 (List.Sublist.refl _)

theorem LoopInv_case_default {L R : List Line} {ctx : context} {res : context × Nat}
    (hL : ∀ l ∈ L, text_line l) (hR : ∀ l ∈ R, text_line l)
    (h : RunInv L R 1 1 true ctx) (hres : case_default ctx = .ok res) :
    LoopInv L R res.1 res.2 := by
  unfold case_default at hres
  obtain ⟨c0, hpr, hres⟩ := Result.bind_eq_ok hres
  obtain ⟨⟨c1, l⟩, hl, hres⟩ := Result.bind_eq_ok hres
  obtain ⟨⟨c2, r⟩, hr, hres⟩ := Result.bind_eq_ok hres
  simp only [Result.ok.injEq] at hres
  subst hres
  have h0 := RunInv_fprintf (a := 0) (b := 0) h hpr
  obtain ⟨hl1, h1⟩ := RunInv_advance_L hL h0 hl
  obtain ⟨hr1, h2⟩ := RunInv_advance_R hR h1 hr
  exact ⟨l, r, rfl, hl1, hr1, by simpa using h2⟩

theorem LoopInv_case_1 {L R : List Line} {ctx : context} {act : Nat}
    {res : context × Nat}
    (hL : ∀ l ∈ L, text_line l) (hR : ∀ l ∈ R, text_line l)
    (h : RunInv L R 1 1 true ctx) (hres : case_1 ctx act = .ok res) :
    LoopInv L R res.1 res.2 := by
  unfold case_1 at hres
  obtain ⟨⟨c1, r⟩, hr, hres⟩ := Result.bind_eq_ok hres
  obtain ⟨_, h1⟩ := RunInv_advance_R hR h hr
  exact LoopInv_case_default hL hR (RunInv_mono_strict h1 (le_refl _) (by omega)) hres

theorem LoopInv_case_minus_1 {L R : List Line} {ctx : context} {res : context × Nat}
    (hL : ∀ l ∈ L, text_line l) (hR : ∀ l ∈ R, text_line l)
    (h : RunInv L R 1 1 true ctx) (hres : case_minus_1 ctx = .ok res) :
    LoopInv L R res.1 res.2 := by
  unfold case_minus_1 at hres
  obtain ⟨⟨c1, l⟩, hl, hres⟩ := Result.bind_eq_ok hres
  obtain ⟨_, h1⟩ := RunInv_advance_L hL h hl
  exact LoopInv_case_1 hL hR (RunInv_mono_strict h1 (by omega) (le_refl _)) hres

theorem LoopInv_merge_step {L R : List Line} {ctx : context} {res : context × Nat}
    (cmp : Line → Line → Nat → Int)
    (hL : ∀ l ∈ L, text_line l) (hR : ∀ l ∈ R, text_line l)
    (h : LoopInv L R ctx 2) (hres : merge_step cmp ctx 2 = .ok res) :
    LoopInv L R res.1 res.2 := by
  obtain ⟨l, r, hlr, hl, hr, h⟩ := h
  have hl1 : l = 1 := by omega
  have hr1 : r = 1 := by omega
  subst hl1 hr1
  unfold merge_step at hres
  simp only at hres
  split at hres
  · exact LoopInv_case_minus_1 hL hR h hres
  · split at hres
    · exact LoopInv_case_1 hL hR h hres
    · exact LoopInv_case_default hL hR h hres

theorem LoopInv_merge_loop {L R : List Line} (cmp : Line → Line → Nat → Int)
    (hL : ∀ l ∈ L, text_line l) (hR : ∀ l ∈ R, text_line l) :
    ∀ (fuel : Nat) (ctx : context) (act : Nat) (ctx' : context),
      LoopInv L R ctx act → merge_loop cmp fuel ctx act = .ok ctx' →
      RunInv L R 0 0 false ctx' := by
  intro fuel
  induction fuel with
  | zero =>
    intro ctx act ctx' h hres
    unfold merge_loop at hres
    split at hres
    · simp at hres
    · simp only [Result.ok.injEq] at hres
      subst hres
      obtain ⟨l, r, _, _, _, h⟩ := h
      exact RunInv_mono h (by omega) (by omega)
  | succ fuel ih =>
    intro ctx act ctx' h hres
    unfold merge_loop at hres
    split at hres
    · rename_i hact
      subst hact
      obtain ⟨s, hs, hres⟩ := Result.bind_eq_ok hres
      exact ih s.1 s.2 ctx' (LoopInv_merge_step cmp hL hR h hs) hres
    · simp only [Result.ok.injEq] at hres
      subst hres
      obtain ⟨l, r, _, _, _, h⟩ := h
      exact RunInv_mono h (by omega) (by omega)

theorem RunInv_fresh_context (L R : List Line) :
    RunInv L R 0 0 true (fresh_context (some (file_of L)) (some (file_of R)) true) := by
  refine ⟨0, 0, [], ?_, ?_, rfl, by simp, by simp, by simp [nonempty_lines], ?_⟩
  · exact ⟨by simp, ⟨false, rfl, by simp⟩, by simp [nonempty_lines], by simp [nonempty_lines],
      by simp [fresh_context]⟩
  · exact ⟨by simp, ⟨false, rfl, by simp⟩, by simp [nonempty_lines], by simp [nonempty_lines],
      by simp [fresh_context]⟩
  · intro _ h
    simp [fresh_context] at h

theorem LoopInv_open_context {L R : List Line} {ctx : context}
    (hL : ∀ l ∈ L, text_line l) (hR : ∀ l ∈ R, text_line l)
    (h : open_context (some (file_of L)) (some (file_of R)) true = .ok ctx) :
    LoopInv L R ctx 2 := by
  unfold open_context at h
  obtain ⟨⟨c1, l⟩, hl, h⟩ := Result.bind_eq_ok h
  simp only at h
  split at h
  · unfold bail at h; split at h <;> simp at h
  · rename_i hl0
    obtain ⟨⟨c2, r⟩, hr, h⟩ := Result.bind_eq_ok h
    simp only at h
    split at h
    · unfold bail at h; split at h <;> simp at h
    · rename_i hr0
      simp only [Result.ok.injEq] at h
      subst h
      obtain ⟨hl1, h1⟩ := RunInv_advance_L hL (RunInv_fresh_context L R) hl
      obtain ⟨hr1, h2⟩ := RunInv_advance_R hR h1 hr
      have hl2 : l = 1 := by omega
      have hr2 : r = 1 := by omega
      subst hl2 hr2
      exact ⟨1, 1, rfl, le_refl _, le_refl _, by simpa using h2⟩

/-- Every run on two text files that exits with `EXIT_SUCCESS` ends in a context that
satisfies the run invariant. -/
theorem RunInv_main {L R : List Line} {ctx : context} (cmp : Line → Line → Nat → Int)
    (hL : ∀ l ∈ L, text_line l) (hR : ∀ l ∈ R, text_line l)
    (h : main cmp (some (file_of L)) (some (file_of R)) true = .ok ctx) :
    RunInv L R 0 0 false ctx := by
  unfold main at h
  obtain ⟨c0, hopen, h⟩ := Result.bind_eq_ok h
  obtain ⟨c1, hloop, h⟩ := Result.bind_eq_ok h
  have hc : c1 = ctx := by
    unfold close_context at h
    split at h <;> simp at h
    exact h
  subst hc
  exact LoopInv_merge_loop cmp hL hR _ c0 2 c1 (LoopInv_open_context hL hR hopen) hloop

theorem byteLe_nil_left (b : Line) : byteLe [] b := by
  cases b <;> simp [byteLe, byteCompare]

theorem byteLe_nil_right {a : Line} (h : byteLe a []) : a = [] := by
  cases a with
  | nil => rfl
  | cons x t => simp [byteLe, byteCompare] at h

theorem byteLe_cons (x y : Nat) (as bs : Line) :
    byteLe (x :: as) (y :: bs) ↔ x < y ∨ (x = y ∧ byteLe as bs) := by
  unfold byteLe
  rw [byteCompare]
  by_cases h1 : x < y
  · simp [h1]
  · by_cases h2 : y < x
    · simp [h1, h2]; omega
    · have : x = y := by omega
      simp [h1, this]

theorem byteLe_refl (a : Line) : byteLe a a := by
  induction a with
  | nil => exact byteLe_nil_left _
  | cons x t ih => rw [byteLe_cons]; exact Or.inr ⟨rfl, ih⟩

theorem byteLe_trans : ∀ {a b c : Line}, byteLe a b → byteLe b c → byteLe a c := by
  intro a
  induction a with
  | nil => intro b c _ _; exact byteLe_nil_left _
  | cons x t ih =>
    intro b c hab hbc
    cases b with
    | nil => simp [byteLe, byteCompare] at hab
    | cons y bs =>
      cases c with
      | nil => simp [byteLe, byteCompare] at hbc
      | cons z cs =>
        rw [byteLe_cons] at hab hbc ⊢
        rcases hab with hab | ⟨rfl, hab⟩
        · rcases hbc with hbc | ⟨rfl, _⟩
          · exact Or.inl (by omega)
          · exact Or.inl hab
        · rcases hbc with hbc | ⟨rfl, hbc⟩
          · exact Or.inl hbc
          · exact Or.inr ⟨rfl, ih hab hbc⟩

theorem nonempty_lines_sublist {xs ys : List Line} (h : xs.Sublist ys) :
    (nonempty_lines xs).Sublist (nonempty_lines ys) :=
  h.filter _

theorem nonempty_lines_idem (xs : List Line) :
    nonempty_lines (nonempty_lines xs) = nonempty_lines xs := by
  simp [nonempty_lines]

theorem Result.exits_bind {α β : Type} {r : Result α} {f : α → Result β}
    (hr : r.exits) (hf : ∀ a, r = .ok a → (f a).exits) : (r.bind f).exits := by
  rcases hr with ⟨a, rfl⟩ | ⟨w, c, rfl⟩
  · exact hf a rfl
  · exact Or.inr ⟨w, c, rfl⟩

theorem bail_exits {α : Type} (msg : Failure) {ctx : context}
    (h1 : ctx.left_fh.isSome) (h2 : ctx.right_fh.isSome) (h3 : ctx.out_fh.isSome) :
    (bail msg ctx : Result α).exits := by
  unfold bail
  cases hl : ctx.left_fh <;> cases hr : ctx.right_fh <;> cases ho : ctx.out_fh <;>
    simp_all [Result.exits]

theorem detect_sort_problems_exits {ctx : context}
    (h1 : ctx.left_fh.isSome) (h2 : ctx.right_fh.isSome) (h3 : ctx.out_fh.isSome) :
    (detect_sort_problems ctx).exits := by
  unfold detect_sort_problems
  split
  · exact bail_exits _ h1 h2 h3
  · split
    · exact bail_exits _ h1 h2 h3
    · exact Or.inl ⟨(), rfl⟩

theorem RunInv_handles {L R : List Line} {a b : Nat} {s : Bool} {ctx : context}
    (h : RunInv L R a b s ctx) :
    ctx.left_fh.isSome ∧ ctx.right_fh.isSome ∧ ctx.out_fh.isSome := by
  obtain ⟨kL, kR, out, hSL, hSR, hout, _⟩ := h
  obtain ⟨_, ⟨_, h1, _⟩, _⟩ := hSL
  obtain ⟨_, ⟨_, h2, _⟩, _⟩ := hSR
  simp [h1, h2, hout]

theorem advance_side_L_exits {L R : List Line} {a b : Nat} {s : Bool} {ctx : context}
    (hL : ∀ l ∈ L, text_line l) (h : RunInv L R a b s ctx) :
    (advance_side ctx 'L').exits := by
  obtain ⟨_, hr, ho⟩ := RunInv_handles h
  obtain ⟨kL, kR, out, hSL, _⟩ := h
  rcases SideInv_advance hSL with ⟨hk, e, hfh⟩ | ⟨hk, hfh⟩
  · rw [advance_side_L_eof hfh]
    exact Or.inl ⟨_, rfl⟩
  · rw [advance_side_L_text _ _ _ (hL _ (List.getElem_mem hk)) hfh]
    refine Result.exits_bind (detect_sort_problems_exits ?_ ?_ ?_) (fun _ _ => Or.inl ⟨_, rfl⟩)
    · simp [left_advanced]
    · simpa [left_advanced] using hr
    · simpa [left_advanced] using ho

theorem advance_side_R_exits {L R : List Line} {a b : Nat} {s : Bool} {ctx : context}
    (hR : ∀ l ∈ R, text_line l) (h : RunInv L R a b s ctx) :
    (advance_side ctx 'R').exits := by
  obtain ⟨hl, _, ho⟩ := RunInv_handles h
  obtain ⟨kL, kR, out, _, hSR, _⟩ := h
  rcases SideInv_advance hSR with ⟨hk, e, hfh⟩ | ⟨hk, hfh⟩
  · rw [advance_side_R_eof hfh]
    exact Or.inl ⟨_, rfl⟩
  · rw [advance_side_R_text _ _ _ (hR _ (List.getElem_mem hk)) hfh]
    refine Result.exits_bind (detect_sort_problems_exits ?_ ?_ ?_) (fun _ _ => Or.inl ⟨_, rfl⟩)
    · simpa [right_advanced] using hl
    · simp [right_advanced]
    · simpa [right_advanced] using ho

theorem fprintf_left_line_exits {L R : List Line} {a b : Nat} {s : Bool} {ctx : context}
    (h : RunInv L R a b s ctx) : (fprintf_left_line ctx).exits := by
  obtain ⟨kL, kR, out, _, _, hout, _⟩ := h
  unfold fprintf_left_line
  rw [hout]
  exact Or.inl ⟨_, rfl⟩

theorem case_default_exits {L R : List Line} {ctx : context}
    (hL : ∀ l ∈ L, text_line l) (hR : ∀ l ∈ R, text_line l)
    (h : RunInv L R 1 1 true ctx) : (case_default ctx).exits := by
  unfold case_default
  refine Result.exits_bind (fprintf_left_line_exits h) (fun c0 hpr => ?_)
  have h0 := RunInv_fprintf (a := 0) (b := 0) h hpr
  refine Result.exits_bind (advance_side_L_exits hL h0) (fun l hl => ?_)
  obtain ⟨_, h1⟩ := RunInv_advance_L hL h0 hl
  refine Result.exits_bind (advance_side_R_exits hR h1) (fun r _ => Or.inl ⟨_, rfl⟩)

theorem case_1_exits {L R : List Line} {ctx : context} (act : Nat)
    (hL : ∀ l ∈ L, text_line l) (hR : ∀ l ∈ R, text_line l)
    (h : RunInv L R 1 1 true ctx) : (case_1 ctx act).exits := by
  unfold case_1
  refine Result.exits_bind (advance_side_R_exits hR h) (fun r hr => ?_)
  obtain ⟨_, h1⟩ := RunInv_advance_R hR h hr
  exact case_default_exits hL hR (RunInv_mono_strict h1 (le_refl _) (by omega))

theorem case_minus_1_exits {L R : List Line} {ctx : context}
    (hL : ∀ l ∈ L, text_line l) (hR : ∀ l ∈ R, text_line l)
    (h : RunInv L R 1 1 true ctx) : (case_minus_1 ctx).exits := by
  unfold case_minus_1
  refine Result.exits_bind (advance_side_L_exits hL h) (fun l hl => ?_)
  obtain ⟨_, h1⟩ := RunInv_advance_L hL h hl
  exact case_1_exits _ hL hR (RunInv_mono_strict h1 (by omega) (le_refl _))

theorem merge_step_exits {L R : List Line} {ctx : context}
    (cmp : Line → Line → Nat → Int) (act : Nat)
    (hL : ∀ l ∈ L, text_line l) (hR : ∀ l ∈ R, text_line l)
    (h : RunInv L R 1 1 true ctx) : (merge_step cmp ctx act).exits := by
  unfold merge_step
  simp only
  split
  · exact case_minus_1_exits hL hR h
  · split
    · exact case_1_exits _ hL hR h
    · exact case_default_exits hL hR h

theorem advance_side_R_frame {ctx ctx' : context} {r : Nat}
    (h : advance_side ctx 'R' = .ok (ctx', r)) :
    ctx'.left_fh = ctx.left_fh ∧ ctx'.left_line = ctx.left_line ∧
    ctx'.prev_left_line = ctx.prev_left_line ∧ ctx'.out_fh = ctx.out_fh ∧
    (∃ fh, ctx'.right_fh = some fh ∧ r = not_feof fh) := by
  unfold advance_side at h
  simp [select_side] at h
  split at h
  · simp at h
  · rename_i fh hfh
    split at h
    · rename_i bytes fh' hg
      split at h
      · simp at h
      · obtain ⟨_, _, h2⟩ := Result.bind_eq_ok h
        simp only [Result.ok.injEq, Prod.mk.injEq] at h2
        obtain ⟨rfl, rfl⟩ := h2
        simp [store_side]
    · rename_i fh' hg
      simp only [Result.ok.injEq, Prod.mk.injEq] at h
      obtain ⟨rfl, rfl⟩ := h
      simp [store_side]

theorem case_default_out {ctx : context} {res : context × Nat}
    (h : case_default ctx = .ok res) :
    ∃ out, ctx.out_fh = some out ∧ res.1.out_fh = some (out ++ [ctx.left_line]) := by
  unfold case_default at h
  obtain ⟨c0, hpr, h⟩ := Result.bind_eq_ok h
  obtain ⟨⟨c1, l⟩, hl, h⟩ := Result.bind_eq_ok h
  obtain ⟨⟨c2, r⟩, hr, h⟩ := Result.bind_eq_ok h
  simp only [Result.ok.injEq] at h
  subst h
  unfold fprintf_left_line at hpr
  cases ho : ctx.out_fh with
  | none => simp [ho] at hpr
  | some out =>
    simp only [ho, Result.ok.injEq] at hpr
    subst hpr
    refine ⟨out, rfl, ?_⟩
    rw [(advance_side_R_frame hr).2.2.2.1, (advance_side_L_frame hl).2.2.2.1]

theorem case_1_out {ctx : context} {act : Nat} {res : context × Nat}
    (h : case_1 ctx act = .ok res) :
    ∃ out line, ctx.out_fh = some out ∧ res.1.out_fh = some (out ++ [line]) := by
  unfold case_1 at h
  obtain ⟨⟨c1, r⟩, hr, h⟩ := Result.bind_eq_ok h
  obtain ⟨out, h1, h2⟩ := case_default_out h
  refine ⟨out, _, ?_, h2⟩
  rw [← (advance_side_R_frame hr).2.2.2.1]
  exact h1

theorem case_minus_1_out {ctx : context} {res : context × Nat}
    (h : case_minus_1 ctx = .ok res) :
    ∃ out line, ctx.out_fh = some out ∧ res.1.out_fh = some (out ++ [line]) := by
  unfold case_minus_1 at h
  obtain ⟨⟨c1, l⟩, hl, h⟩ := Result.bind_eq_ok h
  obtain ⟨out, line, h1, h2⟩ := case_1_out h
  refine ⟨out, line, ?_, h2⟩
  rw [← (advance_side_L_frame hl).2.2.2.1]
  exact h1

/-- A pass through the `switch` that returns has appended exactly one line to the
output. -/
theorem merge_step_out {cmp : Line → Line → Nat → Int} {ctx : context} {act : Nat}
    {res : context × Nat} (h : merge_step cmp ctx act = .ok res) :
    ∃ out line, ctx.out_fh = some out ∧ res.1.out_fh = some (out ++ [line]) := by
  unfold merge_step at h
  simp only at h
  split at h
  · exact case_minus_1_out h
  · split at h
    · exact case_1_out h
    · obtain ⟨out, h1, h2⟩ := case_default_out h
      exact ⟨out, _, h1, h2⟩

theorem merge_loop_exits {L R : List Line} (cmp : Line → Line → Nat → Int)
    (hL : ∀ l ∈ L, text_line l) (hR : ∀ l ∈ R, text_line l) :
    ∀ (fuel : Nat) (ctx : context) (act : Nat),
      LoopInv L R ctx act →
      (∀ out, ctx.out_fh = some out → L.length ≤ fuel + out.length) →
      (merge_loop cmp fuel ctx act).exits := by
  intro fuel
  induction fuel with
  | zero =>
    intro ctx act h hfuel
    unfold merge_loop
    split
    · rename_i hact
      exfalso
      obtain ⟨l, r, hlr, hl, hr, kL, kR, out, hSL, _, hout, ha, _⟩ := h
      have := hfuel out hout
      have := hSL.1
      omega
    · exact Or.inl ⟨_, rfl⟩
  | succ fuel ih =>
    intro ctx act h hfuel
    unfold merge_loop
    split
    · rename_i hact
      subst hact
      have h11 : RunInv L R 1 1 true ctx := by
        obtain ⟨l, r, hlr, hl, hr, h⟩ := h
        have hl1 : l = 1 := by omega
        have hr1 : r = 1 := by omega
        subst hl1 hr1
        exact h
      refine Result.exits_bind (merge_step_exits cmp 2 hL hR h11) (fun s hs => ?_)
      refine ih s.1 s.2 (LoopInv_merge_step cmp hL hR h hs) ?_
      intro out' hout'
      obtain ⟨out, line, ho, ho'⟩ := merge_step_out hs
      rw [ho'] at hout'
      have := hfuel out ho
      simp only [Option.some.injEq] at hout'
      subst hout'
      simp
      omega
    · exact Or.inl ⟨_, rfl⟩

theorem length_le_file_of (L : List Line) : L.length ≤ (file_of L).length := by
  induction L with
  | nil => simp
  | cons l ls ih =>
    rw [file_of_cons]
    simp
    omega

theorem open_context_exits {L R : List Line}
    (hL : ∀ l ∈ L, text_line l) (hR : ∀ l ∈ R, text_line l) :
    (open_context (some (file_of L)) (some (file_of R)) true).exits := by
  unfold open_context
  have h0 := RunInv_fresh_context L R
  refine Result.exits_bind (advance_side_L_exits hL h0) (fun l hl => ?_)
  obtain ⟨_, h1⟩ := RunInv_advance_L hL h0 hl
  obtain ⟨a1, a2, a3⟩ := RunInv_handles h1
  split
  · exact bail_exits _ a1 a2 a3
  · refine Result.exits_bind (advance_side_R_exits hR h1) (fun r hr => ?_)
    obtain ⟨_, h2⟩ := RunInv_advance_R hR h1 hr
    obtain ⟨b1, b2, b3⟩ := RunInv_handles h2
    split
    · exact bail_exits _ b1 b2 b3
    · exact Or.inl ⟨_, rfl⟩

/-- On two text files whose three handles open, `main` ends by returning
`EXIT_SUCCESS` or through `exit(EXIT_FAILURE)`: the loop bound of the model is never
used up and no undefined behaviour occurs. -/
theorem main_exits (cmp : Line → Line → Nat → Int) {L R : List Line}
    (hL : ∀ l ∈ L, text_line l) (hR : ∀ l ∈ R, text_line l) :
    (main cmp (some (file_of L)) (some (file_of R)) true).exits := by
  unfold main
  refine Result.exits_bind (open_context_exits hL hR) (fun c0 hopen => ?_)
  have hinv := LoopInv_open_context hL hR hopen
  refine Result.exits_bind (merge_loop_exits cmp hL hR _ c0 2 hinv ?_) (fun c1 hloop => ?_)
  · intro out _
    have := length_le_file_of L
    simp only [Option.getD_some]
    omega
  · have hfin := LoopInv_merge_loop cmp hL hR _ c0 2 c1 hinv hloop
    obtain ⟨a1, a2, a3⟩ := RunInv_handles hfin
    unfold close_context
    cases hl : c1.left_fh <;> cases hr : c1.right_fh <;> cases ho : c1.out_fh <;>
      simp_all [Result.exits]

theorem detect_sort_problems_eq_ok {ctx : context}
    (h1 : ctx.left_line ≠ [] → byteLe ctx.prev_left_line ctx.left_line)
    (h2 : ctx.right_line ≠ [] → byteLe ctx.prev_right_line ctx.right_line) :
    detect_sort_problems ctx = .ok () := by
  unfold detect_sort_problems
  simp only [strcmp_pos_iff]
  rw [if_neg, if_neg]
  · rintro ⟨hne, hc⟩; exact hc (h2 hne)
  · rintro ⟨hne, hc⟩; exact hc (h1 hne)

theorem strncmp_self {cmp : Line → Line → Nat → Int} (hcmp : StrncmpConforms cmp)
    (a : Line) (n : Nat) : cmp a a n = 0 := by
  have h := (hcmp a a n).2.1
  rw [h]
  generalize a.take n = t
  induction t with
  | nil => rfl
  | cons x t ih => simp [byteCompare, ih]

theorem merge_step_lockstep_read {cmp : Line → Line → Nat → Int}
    (hcmp : StrncmpConforms cmp) (l : Line) (ls : List Line) (cur prev : Line)
    (out : List Line) (hl : text_line l)
    (hprev : cur ≠ [] → byteLe prev cur)
    (hnext : l ≠ [] → byteLe (last_seen cur prev) l) :
    merge_step cmp (lockstep (file_of (l :: ls)) false cur prev out) 2
      = .ok (lockstep (file_of ls) false l (last_seen cur prev) (out ++ [cur]), 2) := by
  have h0 : cmp cur cur MAX_LINE_LEN = 0 := strncmp_self hcmp _ _
  unfold merge_step
  simp only [lockstep, h0]
  rw [if_neg (by decide), if_neg (by decide)]
  unfold case_default fprintf_left_line
  simp only [Result.bind]
  rw [advance_side_L_text l ls false hl rfl]
  rw [detect_sort_problems_eq_ok (by simpa [left_advanced] using hnext)
    (by simpa [left_advanced] using hprev)]
  simp only [Result.bind]
  rw [advance_side_R_text l ls false hl rfl]
  rw [detect_sort_problems_eq_ok (by simpa [left_advanced, right_advanced] using hnext)
    (by simpa [left_advanced, right_advanced] using hnext)]
  simp [Result.bind, left_advanced, right_advanced, not_feof]

theorem merge_step_lockstep_eof {cmp : Line → Line → Nat → Int}
    (hcmp : StrncmpConforms cmp) (cur prev : Line) (out : List Line) :
    merge_step cmp (lockstep [] false cur prev out) 2
      = .ok (lockstep [] true [] (last_seen cur prev) (out ++ [cur]), 0) := by
  have h0 : cmp cur cur MAX_LINE_LEN = 0 := strncmp_self hcmp _ _
  unfold merge_step
  simp only [lockstep, h0]
  rw [if_neg (by decide), if_neg (by decide)]
  unfold case_default fprintf_left_line
  simp only [Result.bind]
  rw [advance_side_L_eof (e := false) rfl]
  simp only [Result.bind]
  rw [advance_side_R_eof (e := false) rfl]
  simp [Result.bind, left_advanced, right_advanced]

theorem strncmp_sign_conforms : StrncmpConforms strncmp_sign := by
  intro a b n
  unfold strncmp_sign strcmp
  cases byteCompare (a.take n) (b.take n) <;> simp

theorem merge_loop_lockstep {cmp : Line → Line → Nat → Int} (hcmp : StrncmpConforms cmp) :
    ∀ (ls : List Line) (cur prev : Line) (out : List Line) (fuel : Nat),
      (∀ l ∈ ls, text_line l) → (cur ≠ [] → byteLe prev cur) → (cur = [] → prev = []) →
      List.Chain' byteLe (cur :: ls) → ls.length < fuel →
      ∃ p, merge_loop cmp fuel (lockstep (file_of ls) false cur prev out) 2
        = .ok (lockstep [] true [] p (out ++ cur :: ls)) := by
  intro ls
  induction ls with
  | nil =>
    intro cur prev out fuel _ _ _ _ hfuel
    cases fuel with
    | zero => simp at hfuel
    | succ f =>
      refine ⟨last_seen cur prev, ?_⟩
      have hf : file_of [] = [] := rfl
      rw [hf]
      unfold merge_loop
      rw [if_pos rfl, merge_step_lockstep_eof hcmp]
      simp only [Result.bind]
      cases f <;> simp [merge_loop]
  | cons l ls ih =>
    intro cur prev out fuel htext hprev hnil hch hfuel
    cases fuel with
    | zero => simp at hfuel
    | succ f =>
      have hcurl : byteLe cur l := (List.chain'_cons.mp hch).1
      have hnext : l ≠ [] → byteLe (last_seen cur prev) l := by
        intro _
        unfold last_seen
        split
        · rename_i hc
          rw [hnil hc]
          exact byteLe_nil_left _
        · exact hcurl
      have hnil' : l = [] → last_seen cur prev = [] := by
        intro hl0
        rw [hl0] at hcurl
        have hc := byteLe_nil_right hcurl
        simp [last_seen, hc, hnil hc]
      obtain ⟨p, hp⟩ := ih l (last_seen cur prev) (out ++ [cur]) f
        (fun x hx => htext x (by simp [hx])) hnext hnil' (List.chain'_cons.mp hch).2
        (by simpa using hfuel)
      refine ⟨p, ?_⟩
      unfold merge_loop
      rw [if_pos rfl, merge_step_lockstep_read hcmp l ls cur prev out (htext l (by simp))
        hprev hnext]
      simp only [Result.bind]
      rw [hp]
      simp

theorem open_context_lockstep (l : Line) (ls : List Line) (hl : text_line l) :
    open_context (some (file_of (l :: ls))) (some (file_of (l :: ls))) true
      = .ok (lockstep (file_of ls) false l [] []) := by
  unfold open_context
  dsimp only
  rw [advance_side_L_text l ls false hl rfl]
  rw [detect_sort_problems_eq_ok (by intro _; exact byteLe_nil_left _)
    (by intro h; exact absurd rfl h)]
  simp only [Result.bind, not_feof, Bool.false_eq_true, if_false, one_ne_zero]
  rw [advance_side_R_text l ls false hl rfl]
  rw [detect_sort_problems_eq_ok (by intro _; exact byteLe_nil_left _)
    (by intro _; exact byteLe_nil_left _)]
  simp [Result.bind, not_feof, left_advanced, right_advanced, fresh_context, lockstep,
    last_seen]

theorem advance_side_L_read {ctx : context} (fh : FileStream) {fh' : FileStream} {bytes : List Nat}
    (hfh : ctx.left_fh = some fh)
    (hg : fgets (MAX_LINE_LEN - 1) fh = (some bytes, fh')) (hne : cstr bytes ≠ []) :
    advance_side ctx 'L'
      = (detect_sort_problems (left_advanced ctx (stripped bytes) fh')).bind
          (fun _ => .ok (left_advanced ctx (stripped bytes) fh', not_feof fh')) := by
  have hlen : ¬ strnlen (cstr bytes) (MAX_LINE_LEN - 1) = 0 := by
    unfold strnlen
    cases hcs : cstr bytes with
    | nil => exact absurd hcs hne
    | cons a t => simp [MAX_LINE_LEN]
  unfold advance_side
  simp only [select_side, if_true, rotate_eq, hfh, hg, if_neg hlen]
  rfl

theorem advance_side_R_read {ctx : context} (fh : FileStream) {fh' : FileStream} {bytes : List Nat}
    (hfh : ctx.right_fh = some fh)
    (hg : fgets (MAX_LINE_LEN - 1) fh = (some bytes, fh')) (hne : cstr bytes ≠ []) :
    advance_side ctx 'R'
      = (detect_sort_problems (right_advanced ctx (stripped bytes) fh')).bind
          (fun _ => .ok (right_advanced ctx (stripped bytes) fh', not_feof fh')) := by
  have hlen : ¬ strnlen (cstr bytes) (MAX_LINE_LEN - 1) = 0 := by
    unfold strnlen
    cases hcs : cstr bytes with
    | nil => exact absurd hcs hne
    | cons a t => simp [MAX_LINE_LEN]
  have hLR : ¬ ('R' = 'L') := by decide
  unfold advance_side
  simp only [select_side, if_neg hLR, if_true, rotate_eq, hfh, hg, if_neg hlen]
  rfl

theorem fgets_cons (c : Nat) (t : List Nat) (e : Bool) :
    ∃ bs fh', fgets (MAX_LINE_LEN - 1) ⟨c :: t, e⟩ = (some (c :: bs), fh') := by
  obtain ⟨bs, hbs⟩ : ∃ bs, (fgets_loop (MAX_LINE_LEN - 1 - 1) (c :: t)).1 = c :: bs := by
    show ∃ bs, (fgets_loop (253 + 1) (c :: t)).1 = c :: bs
    unfold fgets_loop
    split
    · exact ⟨[], rfl⟩
    · exact ⟨_, rfl⟩
  refine ⟨bs, ⟨(fgets_loop (MAX_LINE_LEN - 1 - 1) (c :: t)).2.1,
    e || (fgets_loop (MAX_LINE_LEN - 1 - 1) (c :: t)).2.2⟩, ?_⟩
  unfold fgets
  simp only [hbs, reduceCtorEq, if_false]

theorem cstr_cons_ne_nil {c : Nat} (bs : List Nat) (hc : c ≠ 0) : cstr (c :: bs) ≠ [] := by
  unfold cstr
  rw [List.takeWhile_cons_of_pos (by simpa using hc)]
  exact List.cons_ne_nil _ _

theorem advance_side_L_fresh (c : Nat) (t right : List Nat) (hc : c ≠ 0) :
    ∃ c1 r, advance_side (fresh_context (some (c :: t)) (some right) true) 'L'
      = .ok (c1, r) := by
  obtain ⟨bs, fh', hg⟩ := fgets_cons c t false
  rw [advance_side_L_read ⟨c :: t, false⟩ rfl hg (cstr_cons_ne_nil bs hc)]
  rw [detect_sort_problems_eq_ok]
  · exact ⟨_, _, rfl⟩
  · intro _
    exact byteLe_nil_left _
  · intro h
    exact absurd rfl h

theorem bail_eq {α : Type} (msg : Failure) {ctx : context} (a b : FileStream)
    (out : List Line) (h1 : ctx.left_fh = some a) (h2 : ctx.right_fh = some b)
    (h3 : ctx.out_fh = some out) :
    (bail msg ctx : Result α) = .exit_failure msg ctx := by
  unfold bail
  rw [h1, h2, h3]

theorem output_of_eq_some {r : Result context} {out : List Line}
    (h : output_of r = some out) : ∃ ctx, r = .ok ctx ∧ ctx.out_fh = some out := by
  cases r with
  | ok ctx => exact ⟨ctx, rfl, h⟩
  | exit_failure w c => simp [output_of] at h
  | undefined => simp [output_of] at h
  | out_of_fuel => simp [output_of] at h

/-! ## C1: the union example of the specification -/

/-- C1 (the code at the failing input): on Left = a, c, d and Right = b, c, e the run
exits normally having written the two lines "c" and "" (not a, b, c, d, e), with a
sign-valued and with a difference-valued `strncmp` alike. -/
theorem main_union_example :
    output_of (main strncmp_sign (some (ascii "a\nc\nd\n")) (some (ascii "b\nc\ne\n")) true)
      = some [ascii "c", ascii ""] ∧
    output_of (main strncmp_diff (some (ascii "a\nc\nd\n")) (some (ascii "b\nc\ne\n")) true)
      = some [ascii "c", ascii ""] := by
  constructor <;> decide

/-! ## C2: merging a file with itself -/

/-- C2 (counterexample): merging the file with the two lines x, x with itself writes
x, x, which is not the file with its run of equal lines collapsed (the single line x). -/
theorem self_merge_keeps_duplicates :
    output_of (main strncmp_sign (some (file_of [ascii "x", ascii "x"]))
        (some (file_of [ascii "x", ascii "x"])) true) = some [ascii "x", ascii "x"] ∧
    output_of (main strncmp_diff (some (file_of [ascii "x", ascii "x"]))
        (some (file_of [ascii "x", ascii "x"])) true) = some [ascii "x", ascii "x"] ∧
    List.destutter (fun a b => a ≠ b) [ascii "x", ascii "x"] = [ascii "x"] ∧
    output_of (main strncmp_sign (some (file_of [ascii "x", ascii "x"]))
        (some (file_of [ascii "x", ascii "x"])) true)
      ≠ some (List.destutter (fun a b => a ≠ b) [ascii "x", ascii "x"]) := by
  refine ⟨?_, ?_, ?_, ?_⟩ <;> decide

/-- C2 (amended): for every conforming `strncmp` and every non-empty text file whose
lines are in non-decreasing byte-wise order, merging the file with itself exits
normally and writes exactly the lines of the file, in order, each as often as it occurs
(runs of equal lines are kept, not collapsed). -/
theorem merge_with_itself (cmp : Line → Line → Nat → Int) (hcmp : StrncmpConforms cmp)
    (L : List Line) (hne : L ≠ []) (hL : ∀ l ∈ L, text_line l)
    (hsorted : List.Chain' byteLe L) :
    output_of (main cmp (some (file_of L)) (some (file_of L)) true) = some L := by
  cases L with
  | nil => exact absurd rfl hne
  | cons l ls =>
    unfold main
    rw [open_context_lockstep l ls (hL l (by simp))]
    simp only [Result.bind]
    obtain ⟨p, hp⟩ := merge_loop_lockstep hcmp ls l [] []
      ((file_of (l :: ls)).length + 1) (fun x hx => hL x (by simp [hx]))
      (fun _ => byteLe_nil_left _) (fun _ => rfl) hsorted
      (by have := length_le_file_of (l :: ls); simp at this ⊢; omega)
    simp only [Option.getD_some]
    rw [hp]
    simp [close_context, lockstep, output_of]

/-- C2 (witness): the amended statement at the file with the two lines x, x. -/
theorem merge_with_itself_witness :
    StrncmpConforms strncmp_sign ∧ [ascii "x", ascii "x"] ≠ [] ∧
    (∀ l ∈ [ascii "x", ascii "x"], text_line l) ∧
    List.Chain' byteLe [ascii "x", ascii "x"] ∧
    output_of (main strncmp_sign (some (file_of [ascii "x", ascii "x"]))
      (some (file_of [ascii "x", ascii "x"])) true) = some [ascii "x", ascii "x"] :=
  ⟨strncmp_sign_conforms, by decide, by decide,
    List.chain'_cons.mpr ⟨by decide, List.chain'_singleton _⟩,
    merge_with_itself strncmp_sign strncmp_sign_conforms [ascii "x", ascii "x"]
      (by decide) (by decide) (List.chain'_cons.mpr ⟨by decide, List.chain'_singleton _⟩)⟩

/-! ## C4: empty inputs -/

/-- C4: when all three files open and the left or the right input is empty (the left
one not starting with a NUL byte), `open_context` ends the run through `bail` with the
"Left file is empty." or "Right file is empty." message; nothing has been written to
the output at that point, and `main` ends the same way, so the merge loop is never
entered. -/
theorem open_context_empty_input (left right : List Nat)
    (hempty : left = [] ∨ right = []) (hnul : left.head? ≠ some 0) :
    ∃ why ctx, open_context (some left) (some right) true = .exit_failure why ctx ∧
      (why = .left_file_empty ∨ why = .right_file_empty) ∧ ctx.out_fh = some [] ∧
      ∀ cmp, main cmp (some left) (some right) true = .exit_failure why ctx := by
  have key : ∃ why ctx, open_context (some left) (some right) true = .exit_failure why ctx ∧
      (why = .left_file_empty ∨ why = .right_file_empty) ∧ ctx.out_fh = some [] := by
    cases left with
    | nil => exact ⟨_, _, rfl, Or.inl rfl, rfl⟩
    | cons c t =>
      have hr : right = [] := by simpa using hempty
      subst hr
      have hc : c ≠ 0 := by simpa using hnul
      obtain ⟨c1, r, hadv⟩ := advance_side_L_fresh c t [] hc
      obtain ⟨f1, f2, f3, f4, fh, f5, _⟩ := advance_side_L_frame hadv
      have f1' : c1.right_fh = some ⟨[], false⟩ := by rw [f1]; rfl
      have f4' : c1.out_fh = some [] := by rw [f4]; rfl
      unfold open_context
      dsimp only
      rw [hadv]
      simp only [Result.bind]
      by_cases hr0 : r = 0
      · rw [if_pos hr0, bail_eq _ _ _ _ f5 f1' f4']
        exact ⟨_, _, rfl, Or.inl rfl, f4'⟩
      · rw [if_neg hr0, advance_side_R_eof f1']
        simp only [Result.bind, if_true]
        rw [bail_eq _ fh ⟨[], true⟩ [] (by simpa [right_advanced] using f5)
          (by simp [right_advanced]) (by simpa [right_advanced] using f4')]
        exact ⟨_, _, rfl, Or.inr rfl, by simpa [right_advanced] using f4'⟩
  obtain ⟨why, ctx, h1, h2, h3⟩ := key
  refine ⟨why, ctx, h1, h2, h3, ?_⟩
  intro cmp
  unfold main
  rw [h1]
  rfl

/-- C4 (witness): the statement at the left file with the one line a and an empty right
file. -/
theorem open_context_empty_input_witness :
    (ascii "a\n" = [] ∨ ascii "" = []) ∧ (ascii "a\n").head? ≠ some 0 ∧
    ∃ why ctx, open_context (some (ascii "a\n")) (some (ascii "")) true
        = .exit_failure why ctx ∧
      (why = .left_file_empty ∨ why = .right_file_empty) ∧ ctx.out_fh = some [] ∧
      ∀ cmp, main cmp (some (ascii "a\n")) (some (ascii "")) true = .exit_failure why ctx :=
  ⟨by decide, by decide,
    open_context_empty_input (ascii "a\n") (ascii "") (by decide) (by decide)⟩

/-! ## C7: the last line without a newline -/

/-- C7 (the code at the failing input): the left file holds the single line "ab" with no
newline after it; `advance_side` makes "a" the current line (the last character is
overwritten in place of a newline) and returns 0. -/
theorem advance_side_unterminated_line :
    advance_side (fresh_context (some (ascii "ab")) (some (ascii "x\n")) true) 'L'
      = .ok ({ left_fh := some ⟨[], true⟩, right_fh := some ⟨ascii "x\n", false⟩,
               out_fh := some [], prev_left_line := [], prev_right_line := [],
               left_line := ascii "a", right_line := [] }, 0) := by
  decide

/-! ## C8: the line-length cap -/

set_option maxRecDepth 100000 in
/-- C8 (the code at the failing input): a line of 254 characters followed by a newline is
not loaded completely, the current line is its first 253 characters and the newline
stays in the stream; of a line of 300 characters the current line is the first 253
characters, not the first 255. -/
theorem advance_side_long_line :
    advance_side (fresh_context (some (List.replicate 254 97 ++ [NL]))
        (some (ascii "x\n")) true) 'L'
      = .ok ({ left_fh := some ⟨[NL], false⟩, right_fh := some ⟨ascii "x\n", false⟩,
               out_fh := some [], prev_left_line := [], prev_right_line := [],
               left_line := List.replicate 253 97, right_line := [] }, 1) ∧
    advance_side (fresh_context (some (List.replicate 300 97 ++ [NL]))
        (some (ascii "x\n")) true) 'L'
      = .ok ({ left_fh := some ⟨List.replicate 46 97 ++ [NL], false⟩,
               right_fh := some ⟨ascii "x\n", false⟩,
               out_fh := some [], prev_left_line := [], prev_right_line := [],
               left_line := List.replicate 253 97, right_line := [] }, 1) := by
  constructor <;> rfl

/-! ## C9: files that cannot be opened -/

/-- C9 (the code at the failing input): when only the output file cannot be opened,
`open_context` returns normally after reading the first line of each input, and `main`
goes on into the merge loop, where the first `fprintf` gets the `NULL` handle; when the
left input cannot be opened, `open_context` hands the `NULL` handle to `fgets`. Neither
case ends in `exit(EXIT_FAILURE)`. -/
theorem open_failure_not_fatal :
    open_context (some (ascii "a\n")) (some (ascii "a\n")) false
      = .ok { left_fh := some ⟨[], false⟩, right_fh := some ⟨[], false⟩,
              out_fh := none, prev_left_line := [], prev_right_line := [],
              left_line := ascii "a", right_line := ascii "a" } ∧
    main strncmp_sign (some (ascii "a\n")) (some (ascii "a\n")) false = .undefined ∧
    open_context none (some (ascii "a\n")) true = .undefined := by
  refine ⟨?_, ?_, ?_⟩ <;> decide

/-! ## C10: the merge step on differing lines -/

/-- C10 (the code at the failing input): after priming Left = a, c, d and
Right = b, c, e the current lines are a and b; the pass through the `switch` writes c
(not the smaller line a), reads two lines from each file, and leaves d and e as the
current lines, so the right side's current line has changed too. -/
theorem merge_step_differing_example :
    open_context (some (ascii "a\nc\nd\n")) (some (ascii "b\nc\ne\n")) true
      = .ok { left_fh := some ⟨ascii "c\nd\n", false⟩,
              right_fh := some ⟨ascii "c\ne\n", false⟩,
              out_fh := some [], prev_left_line := [], prev_right_line := [],
              left_line := ascii "a", right_line := ascii "b" } ∧
    merge_step strncmp_sign
        { left_fh := some ⟨ascii "c\nd\n", false⟩, right_fh := some ⟨ascii "c\ne\n", false⟩,
          out_fh := some [], prev_left_line := [], prev_right_line := [],
          left_line := ascii "a", right_line := ascii "b" } 2
      = .ok ({ left_fh := some ⟨[], false⟩, right_fh := some ⟨[], false⟩,
               out_fh := some [ascii "c"], prev_left_line := ascii "c",
               prev_right_line := ascii "c", left_line := ascii "d",
               right_line := ascii "e" }, 2) ∧
    merge_step strncmp_diff
        { left_fh := some ⟨ascii "c\nd\n", false⟩, right_fh := some ⟨ascii "c\ne\n", false⟩,
          out_fh := some [], prev_left_line := [], prev_right_line := [],
          left_line := ascii "a", right_line := ascii "b" } 2
      = .ok ({ left_fh := some ⟨[], false⟩, right_fh := some ⟨[], false⟩,
               out_fh := some [ascii "c"], prev_left_line := ascii "c",
               prev_right_line := ascii "c", left_line := ascii "d",
               right_line := ascii "e" }, 2) := by
  refine ⟨?_, ?_, ?_⟩ <;> decide

/-! ## The four ways `advance_side` can go -/

theorem advance_side_L_null {ctx : context} (fh : FileStream) {fh' : FileStream}
    (hfh : ctx.left_fh = some fh) (hg : fgets (MAX_LINE_LEN - 1) fh = (none, fh')) :
    advance_side ctx 'L' = .ok (left_advanced ctx [] fh', not_feof fh') := by
  unfold advance_side
  simp only [select_side, if_true, rotate_eq, hfh, hg]
  rfl

theorem advance_side_R_null {ctx : context} (fh : FileStream) {fh' : FileStream}
    (hfh : ctx.right_fh = some fh) (hg : fgets (MAX_LINE_LEN - 1) fh = (none, fh')) :
    advance_side ctx 'R' = .ok (right_advanced ctx [] fh', not_feof fh') := by
  have hLR : ¬ ('R' = 'L') := by decide
  unfold advance_side
  simp only [select_side, if_neg hLR, if_true, rotate_eq, hfh, hg]
  rfl

theorem advance_side_L_none {ctx : context} (hfh : ctx.left_fh = none) :
    advance_side ctx 'L' = .undefined := by
  unfold advance_side
  simp only [select_side, if_true, rotate_eq, hfh]

theorem advance_side_R_none {ctx : context} (hfh : ctx.right_fh = none) :
    advance_side ctx 'R' = .undefined := by
  have hLR : ¬ ('R' = 'L') := by decide
  unfold advance_side
  simp only [select_side, if_neg hLR, if_true, rotate_eq, hfh]

theorem advance_side_L_nul {ctx : context} (fh : FileStream) {fh' : FileStream}
    {bytes : List Nat} (hfh : ctx.left_fh = some fh)
    (hg : fgets (MAX_LINE_LEN - 1) fh = (some bytes, fh')) (hnul : cstr bytes = []) :
    advance_side ctx 'L' = .undefined := by
  unfold advance_side
  simp only [select_side, if_true, rotate_eq, hfh, hg, hnul, strnlen]
  rfl

theorem advance_side_R_nul {ctx : context} (fh : FileStream) {fh' : FileStream}
    {bytes : List Nat} (hfh : ctx.right_fh = some fh)
    (hg : fgets (MAX_LINE_LEN - 1) fh = (some bytes, fh')) (hnul : cstr bytes = []) :
    advance_side ctx 'R' = .undefined := by
  have hLR : ¬ ('R' = 'L') := by decide
  unfold advance_side
  simp only [select_side, if_neg hLR, if_true, rotate_eq, hfh, hg, hnul, strnlen]
  rfl

/-- The outcome of `fgets` on a stream: `NULL`, or some bytes. -/
theorem fgets_cases (fh : FileStream) :
    (∃ fh', fgets (MAX_LINE_LEN - 1) fh = (none, fh')) ∨
    (∃ bytes fh', fgets (MAX_LINE_LEN - 1) fh = (some bytes, fh')) := by
  unfold fgets
  simp only
  split
  · exact Or.inl ⟨_, rfl⟩
  · exact Or.inr ⟨_, _, rfl⟩

theorem bail_cases {α : Type} (msg : Failure) (ctx : context) :
    (bail msg ctx : Result α) = .exit_failure msg ctx ∨ (bail msg ctx : Result α) = .undefined := by
  unfold bail
  split
  · exact Or.inl rfl
  · exact Or.inr rfl

theorem detect_sort_problems_fail {ctx c : context} {w : Failure}
    (h : detect_sort_problems ctx = .exit_failure w c) :
    c = ctx ∧ ctx.left_fh.isSome ∧ ctx.right_fh.isSome ∧ ctx.out_fh.isSome ∧
    ((w = .left_out_of_order ∧ ctx.left_line ≠ [] ∧
        ¬ byteLe ctx.prev_left_line ctx.left_line) ∨
     (w = .right_out_of_order ∧ ctx.right_line ≠ [] ∧
        ¬ byteLe ctx.prev_right_line ctx.right_line)) := by
  have hb : ∀ (msg : Failure), (bail msg ctx : Result Unit) = .exit_failure w c →
      msg = w ∧ c = ctx ∧ ctx.left_fh.isSome ∧ ctx.right_fh.isSome ∧ ctx.out_fh.isSome := by
    intro msg hm
    unfold bail at hm
    split at hm
    · rename_i h1 h2 h3
      simp only [Result.exit_failure.injEq] at hm
      exact ⟨hm.1, hm.2.symm, by simp [h1], by simp [h2], by simp [h3]⟩
    · simp at hm
  unfold detect_sort_problems at h
  simp only [strcmp_pos_iff] at h
  split at h
  · rename_i hc
    obtain ⟨hw, e1, e2, e3, e4⟩ := hb _ h
    exact ⟨e1, e2, e3, e4, Or.inl ⟨hw.symm, hc.1, hc.2⟩⟩
  · split at h
    · rename_i hc
      obtain ⟨hw, e1, e2, e3, e4⟩ := hb _ h
      exact ⟨e1, e2, e3, e4, Or.inr ⟨hw.symm, hc.1, hc.2⟩⟩
    · simp at h

theorem advance_side_L_inv {ctx ctx' : context} {r : Nat}
    (h : advance_side ctx 'L' = .ok (ctx', r)) :
    ∃ fh fh', ctx.left_fh = some fh ∧ r = not_feof fh' ∧
      ((fgets (MAX_LINE_LEN - 1) fh = (none, fh') ∧ ctx' = left_advanced ctx [] fh') ∨
       (∃ bytes, fgets (MAX_LINE_LEN - 1) fh = (some bytes, fh') ∧ cstr bytes ≠ [] ∧
          ctx' = left_advanced ctx (stripped bytes) fh' ∧
          detect_sort_problems ctx' = .ok ())) := by
  cases hfh : ctx.left_fh with
  | none => rw [advance_side_L_none hfh] at h; simp at h
  | some fh =>
    rcases fgets_cases fh with ⟨fh', hg⟩ | ⟨bytes, fh', hg⟩
    · rw [advance_side_L_null fh hfh hg] at h
      simp only [Result.ok.injEq, Prod.mk.injEq] at h
      exact ⟨fh, fh', rfl, h.2.symm, Or.inl ⟨hg, h.1.symm⟩⟩
    · by_cases hc : cstr bytes = []
      · rw [advance_side_L_nul fh hfh hg hc] at h; simp at h
      · rw [advance_side_L_read fh hfh hg hc] at h
        obtain ⟨u, hd, h2⟩ := Result.bind_eq_ok h
        simp only [Result.ok.injEq, Prod.mk.injEq] at h2
        refine ⟨fh, fh', rfl, h2.2.symm, Or.inr ⟨bytes, hg, hc, h2.1.symm, ?_⟩⟩
        rw [← h2.1]
        exact hd

theorem advance_side_R_inv {ctx ctx' : context} {r : Nat}
    (h : advance_side ctx 'R' = .ok (ctx', r)) :
    ∃ fh fh', ctx.right_fh = some fh ∧ r = not_feof fh' ∧
      ((fgets (MAX_LINE_LEN - 1) fh = (none, fh') ∧ ctx' = right_advanced ctx [] fh') ∨
       (∃ bytes, fgets (MAX_LINE_LEN - 1) fh = (some bytes, fh') ∧ cstr bytes ≠ [] ∧
          ctx' = right_advanced ctx (stripped bytes) fh' ∧
          detect_sort_problems ctx' = .ok ())) := by
  cases hfh : ctx.right_fh with
  | none => rw [advance_side_R_none hfh] at h; simp at h
  | some fh =>
    rcases fgets_cases fh with ⟨fh', hg⟩ | ⟨bytes, fh', hg⟩
    · rw [advance_side_R_null fh hfh hg] at h
      simp only [Result.ok.injEq, Prod.mk.injEq] at h
      exact ⟨fh, fh', rfl, h.2.symm, Or.inl ⟨hg, h.1.symm⟩⟩
    · by_cases hc : cstr bytes = []
      · rw [advance_side_R_nul fh hfh hg hc] at h; simp at h
      · rw [advance_side_R_read fh hfh hg hc] at h
        obtain ⟨u, hd, h2⟩ := Result.bind_eq_ok h
        simp only [Result.ok.injEq, Prod.mk.injEq] at h2
        refine ⟨fh, fh', rfl, h2.2.symm, Or.inr ⟨bytes, hg, hc, h2.1.symm, ?_⟩⟩
        rw [← h2.1]
        exact hd

theorem Result.bind_eq_exit_failure {α β : Type} {r : Result α} {f : α → Result β}
    {w : Failure} {c : context} (h : r.bind f = .exit_failure w c) :
    r = .exit_failure w c ∨ ∃ a, r = .ok a ∧ f a = .exit_failure w c := by
  cases r with
  | ok a => exact Or.inr ⟨a, rfl, h⟩
  | exit_failure w' c' => exact Or.inl (by simpa [Result.bind] using h)
  | undefined => simp [Result.bind] at h
  | out_of_fuel => simp [Result.bind] at h

theorem advance_side_L_inv_fail {ctx c : context} {w : Failure}
    (h : advance_side ctx 'L' = .exit_failure w c) :
    ∃ fh fh' bytes, ctx.left_fh = some fh ∧
      fgets (MAX_LINE_LEN - 1) fh = (some bytes, fh') ∧ cstr bytes ≠ [] ∧
      c = left_advanced ctx (stripped bytes) fh' ∧
      detect_sort_problems c = .exit_failure w c := by
  cases hfh : ctx.left_fh with
  | none => rw [advance_side_L_none hfh] at h; simp at h
  | some fh =>
    rcases fgets_cases fh with ⟨fh', hg⟩ | ⟨bytes, fh', hg⟩
    · rw [advance_side_L_null fh hfh hg] at h; simp at h
    · by_cases hc : cstr bytes = []
      · rw [advance_side_L_nul fh hfh hg hc] at h; simp at h
      · rw [advance_side_L_read fh hfh hg hc] at h
        rcases Result.bind_eq_exit_failure h with hd | ⟨_, _, h2⟩
        · have hcc := (detect_sort_problems_fail hd).1
          refine ⟨fh, fh', bytes, rfl, hg, hc, hcc, ?_⟩
          rw [hcc]; rw [hcc] at hd; exact hd
        · simp at h2

theorem advance_side_R_inv_fail {ctx c : context} {w : Failure}
    (h : advance_side ctx 'R' = .exit_failure w c) :
    ∃ fh fh' bytes, ctx.right_fh = some fh ∧
      fgets (MAX_LINE_LEN - 1) fh = (some bytes, fh') ∧ cstr bytes ≠ [] ∧
      c = right_advanced ctx (stripped bytes) fh' ∧
      detect_sort_problems c = .exit_failure w c := by
  cases hfh : ctx.right_fh with
  | none => rw [advance_side_R_none hfh] at h; simp at h
  | some fh =>
    rcases fgets_cases fh with ⟨fh', hg⟩ | ⟨bytes, fh', hg⟩
    · rw [advance_side_R_null fh hfh hg] at h; simp at h
    · by_cases hc : cstr bytes = []
      · rw [advance_side_R_nul fh hfh hg hc] at h; simp at h
      · rw [advance_side_R_read fh hfh hg hc] at h
        rcases Result.bind_eq_exit_failure h with hd | ⟨_, _, h2⟩
        · have hcc := (detect_sort_problems_fail hd).1
          refine ⟨fh, fh', bytes, rfl, hg, hc, hcc, ?_⟩
          rw [hcc]; rw [hcc] at hd; exact hd
        · simp at h2

theorem fgets_loop_nil_iff (k : Nat) (rest : List Nat) :
    (fgets_loop (k + 1) rest).1 = [] ↔ rest = [] := by
  cases rest with
  | nil => simp [fgets_loop]
  | cons c t =>
    unfold fgets_loop
    split <;> simp

theorem fgets_none {fh fh' : FileStream}
    (h : fgets (MAX_LINE_LEN - 1) fh = (none, fh')) :
    fh.rest = [] ∧ fh' = ⟨[], true⟩ := by
  unfold fgets at h
  simp only at h
  split at h
  · rename_i hnil
    have hrest : fh.rest = [] := (fgets_loop_nil_iff 253 fh.rest).mp hnil
    simp only [Prod.mk.injEq, true_and] at h
    refine ⟨hrest, ?_⟩
    rw [← h, hrest]
    simp [fgets_loop, MAX_LINE_LEN]
  · simp at h

theorem not_feof_eq_one (fh : FileStream) : not_feof fh = 1 ↔ fh.eof = false := by
  unfold not_feof
  cases fh.eof <;> simp

theorem not_feof_eq_zero (fh : FileStream) : not_feof fh = 0 ↔ fh.eof = true := by
  unfold not_feof
  cases fh.eof <;> simp

theorem not_feof_le_one (fh : FileStream) : not_feof fh ≤ 1 := by
  unfold not_feof
  split <;> simp

theorem fprintf_left_line_eq {ctx : context} {out : List Line}
    (h : ctx.out_fh = some out) :
    fprintf_left_line ctx = .ok (with_output ctx (out ++ [ctx.left_line])) := by
  unfold fprintf_left_line with_output
  rw [h]

theorem fprintf_left_line_inv {ctx ctx' : context}
    (h : fprintf_left_line ctx = .ok ctx') :
    ∃ out, ctx.out_fh = some out ∧ ctx' = with_output ctx (out ++ [ctx.left_line]) := by
  cases ho : ctx.out_fh with
  | none => simp [fprintf_left_line, ho] at h
  | some out =>
    rw [fprintf_left_line_eq ho] at h
    simp only [Result.ok.injEq] at h
    exact ⟨out, rfl, h.symm⟩

/-- A returning pass through the `default` label: one write of the left current line,
then one `advance_side` on the left and one on the right. -/
theorem case_default_inv {ctx : context} {res : context × Nat}
    (h : case_default ctx = .ok res) :
    ∃ out c1 l r, ctx.out_fh = some out ∧
      advance_side (with_output ctx (out ++ [ctx.left_line])) 'L' = .ok (c1, l) ∧
      advance_side c1 'R' = .ok (res.1, r) ∧ res.2 = l + r ∧
      res.1.out_fh = some (out ++ [ctx.left_line]) := by
  unfold case_default at h
  obtain ⟨c0, hpr, h⟩ := Result.bind_eq_ok h
  obtain ⟨⟨c1, l⟩, hl, h⟩ := Result.bind_eq_ok h
  obtain ⟨⟨c2, r⟩, hr, h⟩ := Result.bind_eq_ok h
  simp only [Result.ok.injEq] at h
  subst h
  obtain ⟨out, ho, hc0⟩ := fprintf_left_line_inv hpr
  subst hc0
  refine ⟨out, c1, l, r, ho, hl, hr, rfl, ?_⟩
  rw [(advance_side_R_frame hr).2.2.2.1, (advance_side_L_frame hl).2.2.2.1]
  rfl

theorem byteCompare_self (a : Line) : byteCompare a a = .eq := by
  induction a with
  | nil => rfl
  | cons x t ih => simp [byteCompare, ih]

/-- A run of the loop that ends normally has written one line per pass: the lines
written have the least loop bound with which the loop ends. -/
theorem merge_loop_written (cmp : Line → Line → Nat → Int) :
    ∀ (fuel : Nat) (ctx : context) (act : Nat) (ctx' : context) (out : List Line),
      ctx.out_fh = some out → merge_loop cmp fuel ctx act = .ok ctx' →
      ∃ written, ctx'.out_fh = some (out ++ written) ∧
        merge_loop cmp written.length ctx act = .ok ctx' ∧
        ∀ m, m < written.length → merge_loop cmp m ctx act = .out_of_fuel := by
  intro fuel
  induction fuel with
  | zero =>
    intro ctx act ctx' out ho h
    unfold merge_loop at h
    split at h
    · simp at h
    · rename_i hact
      simp only [Result.ok.injEq] at h
      subst h
      refine ⟨[], by simpa using ho, ?_, by simp⟩
      simp [merge_loop, hact]
  | succ fuel ih =>
    intro ctx act ctx' out ho h
    unfold merge_loop at h
    split at h
    · rename_i hact
      subst hact
      obtain ⟨s, hs, h⟩ := Result.bind_eq_ok h
      obtain ⟨out', line, ho', hso⟩ := merge_step_out hs
      rw [ho] at ho'
      simp only [Option.some.injEq] at ho'
      subst ho'
      obtain ⟨written, hw1, hw2, hw3⟩ := ih s.1 s.2 ctx' (out ++ [line]) hso h
      refine ⟨line :: written, by simpa using hw1, ?_, ?_⟩
      · simp only [List.length_cons]
        unfold merge_loop
        rw [if_pos rfl, hs]
        exact hw2
      · intro m hm
        cases m with
        | zero => simp [merge_loop]
        | succ m =>
          unfold merge_loop
          rw [if_pos rfl, hs]
          exact hw3 m (by simpa using hm)
    · rename_i hact
      simp only [Result.ok.injEq] at h
      subst h
      refine ⟨[], by simpa using ho, ?_, by simp⟩
      simp [merge_loop, hact]

theorem bail_ne_ok {α : Type} (msg : Failure) (ctx : context) (a : α) :
    (bail msg ctx : Result α) ≠ .ok a := by
  unfold bail
  split <;> simp

/-- A returning `open_context`: both priming calls of `advance_side` returned 1. -/
theorem open_context_inv {left right : Option (List Nat)} {out : Bool} {ctx : context}
    (h : open_context left right out = .ok ctx) :
    ∃ c1, advance_side (fresh_context left right out) 'L' = .ok (c1, 1) ∧
      advance_side c1 'R' = .ok (ctx, 1) := by
  unfold open_context at h
  obtain ⟨⟨c1, l⟩, hl, h⟩ := Result.bind_eq_ok h
  simp only at h
  split at h
  · exact absurd h (bail_ne_ok _ _ _)
  · rename_i hl0
    obtain ⟨⟨c2, r⟩, hr, h⟩ := Result.bind_eq_ok h
    simp only at h
    split at h
    · exact absurd h (bail_ne_ok _ _ _)
    · rename_i hr0
      simp only [Result.ok.injEq] at h
      subst h
      obtain ⟨_, _, _, _, fh, _, hl1⟩ := advance_side_L_frame hl
      obtain ⟨_, _, _, _, fh', _, hr1⟩ := advance_side_R_frame hr
      have hl2 : l = 1 := by have := not_feof_le_one fh; omega
      have hr2 : r = 1 := by have := not_feof_le_one fh'; omega
      subst hl2 hr2
      exact ⟨c1, hl, hr⟩

theorem open_context_out {left right : Option (List Nat)} {out : Bool} {ctx : context}
    (h : open_context left right out = .ok ctx) :
    ctx.out_fh = if out then some [] else none := by
  obtain ⟨c1, hl, hr⟩ := open_context_inv h
  rw [(advance_side_R_frame hr).2.2.2.1, (advance_side_L_frame hl).2.2.2.1]
  rfl

theorem close_context_inv {ctx ctx' : context} (h : close_context ctx = .ok ctx') :
    ctx' = ctx := by
  unfold close_context at h
  split at h <;> simp at h
  exact h.symm

theorem main_inv {cmp : Line → Line → Nat → Int} {left right : Option (List Nat)}
    {out : Bool} {ctx : context} (h : main cmp left right out = .ok ctx) :
    ∃ ctx0, open_context left right out = .ok ctx0 ∧
      merge_loop cmp ((left.getD []).length + 1) ctx0 2 = .ok ctx := by
  unfold main at h
  obtain ⟨c0, hopen, h⟩ := Result.bind_eq_ok h
  obtain ⟨c1, hloop, h⟩ := Result.bind_eq_ok h
  rw [close_context_inv h]
  exact ⟨c0, hopen, hloop⟩

/-! ## An invariant rule for whole runs -/

theorem Result.holds_bind {α β : Type} {P : α → Prop} {P' : β → Prop}
    {Q : context → Prop} {r : Result α} {f : α → Result β}
    (hr : r.holds P Q) (hf : ∀ a, r = .ok a → P a → (f a).holds P' Q) :
    (r.bind f).holds P' Q := by
  cases r with
  | ok a => exact hf a rfl hr
  | exit_failure w c => exact hr
  | undefined => trivial
  | out_of_fuel => trivial

theorem bail_holds {α : Type} {P : α → Prop} {Q : context → Prop} (msg : Failure)
    {ctx : context} (h : Q ctx) : (bail msg ctx : Result α).holds P Q := by
  rcases @bail_cases α msg ctx with hb | hb <;> rw [hb]
  · exact h
  · trivial

theorem case_default_holds {I Q : context → Prop}
    (hL : ∀ ctx, I ctx → (advance_side ctx 'L').holds (fun p => I p.1) Q)
    (hR : ∀ ctx, I ctx → (advance_side ctx 'R').holds (fun p => I p.1) Q)
    (hW : ∀ ctx, I ctx → (fprintf_left_line ctx).holds I Q)
    {ctx : context} (h : I ctx) : (case_default ctx).holds (fun p => I p.1) Q := by
  unfold case_default
  refine Result.holds_bind (hW ctx h) (fun c0 _ h0 => ?_)
  refine Result.holds_bind (hL c0 h0) (fun l _ h1 => ?_)
  refine Result.holds_bind (hR l.1 h1) (fun r _ h2 => ?_)
  exact h2

theorem case_1_holds {I Q : context → Prop}
    (hL : ∀ ctx, I ctx → (advance_side ctx 'L').holds (fun p => I p.1) Q)
    (hR : ∀ ctx, I ctx → (advance_side ctx 'R').holds (fun p => I p.1) Q)
    (hW : ∀ ctx, I ctx → (fprintf_left_line ctx).holds I Q)
    {ctx : context} (act : Nat) (h : I ctx) :
    (case_1 ctx act).holds (fun p => I p.1) Q := by
  unfold case_1
  refine Result.holds_bind (hR ctx h) (fun r _ h1 => ?_)
  exact case_default_holds hL hR hW h1

theorem case_minus_1_holds {I Q : context → Prop}
    (hL : ∀ ctx, I ctx → (advance_side ctx 'L').holds (fun p => I p.1) Q)
    (hR : ∀ ctx, I ctx → (advance_side ctx 'R').holds (fun p => I p.1) Q)
    (hW : ∀ ctx, I ctx → (fprintf_left_line ctx).holds I Q)
    {ctx : context} (h : I ctx) : (case_minus_1 ctx).holds (fun p => I p.1) Q := by
  unfold case_minus_1
  refine Result.holds_bind (hL ctx h) (fun l _ h1 => ?_)
  exact case_1_holds hL hR hW _ h1

theorem merge_step_holds {I Q : context → Prop} (cmp : Line → Line → Nat → Int)
    (hL : ∀ ctx, I ctx → (advance_side ctx 'L').holds (fun p => I p.1) Q)
    (hR : ∀ ctx, I ctx → (advance_side ctx 'R').holds (fun p => I p.1) Q)
    (hW : ∀ ctx, I ctx → (fprintf_left_line ctx).holds I Q)
    {ctx : context} (act : Nat) (h : I ctx) :
    (merge_step cmp ctx act).holds (fun p => I p.1) Q := by
  unfold merge_step
  simp only
  split
  · exact case_minus_1_holds hL hR hW h
  · split
    · exact case_1_holds hL hR hW _ h
    · exact case_default_holds hL hR hW h

theorem merge_loop_holds {I Q : context → Prop} (cmp : Line → Line → Nat → Int)
    (hL : ∀ ctx, I ctx → (advance_side ctx 'L').holds (fun p => I p.1) Q)
    (hR : ∀ ctx, I ctx → (advance_side ctx 'R').holds (fun p => I p.1) Q)
    (hW : ∀ ctx, I ctx → (fprintf_left_line ctx).holds I Q) :
    ∀ (fuel : Nat) (ctx : context) (act : Nat), I ctx →
      (merge_loop cmp fuel ctx act).holds I Q := by
  intro fuel
  induction fuel with
  | zero =>
    intro ctx act h
    unfold merge_loop
    split
    · trivial
    · exact h
  | succ fuel ih =>
    intro ctx act h
    unfold merge_loop
    split
    · exact Result.holds_bind (merge_step_holds cmp hL hR hW act h)
        (fun s _ hs => ih s.1 s.2 hs)
    · exact h

theorem open_context_holds {I Q : context → Prop} (hIQ : ∀ ctx, I ctx → Q ctx)
    (hL : ∀ ctx, I ctx → (advance_side ctx 'L').holds (fun p => I p.1) Q)
    (hR : ∀ ctx, I ctx → (advance_side ctx 'R').holds (fun p => I p.1) Q)
    (left right : Option (List Nat)) (out : Bool)
    (h : I (fresh_context left right out)) :
    (open_context left right out).holds I Q := by
  unfold open_context
  refine Result.holds_bind (hL _ h) (fun l _ h1 => ?_)
  split
  · exact bail_holds _ (hIQ _ h1)
  · refine Result.holds_bind (hR _ h1) (fun r _ h2 => ?_)
    split
    · exact bail_holds _ (hIQ _ h2)
    · exact h2

/-- The invariant rule: a property of contexts that holds of the fresh context and is
kept by every returning `advance_side` call and by every write holds of the context in
which `main` ends normally; if it implies `Q`, and the contexts in which `advance_side`
ends the run satisfy `Q`, then `Q` holds of the context in which `bail` ended the run. -/
theorem main_holds {I Q : context → Prop} (cmp : Line → Line → Nat → Int)
    (hIQ : ∀ ctx, I ctx → Q ctx)
    (hL : ∀ ctx, I ctx → (advance_side ctx 'L').holds (fun p => I p.1) Q)
    (hR : ∀ ctx, I ctx → (advance_side ctx 'R').holds (fun p => I p.1) Q)
    (hW : ∀ ctx, I ctx → (fprintf_left_line ctx).holds I Q)
    (left right : Option (List Nat)) (out : Bool)
    (h : I (fresh_context left right out)) :
    (main cmp left right out).holds I Q := by
  unfold main
  refine Result.holds_bind (open_context_holds hIQ hL hR left right out h) (fun c0 _ h0 => ?_)
  refine Result.holds_bind (merge_loop_holds cmp hL hR hW _ c0 2 h0) (fun c1 _ h1 => ?_)
  unfold close_context
  split
  · exact h1
  · trivial

/-! ## The lines read from a file -/

theorem fgets_loop_split : ∀ (k : Nat) (rest : List Nat),
    rest = (fgets_loop k rest).1 ++ (fgets_loop k rest).2.1 := by
  intro k
  induction k with
  | zero => intro rest; simp [fgets_loop]
  | succ k ih =>
    intro rest
    cases rest with
    | nil => simp [fgets_loop]
    | cons c t =>
      unfold fgets_loop
      split
      · simp
      · simp only [List.cons_append, List.cons.injEq, true_and]
        exact ih t

theorem fgets_some {fh fh' : FileStream} {bytes : List Nat}
    (h : fgets (MAX_LINE_LEN - 1) fh = (some bytes, fh')) :
    bytes = (fgets_loop (MAX_LINE_LEN - 1 - 1) fh.rest).1 ∧
    fh'.rest = (fgets_loop (MAX_LINE_LEN - 1 - 1) fh.rest).2.1 ∧
    fh'.eof = (fh.eof || (fgets_loop (MAX_LINE_LEN - 1 - 1) fh.rest).2.2) ∧
    bytes ≠ [] ∧ fh.rest = bytes ++ fh'.rest := by
  unfold fgets at h
  simp only at h
  split at h
  · simp at h
  · rename_i hne
    simp only [Prod.mk.injEq, Option.some.injEq] at h
    obtain ⟨h1, h2⟩ := h
    subst h1 h2
    exact ⟨rfl, rfl, rfl, hne, fgets_loop_split _ _⟩

theorem read_lines_fuel : ∀ (n : Nat) (rest : List Nat), rest.length < n →
    read_lines n rest = read_lines (rest.length + 1) rest := by
  intro n
  induction n using Nat.strong_induction_on with
  | _ n ih =>
    intro rest hlt
    cases n with
    | zero => simp at hlt
    | succ k =>
      unfold read_lines
      simp only
      split
      · rfl
      · rename_i hne
        have hsplit := fgets_loop_split (MAX_LINE_LEN - 1 - 1) rest
        have hlen : (fgets_loop (MAX_LINE_LEN - 1 - 1) rest).2.1.length < rest.length := by
          have h1 : 0 < (fgets_loop (MAX_LINE_LEN - 1 - 1) rest).1.length :=
            List.length_pos.mpr hne
          have h2 := congrArg List.length hsplit
          simp only [List.length_append] at h2
          omega
        rw [ih k (by omega) _ (by omega), ih rest.length (by omega) _ hlen]

theorem lines_read_from_cons {fh fh' : FileStream} {bytes : List Nat}
    (h : fgets (MAX_LINE_LEN - 1) fh = (some bytes, fh')) :
    lines_read_from fh.rest = stripped bytes :: lines_read_from fh'.rest := by
  obtain ⟨h1, h2, _, h4, h5⟩ := fgets_some h
  have hlen : fh'.rest.length < fh.rest.length := by
    have := congrArg List.length h5
    have hb : 0 < bytes.length := List.length_pos.mpr h4
    simp only [List.length_append] at this
    omega
  unfold lines_read_from
  rw [read_lines]
  rw [← h1, ← h2, if_neg h4, read_lines_fuel _ _ hlen]

theorem lines_read_from_nil : lines_read_from [] = [] := by
  simp [lines_read_from, read_lines, fgets_loop, MAX_LINE_LEN]

theorem stripped_text (l : Line) (hl : text_line l) : stripped (l ++ [NL]) = l := by
  have hc : cstr (l ++ [NL]) = l ++ [NL] := cstr_text l (fun b hb => (hl.1 b hb).2)
  have hlen : l.length + 1 ≤ 255 := by have := hl.2; simp only [MAX_LINE_LEN] at this; omega
  unfold stripped strnlen
  rw [hc]
  simp [MAX_LINE_LEN, hlen]

/-- Reading a text file yields its lines. -/
theorem lines_read_from_file_of (L : List Line) (hL : ∀ l ∈ L, text_line l) :
    lines_read_from (file_of L) = L := by
  induction L with
  | nil => exact lines_read_from_nil
  | cons l ls ih =>
    have hl := hL l (by simp)
    have hg := fgets_text l ls false hl
    have := lines_read_from_cons hg
    simp only at this
    rw [this, stripped_text l hl, ih (fun x hx => hL x (by simp [hx]))]

/-! ## Every line written comes from the left file -/

theorem LeftInv_fresh (left right : Option (List Nat)) (out : Bool) :
    LeftInv (left.getD []) (fresh_context left right out) := by
  refine ⟨?_, Or.inl rfl, ?_⟩
  · intro fh hfh l hl
    cases left with
    | none => simp [fresh_context, open_file] at hfh
    | some bytes =>
      simp only [fresh_context, open_file, Option.map_some', Option.some.injEq] at hfh
      subst hfh
      exact hl
  · intro o ho x hx
    cases out with
    | false => simp [fresh_context] at ho
    | true =>
      simp only [fresh_context, if_true, Option.some.injEq] at ho
      subst ho
      simp at hx

theorem LeftInv_advance_L {left : List Nat} {ctx : context} (h : LeftInv left ctx) :
    (advance_side ctx 'L').holds (fun p => LeftInv left p.1) (OutFromLeft left) := by
  obtain ⟨hrest, _, hout⟩ := h
  cases hres : advance_side ctx 'L' with
  | ok p =>
    obtain ⟨fh, fh', hfh, _, hcase⟩ := @advance_side_L_inv ctx p.1 p.2 hres
    rcases hcase with ⟨hg, hc⟩ | ⟨bytes, hg, _, hc, _⟩
    · show LeftInv left p.1
      rw [hc]
      refine ⟨?_, Or.inl rfl, hout⟩
      intro f hf l hl
      simp only [left_advanced, Option.some.injEq] at hf
      subst hf
      rw [(fgets_none hg).2, lines_read_from_nil] at hl
      simp at hl
    · show LeftInv left p.1
      rw [hc]
      have hcons := lines_read_from_cons hg
      refine ⟨?_, Or.inr ?_, hout⟩
      · intro f hf l hl
        simp only [left_advanced, Option.some.injEq] at hf
        subst hf
        exact hrest fh hfh l (by rw [hcons]; exact List.mem_cons_of_mem _ hl)
      · exact hrest fh hfh _ (by rw [hcons]; exact List.mem_cons_self _ _)
  | exit_failure w c =>
    obtain ⟨_, _, _, _, _, _, hc, _⟩ := advance_side_L_inv_fail hres
    show OutFromLeft left c
    rw [hc]
    exact hout
  | undefined => trivial
  | out_of_fuel => trivial

theorem LeftInv_advance_R {left : List Nat} {ctx : context} (h : LeftInv left ctx) :
    (advance_side ctx 'R').holds (fun p => LeftInv left p.1) (OutFromLeft left) := by
  cases hres : advance_side ctx 'R' with
  | ok p =>
    obtain ⟨h1, h2, _, h4, _⟩ := @advance_side_R_frame ctx p.1 p.2 hres
    show LeftInv left p.1
    unfold LeftInv OutFromLeft
    rw [h1, h2, h4]
    exact h
  | exit_failure w c =>
    obtain ⟨_, _, _, _, _, _, hc, _⟩ := advance_side_R_inv_fail hres
    show OutFromLeft left c
    rw [hc]
    exact h.2.2
  | undefined => trivial
  | out_of_fuel => trivial

theorem LeftInv_fprintf {left : List Nat} {ctx : context} (h : LeftInv left ctx) :
    (fprintf_left_line ctx).holds (LeftInv left) (OutFromLeft left) := by
  cases ho : ctx.out_fh with
  | none => simp [fprintf_left_line, ho, Result.holds]
  | some out =>
    rw [fprintf_left_line_eq ho]
    show LeftInv left (with_output ctx (out ++ [ctx.left_line]))
    refine ⟨h.1, h.2.1, ?_⟩
    intro o ho' x hx
    simp only [with_output, Option.some.injEq] at ho'
    subst ho'
    rcases List.mem_append.mp hx with hx | hx
    · exact h.2.2 out ho x hx
    · rw [List.mem_singleton.mp hx]
      exact h.2.1

/-- In every run, whether it ends normally or through `bail`, the lines written are
empty or lines read from the left file. -/
theorem main_OutFromLeft (cmp : Line → Line → Nat → Int)
    (left right : Option (List Nat)) (out : Bool) :
    (main cmp left right out).holds (OutFromLeft (left.getD []))
      (OutFromLeft (left.getD [])) := by
  have h := main_holds (I := LeftInv (left.getD [])) (Q := OutFromLeft (left.getD [])) cmp
    (fun _ hc => hc.2.2) (fun _ hc => LeftInv_advance_L hc) (fun _ hc => LeftInv_advance_R hc)
    (fun _ hc => LeftInv_fprintf hc) left right out (LeftInv_fresh left right out)
  cases hm : main cmp left right out with
  | ok c => rw [hm] at h; exact h.2.2
  | exit_failure w c => rw [hm] at h; exact h
  | undefined => trivial
  | out_of_fuel => trivial

/-- A returning pass through the `switch`: the context `c` in which `fprintf` is
reached is `ctx` itself (other results), `ctx` after one advance of the right side
(result 1), or `ctx` after one advance of each side (result -1); the pass appends the
left current line of `c` and then advances each side once. -/
theorem merge_step_inv {cmp : Line → Line → Nat → Int} {ctx : context} {act : Nat}
    {res : context × Nat} (h : merge_step cmp ctx act = .ok res) :
    ∃ c out c1 l r,
      (c = ctx ∨ (∃ r0, advance_side ctx 'R' = .ok (c, r0)) ∨
        (∃ c0 l0 r0, advance_side ctx 'L' = .ok (c0, l0) ∧
          advance_side c0 'R' = .ok (c, r0))) ∧
      c.out_fh = some out ∧ ctx.out_fh = some out ∧
      advance_side (with_output c (out ++ [c.left_line])) 'L' = .ok (c1, l) ∧
      advance_side c1 'R' = .ok (res.1, r) ∧ res.2 = l + r ∧
      res.1.out_fh = some (out ++ [c.left_line]) := by
  unfold merge_step at h
  simp only at h
  split at h
  · unfold case_minus_1 at h
    obtain ⟨⟨c1, l0⟩, hl0, h⟩ := Result.bind_eq_ok h
    unfold case_1 at h
    obtain ⟨⟨c2, r0⟩, hr0, h⟩ := Result.bind_eq_ok h
    obtain ⟨out, c3, l, r, ho, hl, hr, hsum, hout⟩ := case_default_inv h
    refine ⟨c2, out, c3, l, r, Or.inr (Or.inr ⟨c1, l0, r0, hl0, hr0⟩), ho, ?_, hl, hr,
      hsum, hout⟩
    rw [← (advance_side_L_frame hl0).2.2.2.1, ← (advance_side_R_frame hr0).2.2.2.1]
    exact ho
  · split at h
    · unfold case_1 at h
      obtain ⟨⟨c2, r0⟩, hr0, h⟩ := Result.bind_eq_ok h
      obtain ⟨out, c3, l, r, ho, hl, hr, hsum, hout⟩ := case_default_inv h
      refine ⟨c2, out, c3, l, r, Or.inr (Or.inl ⟨r0, hr0⟩), ho, ?_, hl, hr, hsum, hout⟩
      rw [← (advance_side_R_frame hr0).2.2.2.1]
      exact ho
    · obtain ⟨out, c3, l, r, ho, hl, hr, hsum, hout⟩ := case_default_inv h
      exact ⟨ctx, out, c3, l, r, Or.inl rfl, ho, ho, hl, hr, hsum, hout⟩

/-- After a returning pass through the `switch` both streams are open and
`active_files` is the sum of `!feof` of the two streams. -/
theorem merge_step_active {cmp : Line → Line → Nat → Int} {ctx : context} {act : Nat}
    {res : context × Nat} (h : merge_step cmp ctx act = .ok res) :
    ∃ fl fr, res.1.left_fh = some fl ∧ res.1.right_fh = some fr ∧
      res.2 = not_feof fl + not_feof fr := by
  obtain ⟨c, out, c1, l, r, _, _, _, hl, hr, hsum, _⟩ := merge_step_inv h
  obtain ⟨_, _, _, _, fl, hfl, hl1⟩ := advance_side_L_frame hl
  obtain ⟨hleft, _, _, _, fr, hfr, hr1⟩ := advance_side_R_frame hr
  exact ⟨fl, fr, by rw [hleft]; exact hfl, hfr, by rw [hsum, hl1, hr1]⟩

/-- When the loop started with `active_files = 2` ends normally, both streams are open
and at least one of them has its end-of-file flag set. -/
theorem merge_loop_end (cmp : Line → Line → Nat → Int) :
    ∀ (fuel : Nat) (ctx : context) (act : Nat) (ctx' : context),
      (act ≠ 2 → ∃ fl fr, ctx.left_fh = some fl ∧ ctx.right_fh = some fr ∧
        (fl.eof = true ∨ fr.eof = true)) →
      merge_loop cmp fuel ctx act = .ok ctx' →
      ∃ fl fr, ctx'.left_fh = some fl ∧ ctx'.right_fh = some fr ∧
        (fl.eof = true ∨ fr.eof = true) := by
  intro fuel
  induction fuel with
  | zero =>
    intro ctx act ctx' hpre h
    unfold merge_loop at h
    split at h
    · simp at h
    · rename_i hact
      simp only [Result.ok.injEq] at h
      subst h
      exact hpre hact
  | succ fuel ih =>
    intro ctx act ctx' hpre h
    unfold merge_loop at h
    split at h
    · obtain ⟨s, hs, h⟩ := Result.bind_eq_ok h
      refine ih s.1 s.2 ctx' ?_ h
      intro hne
      obtain ⟨fl, fr, hfl, hfr, hsum⟩ := merge_step_active hs
      refine ⟨fl, fr, hfl, hfr, ?_⟩
      by_contra hcon
      simp only [not_or, Bool.not_eq_true] at hcon
      rw [(not_feof_eq_one fl).mpr hcon.1, (not_feof_eq_one fr).mpr hcon.2] at hsum
      exact hne hsum
    · rename_i hact
      simp only [Result.ok.injEq] at h
      subst h
      exact hpre hact

/-! ## Runs on text files: an exhausted side has an empty current line -/

theorem SideText_cases {fh : Option FileStream} {line : Line} (h : SideText fh line) :
    (∃ e, fh = some ⟨[], e⟩) ∨
    (∃ l ls, text_line l ∧ (∀ x ∈ ls, text_line x) ∧ fh = some ⟨file_of (l :: ls), false⟩) := by
  obtain ⟨ls, e, hfh, htext, he⟩ := h
  cases ls with
  | nil => exact Or.inl ⟨e, by rw [hfh]; rfl⟩
  | cons l ls =>
    right
    have : e = false := by
      cases e
      · rfl
      · exact absurd (he rfl).1 (List.cons_ne_nil _ _)
    subst this
    exact ⟨l, ls, htext l (by simp), fun x hx => htext x (by simp [hx]), hfh⟩

theorem TextInv_advance_L {ctx : context} (h : TextInv ctx) :
    (advance_side ctx 'L').holds (fun p => TextInv p.1) (fun _ => True) := by
  cases hres : advance_side ctx 'L' with
  | ok p =>
    show TextInv p.1
    rcases SideText_cases h.1 with ⟨e, hfh⟩ | ⟨l, ls, hl, hls, hfh⟩
    · rw [advance_side_L_eof hfh] at hres
      simp only [Result.ok.injEq] at hres
      rw [← hres]
      exact ⟨⟨[], true, rfl, by simp, fun _ => ⟨rfl, rfl⟩⟩, h.2⟩
    · rw [advance_side_L_text l ls false hl hfh] at hres
      obtain ⟨_, _, h2⟩ := Result.bind_eq_ok hres
      simp only [Result.ok.injEq] at h2
      rw [← h2]
      exact ⟨⟨ls, false, rfl, hls, by simp⟩, h.2⟩
  | exit_failure w c => trivial
  | undefined => trivial
  | out_of_fuel => trivial

theorem TextInv_advance_R {ctx : context} (h : TextInv ctx) :
    (advance_side ctx 'R').holds (fun p => TextInv p.1) (fun _ => True) := by
  cases hres : advance_side ctx 'R' with
  | ok p =>
    show TextInv p.1
    rcases SideText_cases h.2 with ⟨e, hfh⟩ | ⟨l, ls, hl, hls, hfh⟩
    · rw [advance_side_R_eof hfh] at hres
      simp only [Result.ok.injEq] at hres
      rw [← hres]
      exact ⟨h.1, ⟨[], true, rfl, by simp, fun _ => ⟨rfl, rfl⟩⟩⟩
    · rw [advance_side_R_text l ls false hl hfh] at hres
      obtain ⟨_, _, h2⟩ := Result.bind_eq_ok hres
      simp only [Result.ok.injEq] at h2
      rw [← h2]
      exact ⟨h.1, ⟨ls, false, rfl, hls, by simp⟩⟩
  | exit_failure w c => trivial
  | undefined => trivial
  | out_of_fuel => trivial

theorem TextInv_fprintf {ctx : context} (h : TextInv ctx) :
    (fprintf_left_line ctx).holds TextInv (fun _ => True) := by
  cases ho : ctx.out_fh with
  | none => simp [fprintf_left_line, ho, Result.holds]
  | some out =>
    rw [fprintf_left_line_eq ho]
    exact h

theorem TextInv_main (cmp : Line → Line → Nat → Int) (L R : List Line) (out : Bool)
    (hL : ∀ l ∈ L, text_line l) (hR : ∀ l ∈ R, text_line l) {ctx : context}
    (h : main cmp (some (file_of L)) (some (file_of R)) out = .ok ctx) : TextInv ctx := by
  have hm := main_holds (I := TextInv) (Q := fun _ => True) cmp (fun _ _ => trivial)
    (fun _ hc => TextInv_advance_L hc) (fun _ hc => TextInv_advance_R hc)
    (fun _ hc => TextInv_fprintf hc) (some (file_of L)) (some (file_of R)) out
    ⟨⟨L, false, rfl, hL, by simp⟩, ⟨R, false, rfl, hR, by simp⟩⟩
  rw [h] at hm
  exact hm

/-! ## A last line without a newline -/

theorem fgets_loop_unterminated (l : List Nat) (hl : ∀ b ∈ l, b ≠ NL) :
    ∀ k, l.length < k → fgets_loop k l = (l, [], true) := by
  induction l with
  | nil =>
    intro k hk
    cases k with
    | zero => simp at hk
    | succ k => simp [fgets_loop]
  | cons a t ih =>
    intro k hk
    cases k with
    | zero => simp at hk
    | succ k =>
      have ha : a ≠ NL := hl a (by simp)
      have := ih (fun b hb => hl b (by simp [hb])) k (by simpa using hk)
      simp [fgets_loop, ha, this]

theorem fgets_unterminated (l : List Nat) (e : Bool) (hne : l ≠ [])
    (hl : ∀ b ∈ l, b ≠ NL) (hlen : l.length < MAX_LINE_LEN - 1 - 1) :
    fgets (MAX_LINE_LEN - 1) ⟨l, e⟩ = (some l, ⟨[], true⟩) := by
  unfold fgets
  simp only [fgets_loop_unterminated l hl _ hlen, if_neg hne, Bool.or_true]

theorem cstr_ne_nil_of_head {l : List Nat} (hne : l ≠ []) (hnul : l.head? ≠ some 0) :
    cstr l ≠ [] := by
  cases l with
  | nil => exact absurd rfl hne
  | cons c t => exact cstr_cons_ne_nil t (by simpa using hnul)

/-! ## The order check in reachable contexts -/

theorem advance_side_ok_side {ctx : context} {LorR : Char} {p : context × Nat}
    (h : advance_side ctx LorR = .ok p) : LorR = 'L' ∨ LorR = 'R' := by
  by_cases h1 : LorR = 'L'
  · exact Or.inl h1
  · by_cases h2 : LorR = 'R'
    · exact Or.inr h2
    · exfalso
      unfold advance_side at h
      simp only [select_side, if_neg h1, if_neg h2] at h
      exact bail_ne_ok _ _ _ h

theorem advance_side_checked {ctx ctx' : context} {r : Nat} {LorR : Char}
    (hc : Checked ctx) (h : advance_side ctx LorR = .ok (ctx', r)) : Checked ctx' := by
  rcases advance_side_ok_side h with rfl | rfl
  · obtain ⟨fh, fh', _, _, hcase⟩ := advance_side_L_inv h
    rcases hcase with ⟨_, hctx⟩ | ⟨bytes, _, _, _, hdet⟩
    · rw [hctx]
      exact ⟨fun hne => absurd rfl hne, hc.2⟩
    · exact detect_sort_problems_ok hdet
  · obtain ⟨fh, fh', _, _, hcase⟩ := advance_side_R_inv h
    rcases hcase with ⟨_, hctx⟩ | ⟨bytes, _, _, _, hdet⟩
    · rw [hctx]
      exact ⟨hc.1, fun hne => absurd rfl hne⟩
    · exact detect_sort_problems_ok hdet

/-- In every context of a run each side satisfies `current = ""` or
`previous <= current`. -/
theorem Reachable_checked {ctx : context} (h : Reachable ctx) : Checked ctx := by
  induction h with
  | fresh left right out => exact ⟨fun hne => absurd rfl hne, fun hne => absurd rfl hne⟩
  | advance LorR _ hadv ih => exact advance_side_checked ih hadv
  | write _ hw ih =>
    obtain ⟨out, _, hc⟩ := fprintf_left_line_inv hw
    rw [hc]
    exact ih

theorem strcmp_pos_iff_gt (a b : Line) : strcmp a b > 0 ↔ byteCompare a b = .gt := by
  unfold strcmp
  cases byteCompare a b <;> simp

theorem not_byteLe_iff_gt (a b : Line) : ¬ byteLe a b ↔ byteCompare a b = .gt := by
  unfold byteLe
  simp

/-- The order check on a context with three open handles whose right side is in order:
it ends the run exactly when the left current line is non-empty and below the previous
left line. -/
theorem detect_sort_problems_left (ctx : context) (fl fr : FileStream) (out : List Line)
    (h1 : ctx.left_fh = some fl) (h2 : ctx.right_fh = some fr) (h3 : ctx.out_fh = some out)
    (hr : ctx.right_line ≠ [] → byteLe ctx.prev_right_line ctx.right_line) :
    detect_sort_problems ctx
      = if ctx.left_line ≠ [] ∧ byteCompare ctx.prev_left_line ctx.left_line = .gt then
          .exit_failure .left_out_of_order ctx
        else .ok () := by
  unfold detect_sort_problems
  simp only [strcmp_pos_iff_gt]
  split
  · exact bail_eq _ fl fr out h1 h2 h3
  · rw [if_neg]
    rintro ⟨hne, hgt⟩
    exact (not_byteLe_iff_gt _ _).mpr hgt (hr hne)

/-- The order check on a context with three open handles whose left side is in order:
it ends the run exactly when the right current line is non-empty and below the previous
right line. -/
theorem detect_sort_problems_right (ctx : context) (fl fr : FileStream) (out : List Line)
    (h1 : ctx.left_fh = some fl) (h2 : ctx.right_fh = some fr) (h3 : ctx.out_fh = some out)
    (hl : ctx.left_line ≠ [] → byteLe ctx.prev_left_line ctx.left_line) :
    detect_sort_problems ctx
      = if ctx.right_line ≠ [] ∧ byteCompare ctx.prev_right_line ctx.right_line = .gt then
          .exit_failure .right_out_of_order ctx
        else .ok () := by
  unfold detect_sort_problems
  simp only [strcmp_pos_iff_gt]
  rw [if_neg]
  · split
    · exact bail_eq _ fl fr out h1 h2 h3
    · rfl
  · rintro ⟨hne, hgt⟩
    exact (not_byteLe_iff_gt _ _).mpr hgt (hl hne)

/-! ## The loop bound is never used up -/

theorem Result.bind_ne_out_of_fuel {α β : Type} {r : Result α} {f : α → Result β}
    (hr : r ≠ .out_of_fuel) (hf : ∀ a, r = .ok a → f a ≠ .out_of_fuel) :
    r.bind f ≠ .out_of_fuel := by
  cases r with
  | ok a => exact hf a rfl
  | exit_failure w c => simp [Result.bind]
  | undefined => simp [Result.bind]
  | out_of_fuel => exact absurd rfl hr

theorem bail_ne_out_of_fuel {α : Type} (msg : Failure) (ctx : context) :
    (bail msg ctx : Result α) ≠ .out_of_fuel := by
  unfold bail
  split <;> simp

theorem detect_sort_problems_ne_out_of_fuel (ctx : context) :
    detect_sort_problems ctx ≠ .out_of_fuel := by
  unfold detect_sort_problems
  split
  · exact bail_ne_out_of_fuel _ _
  · split
    · exact bail_ne_out_of_fuel _ _
    · simp

theorem advance_side_ne_out_of_fuel (ctx : context) (LorR : Char) :
    advance_side ctx LorR ≠ .out_of_fuel := by
  unfold advance_side
  split
  · exact bail_ne_out_of_fuel _ _
  · dsimp only
    split
    · simp
    · split
      · split
        · simp
        · exact Result.bind_ne_out_of_fuel (detect_sort_problems_ne_out_of_fuel _)
            (fun _ _ => by simp)
      · simp

theorem fprintf_left_line_ne_out_of_fuel (ctx : context) :
    fprintf_left_line ctx ≠ .out_of_fuel := by
  unfold fprintf_left_line
  split <;> simp

theorem case_default_ne_out_of_fuel (ctx : context) : case_default ctx ≠ .out_of_fuel := by
  unfold case_default
  refine Result.bind_ne_out_of_fuel (fprintf_left_line_ne_out_of_fuel _) (fun c0 _ => ?_)
  refine Result.bind_ne_out_of_fuel (advance_side_ne_out_of_fuel _ _) (fun l _ => ?_)
  exact Result.bind_ne_out_of_fuel (advance_side_ne_out_of_fuel _ _) (fun r _ => by simp)

theorem merge_step_ne_out_of_fuel (cmp : Line → Line → Nat → Int) (ctx : context)
    (act : Nat) : merge_step cmp ctx act ≠ .out_of_fuel := by
  unfold merge_step
  simp only
  split
  · unfold case_minus_1
    refine Result.bind_ne_out_of_fuel (advance_side_ne_out_of_fuel _ _) (fun l _ => ?_)
    unfold case_1
    exact Result.bind_ne_out_of_fuel (advance_side_ne_out_of_fuel _ _)
      (fun r _ => case_default_ne_out_of_fuel _)
  · split
    · unfold case_1
      exact Result.bind_ne_out_of_fuel (advance_side_ne_out_of_fuel _ _)
        (fun r _ => case_default_ne_out_of_fuel _)
    · exact case_default_ne_out_of_fuel _

/-- A returning `advance_side(ctx, 'L')` does not lengthen what is left to read on the
left, and shortens it when it returns 1. -/
theorem advance_side_L_rest {ctx ctx' : context} {r : Nat}
    (h : advance_side ctx 'L' = .ok (ctx', r)) :
    ∃ fh fh', ctx.left_fh = some fh ∧ ctx'.left_fh = some fh' ∧
      fh'.rest.length ≤ fh.rest.length ∧ (r = 1 → fh'.rest.length < fh.rest.length) := by
  obtain ⟨fh, fh', hfh, hr, hcase⟩ := advance_side_L_inv h
  rcases hcase with ⟨hg, hc⟩ | ⟨bytes, hg, _, hc, _⟩
  · obtain ⟨_, h2⟩ := fgets_none hg
    refine ⟨fh, fh', hfh, by rw [hc]; rfl, by rw [h2]; simp, ?_⟩
    intro h1
    rw [hr, h2] at h1
    simp [not_feof] at h1
  · obtain ⟨_, _, _, h4, h5⟩ := fgets_some hg
    have hlen : fh'.rest.length < fh.rest.length := by
      have := congrArg List.length h5
      have hb : 0 < bytes.length := List.length_pos.mpr h4
      simp only [List.length_append] at this
      omega
    exact ⟨fh, fh', hfh, by rw [hc]; rfl, by omega, fun _ => hlen⟩

/-- A returning pass through the `switch` does not lengthen what is left to read on the
left, and shortens it when it leaves `active_files = 2`. -/
theorem merge_step_left_rest {cmp : Line → Line → Nat → Int} {ctx : context} {act : Nat}
    {res : context × Nat} (h : merge_step cmp ctx act = .ok res) :
    ∃ fh fh', ctx.left_fh = some fh ∧ res.1.left_fh = some fh' ∧
      fh'.rest.length ≤ fh.rest.length ∧ (res.2 = 2 → fh'.rest.length < fh.rest.length) := by
  obtain ⟨c, out, c1, l, r, hc, _, _, hl, hr, hsum, _⟩ := merge_step_inv h
  obtain ⟨f1, f2, hf1, hf2, hle, hlt⟩ := advance_side_L_rest hl
  have hf1' : c.left_fh = some f1 := hf1
  obtain ⟨hleft, _, _, _, fr, _, hr1⟩ := advance_side_R_frame hr
  have hl1 : l ≤ 1 := by
    obtain ⟨_, _, _, _, fl, _, hl1⟩ := advance_side_L_frame hl
    rw [hl1]; exact not_feof_le_one fl
  have hr2 : r ≤ 1 := by rw [hr1]; exact not_feof_le_one fr
  have hpre : ∃ f0, ctx.left_fh = some f0 ∧ f1.rest.length ≤ f0.rest.length := by
    rcases hc with rfl | ⟨r0, hr0⟩ | ⟨c0, l0, r0, hl0, hr0⟩
    · exact ⟨f1, hf1', le_refl _⟩
    · refine ⟨f1, ?_, le_refl _⟩
      rw [← (advance_side_R_frame hr0).1]
      exact hf1'
    · obtain ⟨g0, g1, hg0, hg1, hgle, _⟩ := advance_side_L_rest hl0
      refine ⟨g0, hg0, ?_⟩
      have : c.left_fh = c0.left_fh := (advance_side_R_frame hr0).1
      rw [this, hg1] at hf1'
      simp only [Option.some.injEq] at hf1'
      rw [← hf1']
      exact hgle
  obtain ⟨f0, hf0, hle0⟩ := hpre
  refine ⟨f0, f2, hf0, by rw [hleft]; exact hf2, by omega, ?_⟩
  intro h2
  have := hlt (by omega)
  omega

theorem merge_loop_ne_out_of_fuel (cmp : Line → Line → Nat → Int) :
    ∀ (fuel : Nat) (ctx : context) (act : Nat), 0 < fuel →
      (∀ fh, ctx.left_fh = some fh → fh.rest.length < fuel) →
      merge_loop cmp fuel ctx act ≠ .out_of_fuel := by
  intro fuel
  induction fuel with
  | zero => intro ctx act h; exact absurd h (by simp)
  | succ fuel ih =>
    intro ctx act _ hrest
    unfold merge_loop
    split
    · refine Result.bind_ne_out_of_fuel (merge_step_ne_out_of_fuel _ _ _) (fun s hs => ?_)
      obtain ⟨fh, fh', hfh, hfh', _, hlt⟩ := merge_step_left_rest hs
      have hbound := hrest fh hfh
      by_cases h2 : s.2 = 2
      · have hlt2 := hlt h2
        refine ih s.1 s.2 (by omega) ?_
        intro f hf
        rw [hfh'] at hf
        simp only [Option.some.injEq] at hf
        subst hf
        omega
      · cases fuel with
        | zero => simp [merge_loop, h2]
        | succ k => simp [merge_loop, h2]
    · simp

theorem open_context_ne_out_of_fuel (left right : Option (List Nat)) (out : Bool) :
    open_context left right out ≠ .out_of_fuel := by
  unfold open_context
  refine Result.bind_ne_out_of_fuel (advance_side_ne_out_of_fuel _ _) (fun l _ => ?_)
  split
  · exact bail_ne_out_of_fuel _ _
  · refine Result.bind_ne_out_of_fuel (advance_side_ne_out_of_fuel _ _) (fun r _ => ?_)
    split
    · exact bail_ne_out_of_fuel _ _
    · simp

/-- For any inputs, `main` ends before its loop bound (one more than the number of bytes
of the left file) is used up. -/
theorem main_ne_out_of_fuel (cmp : Line → Line → Nat → Int)
    (left right : Option (List Nat)) (out : Bool) :
    main cmp left right out ≠ .out_of_fuel := by
  unfold main
  refine Result.bind_ne_out_of_fuel (open_context_ne_out_of_fuel _ _ _) (fun c0 hopen => ?_)
  refine Result.bind_ne_out_of_fuel ?_ (fun c1 _ => ?_)
  · refine merge_loop_ne_out_of_fuel cmp _ c0 2 (by omega) ?_
    intro fh hfh
    obtain ⟨c1, hl, hr⟩ := open_context_inv hopen
    obtain ⟨f0, f1, hf0, hf1, hle, _⟩ := advance_side_L_rest hl
    rw [(advance_side_R_frame hr).1, hf1] at hfh
    simp only [Option.some.injEq] at hfh
    subst hfh
    cases left with
    | none => simp [fresh_context, open_file] at hf0
    | some bytes =>
      simp only [fresh_context, open_file, Option.map_some', Option.some.injEq] at hf0
      subst hf0
      have hle' : f1.rest.length ≤ bytes.length := hle
      simp only [Option.getD_some]
      omega
  · unfold close_context
    split <;> simp

/-! ## On text files the shorter file bounds the number of passes -/

theorem merge_loop_fuel_mono (cmp : Line → Line → Nat → Int) :
    ∀ (n : Nat) (ctx : context) (act : Nat), merge_loop cmp n ctx act ≠ .out_of_fuel →
      ∀ m, n ≤ m → merge_loop cmp m ctx act = merge_loop cmp n ctx act := by
  intro n
  induction n with
  | zero =>
    intro ctx act h m _
    have hact : act ≠ 2 := by
      intro h2
      exact h (by simp [merge_loop, h2])
    cases m <;> simp [merge_loop, hact]
  | succ n ih =>
    intro ctx act h m hm
    cases m with
    | zero => omega
    | succ m =>
      by_cases hact : act = 2
      · unfold merge_loop
        rw [if_pos hact, if_pos hact]
        unfold merge_loop at h
        rw [if_pos hact] at h
        cases hs : merge_step cmp ctx act with
        | ok s =>
          rw [hs] at h
          simp only [Result.bind] at h ⊢
          exact ih s.1 s.2 h m (by omega)
        | exit_failure w c => rfl
        | undefined => rfl
        | out_of_fuel => rfl
      · simp [merge_loop, hact]

theorem merge_loop_exits_min {L R : List Line} (cmp : Line → Line → Nat → Int)
    (hL : ∀ l ∈ L, text_line l) (hR : ∀ l ∈ R, text_line l) :
    ∀ (fuel : Nat) (ctx : context) (act : Nat),
      LoopInv L R ctx act →
      (∀ out, ctx.out_fh = some out → min L.length R.length ≤ fuel + out.length) →
      (merge_loop cmp fuel ctx act).exits := by
  intro fuel
  induction fuel with
  | zero =>
    intro ctx act h hfuel
    unfold merge_loop
    split
    · rename_i hact
      exfalso
      obtain ⟨l, r, hlr, hl, hr, kL, kR, out, hSL, hSR, hout, ha, hb, _⟩ := h
      have := hfuel out hout
      have := hSL.1
      have := hSR.1
      omega
    · exact Or.inl ⟨_, rfl⟩
  | succ fuel ih =>
    intro ctx act h hfuel
    unfold merge_loop
    split
    · rename_i hact
      subst hact
      have h11 : RunInv L R 1 1 true ctx := by
        obtain ⟨l, r, hlr, hl, hr, h⟩ := h
        have hl1 : l = 1 := by omega
        have hr1 : r = 1 := by omega
        subst hl1 hr1
        exact h
      refine Result.exits_bind (merge_step_exits cmp 2 hL hR h11) (fun s hs => ?_)
      refine ih s.1 s.2 (LoopInv_merge_step cmp hL hR h hs) ?_
      intro out' hout'
      obtain ⟨out, line, ho, ho'⟩ := merge_step_out hs
      rw [ho'] at hout'
      have := hfuel out ho
      simp only [Option.some.injEq] at hout'
      subst hout'
      simp
      omega
    · exact Or.inl ⟨_, rfl⟩

theorem Result.exits_ne_out_of_fuel {α : Type} {r : Result α} (h : r.exits) :
    r ≠ .out_of_fuel := by
  rcases h with ⟨a, rfl⟩ | ⟨w, c, rfl⟩ <;> simp

/-- On two text files the loop of `main` needs no more passes than the shorter file has
lines: `main` with the loop bounded by that number ends in the same way. -/
theorem main_eq_min_fuel (cmp : Line → Line → Nat → Int) {L R : List Line}
    (hL : ∀ l ∈ L, text_line l) (hR : ∀ l ∈ R, text_line l) :
    main cmp (some (file_of L)) (some (file_of R)) true
      = (open_context (some (file_of L)) (some (file_of R)) true).bind (fun c =>
          (merge_loop cmp (min L.length R.length) c 2).bind close_context) := by
  unfold main
  cases hopen : open_context (some (file_of L)) (some (file_of R)) true with
  | ok c0 =>
    simp only [Result.bind, Option.getD_some]
    have hinv := LoopInv_open_context hL hR hopen
    have hout := open_context_out hopen
    have hex := merge_loop_exits_min cmp hL hR (min L.length R.length) c0 2 hinv
      (by intro out _; omega)
    have hmono := merge_loop_fuel_mono cmp _ c0 2 (Result.exits_ne_out_of_fuel hex)
      ((file_of L).length + 1)
      (by have := length_le_file_of L; have := Nat.min_le_left L.length R.length; omega)
    rw [hmono]
  | exit_failure w c => rfl
  | undefined => rfl
  | out_of_fuel => rfl

/-! ## The number of passes on arbitrary inputs -/

theorem CountInv_mono {left right : List Nat} {a b a' b' : Nat} {ctx : context}
    (h : CountInv left right a b ctx) (ha : a' ≤ a) (hb : b' ≤ b) :
    CountInv left right a' b' ctx := by
  obtain ⟨preL, preR, out, hl, hr, ho, h1, h2⟩ := h
  exact ⟨preL, preR, out, hl, hr, ho, by omega, by omega⟩

theorem CountInv_advance_L {left right : List Nat} {a b : Nat} {ctx ctx' : context}
    {r : Nat} (h : CountInv left right a b ctx)
    (hadv : advance_side ctx 'L' = .ok (ctx', r)) :
    r ≤ 1 ∧ CountInv left right (a + r) b ctx' := by
  obtain ⟨preL, preR, out, ⟨fl, hfl, hpl⟩, hr, ho, h1, h2⟩ := h
  obtain ⟨hf1, _, _, hf4, _⟩ := advance_side_L_frame hadv
  obtain ⟨fh, fh', hfh, hret, hcase⟩ := advance_side_L_inv hadv
  rw [hfl] at hfh
  simp only [Option.some.injEq] at hfh
  subst hfh
  have hr1 : r ≤ 1 := by rw [hret]; exact not_feof_le_one fh'
  refine ⟨hr1, ?_⟩
  rcases hcase with ⟨hg, hc⟩ | ⟨bytes, hg, _, hc, _⟩
  · obtain ⟨hnil, h2'⟩ := fgets_none hg
    have hr0 : r = 0 := by rw [hret, h2']; rfl
    refine ⟨preL, preR, out, ⟨fh', by rw [hc]; rfl, ?_⟩, by rw [hf1]; exact hr,
      by rw [hf4]; exact ho, by omega, h2⟩
    rw [hpl, hnil, h2']
  · refine ⟨preL ++ [stripped bytes], preR, out, ⟨fh', by rw [hc]; rfl, ?_⟩,
      by rw [hf1]; exact hr, by rw [hf4]; exact ho, by simp; omega, h2⟩
    rw [hpl, lines_read_from_cons hg]
    simp

theorem CountInv_advance_R {left right : List Nat} {a b : Nat} {ctx ctx' : context}
    {r : Nat} (h : CountInv left right a b ctx)
    (hadv : advance_side ctx 'R' = .ok (ctx', r)) :
    r ≤ 1 ∧ CountInv left right a (b + r) ctx' := by
  obtain ⟨preL, preR, out, hl, ⟨fr, hfr, hpr⟩, ho, h1, h2⟩ := h
  obtain ⟨hf1, _, _, hf4, _⟩ := advance_side_R_frame hadv
  obtain ⟨fh, fh', hfh, hret, hcase⟩ := advance_side_R_inv hadv
  rw [hfr] at hfh
  simp only [Option.some.injEq] at hfh
  subst hfh
  have hr1 : r ≤ 1 := by rw [hret]; exact not_feof_le_one fh'
  refine ⟨hr1, ?_⟩
  rcases hcase with ⟨hg, hc⟩ | ⟨bytes, hg, _, hc, _⟩
  · obtain ⟨hnil, h2'⟩ := fgets_none hg
    have hr0 : r = 0 := by rw [hret, h2']; rfl
    refine ⟨preL, preR, out, by rw [hf1]; exact hl, ⟨fh', by rw [hc]; rfl, ?_⟩,
      by rw [hf4]; exact ho, h1, by omega⟩
    rw [hpr, hnil, h2']
  · refine ⟨preL, preR ++ [stripped bytes], out, by rw [hf1]; exact hl,
      ⟨fh', by rw [hc]; rfl, ?_⟩, by rw [hf4]; exact ho, h1, by simp; omega⟩
    rw [hpr, lines_read_from_cons hg]
    simp

theorem CountInv_fprintf {left right : List Nat} {a b : Nat} {ctx ctx' : context}
    (h : CountInv left right (a + 1) (b + 1) ctx)
    (hpr : fprintf_left_line ctx = .ok ctx') : CountInv left right a b ctx' := by
  obtain ⟨preL, preR, out, hl, hr, ho, h1, h2⟩ := h
  obtain ⟨out', ho', hc⟩ := fprintf_left_line_inv hpr
  rw [ho] at ho'
  simp only [Option.some.injEq] at ho'
  subst ho'
  rw [hc]
  exact ⟨preL, preR, out ++ [ctx.left_line], hl, hr, rfl, by simp; omega, by simp; omega⟩

/-- A returning pass through the `switch` with both sides one line ahead of the output
leaves each side ahead by the value its last `advance_side` returned. -/
theorem CountInv_merge_step {left right : List Nat} {cmp : Line → Line → Nat → Int}
    {ctx : context} {act : Nat} {res : context × Nat}
    (h : CountInv left right 1 1 ctx) (hres : merge_step cmp ctx act = .ok res) :
    ∃ l r, res.2 = l + r ∧ l ≤ 1 ∧ r ≤ 1 ∧ CountInv left right l r res.1 := by
  obtain ⟨c, out, c1, l, r, hc, hco, _, hl, hr, hsum, _⟩ := merge_step_inv hres
  have hcinv : CountInv left right 1 1 c := by
    rcases hc with rfl | ⟨r0, hr0⟩ | ⟨c0, l0, r0, hl0, hr0⟩
    · exact h
    · exact CountInv_mono (CountInv_advance_R h hr0).2 (le_refl _) (by omega)
    · have h1 := CountInv_mono (CountInv_advance_L h hl0).2 (show 1 ≤ 1 + l0 by omega)
        (le_refl _)
      exact CountInv_mono (CountInv_advance_R h1 hr0).2 (le_refl _) (by omega)
  have hw : CountInv left right 0 0 (with_output c (out ++ [c.left_line])) :=
    CountInv_fprintf hcinv (fprintf_left_line_eq hco)
  obtain ⟨hl1, h1⟩ := CountInv_advance_L hw hl
  obtain ⟨hr1, h2⟩ := CountInv_advance_R h1 hr
  exact ⟨l, r, hsum, hl1, hr1, by simpa using h2⟩

theorem merge_loop_count (cmp : Line → Line → Nat → Int) (left right : List Nat) :
    ∀ (fuel : Nat) (ctx : context) (act : Nat),
      (∃ l r, act = l + r ∧ l ≤ 1 ∧ r ≤ 1 ∧ CountInv left right l r ctx) →
      (∀ out, ctx.out_fh = some out →
        min (lines_read_from left).length (lines_read_from right).length
          ≤ fuel + out.length) →
      merge_loop cmp fuel ctx act ≠ .out_of_fuel := by
  intro fuel
  induction fuel with
  | zero =>
    intro ctx act h hfuel
    unfold merge_loop
    split
    · exfalso
      obtain ⟨l, r, hlr, hl, hr, preL, preR, out, ⟨_, _, hpl⟩, ⟨_, _, hpr⟩, ho, h1, h2⟩ := h
      have := hfuel out ho
      have e1 := congrArg List.length hpl
      have e2 := congrArg List.length hpr
      simp only [List.length_append] at e1 e2
      omega
    · simp
  | succ fuel ih =>
    intro ctx act h hfuel
    unfold merge_loop
    split
    · rename_i hact
      subst hact
      have h11 : CountInv left right 1 1 ctx := by
        obtain ⟨l, r, hlr, hl, hr, h⟩ := h
        have hl1 : l = 1 := by omega
        have hr1 : r = 1 := by omega
        subst hl1 hr1
        exact h
      refine Result.bind_ne_out_of_fuel (merge_step_ne_out_of_fuel _ _ _) (fun s hs => ?_)
      refine ih s.1 s.2 (CountInv_merge_step h11 hs) ?_
      intro out' hout'
      obtain ⟨out, line, ho, ho'⟩ := merge_step_out hs
      rw [ho'] at hout'
      have := hfuel out ho
      simp only [Option.some.injEq] at hout'
      subst hout'
      simp
      omega
    · simp

theorem CountInv_open_context {left right : Option (List Nat)} {ctx : context}
    (h : open_context left right true = .ok ctx) :
    CountInv (left.getD []) (right.getD []) 1 1 ctx := by
  obtain ⟨c1, hl, hr⟩ := open_context_inv h
  have hls : ∃ bl, left = some bl := by
    cases left with
    | none =>
      exfalso
      rw [advance_side_L_none (by rfl)] at hl
      simp at hl
    | some bl => exact ⟨bl, rfl⟩
  obtain ⟨bl, rfl⟩ := hls
  have hrs : ∃ br, right = some br := by
    cases right with
    | none =>
      exfalso
      have : c1.right_fh = none := by rw [(advance_side_L_frame hl).1]; rfl
      rw [advance_side_R_none this] at hr
      simp at hr
    | some br => exact ⟨br, rfl⟩
  obtain ⟨br, rfl⟩ := hrs
  have h0 : CountInv bl br 0 0 (fresh_context (some bl) (some br) true) :=
    ⟨[], [], [], ⟨⟨bl, false⟩, rfl, rfl⟩, ⟨⟨br, false⟩, rfl, rfl⟩, rfl, by simp, by simp⟩
  have h1 := (CountInv_advance_L h0 hl).2
  have h2 := (CountInv_advance_R h1 hr).2
  simpa using h2

/-- For any inputs, with the output file open, the loop of `main` needs no more passes
than the smaller number of lines read from the two files: `main` with the loop bounded
by that number ends in the same way. -/
theorem main_eq_min_lines_read (cmp : Line → Line → Nat → Int)
    (left right : Option (List Nat)) :
    main cmp left right true
      = (open_context left right true).bind (fun c =>
          (merge_loop cmp
            (min (lines_read_from (left.getD [])).length
              (lines_read_from (right.getD [])).length) c 2).bind close_context) := by
  have hmain := main_ne_out_of_fuel cmp left right true
  unfold main at hmain ⊢
  cases hopen : open_context left right true with
  | ok c0 =>
    rw [hopen] at hmain
    simp only [Result.bind] at hmain ⊢
    have hinv := CountInv_open_context hopen
    have hout := open_context_out hopen
    have hne := merge_loop_count cmp (left.getD []) (right.getD [])
      (min (lines_read_from (left.getD [])).length (lines_read_from (right.getD [])).length)
      c0 2 ⟨1, 1, rfl, le_refl _, le_refl _, hinv⟩ (by intro out _; omega)
    by_cases hle : min (lines_read_from (left.getD [])).length
        (lines_read_from (right.getD [])).length ≤ (left.getD []).length + 1
    · rw [merge_loop_fuel_mono cmp _ c0 2 hne _ hle]
    · have hne2 : merge_loop cmp ((left.getD []).length + 1) c0 2 ≠ .out_of_fuel := by
        intro h
        rw [h] at hmain
        exact hmain rfl
      have hge : (left.getD []).length + 1 ≤ min (lines_read_from (left.getD [])).length
          (lines_read_from (right.getD [])).length := by omega
      rw [merge_loop_fuel_mono cmp ((left.getD []).length + 1) c0 2 hne2 _ hge]
  | exit_failure w c => rfl
  | undefined => rfl
  | out_of_fuel => rfl

/-! ## The order of the lines read, on arbitrary inputs -/

theorem SideRead_read {bytes : List Nat} {pre : List Line} {f f' : FileStream}
    {b : List Nat} {line prev : Line}
    (h : SideRead bytes pre (some f) line prev)
    (hg : fgets (MAX_LINE_LEN - 1) f = (some b, f'))
    (hchk : stripped b ≠ [] → byteLe (last_seen line prev) (stripped b)) :
    SideRead bytes (pre ++ [stripped b]) (some f') (stripped b) (last_seen line prev) := by
  obtain ⟨⟨f0, hf0, hpre⟩, hch, hlast⟩ := h
  simp only [Option.some.injEq] at hf0
  subst hf0
  refine ⟨⟨f', rfl, ?_⟩, ?_, ?_⟩
  · rw [hpre, lines_read_from_cons hg]
    simp
  · rw [nonempty_lines_append]
    by_cases hne : stripped b = []
    · simpa [nonempty_lines, hne] using hch
    · have : nonempty_lines [stripped b] = [stripped b] := by simp [nonempty_lines, hne]
      rw [this, List.chain'_append]
      refine ⟨hch, by simp, ?_⟩
      intro x hx y hy
      simp only [List.head?_cons, Option.mem_def, Option.some.injEq] at hy
      subst hy
      rw [hlast x hx]
      exact hchk hne
  · rw [nonempty_lines_append]
    by_cases hne : stripped b = []
    · intro m hm
      have : nonempty_lines [stripped b] = [] := by simp [nonempty_lines, hne]
      rw [this, List.append_nil] at hm
      rw [hlast m hm, hne]
      simp [last_seen]
    · intro m hm
      have : nonempty_lines [stripped b] = [stripped b] := by simp [nonempty_lines, hne]
      rw [this] at hm
      simp only [List.getLast?_append, List.getLast?_singleton, Option.mem_def] at hm
      have hm2 : stripped b = m := by simpa [Option.or] using hm
      rw [← hm2]
      simp [last_seen, hne]

theorem SideRead_eof {bytes : List Nat} {pre : List Line} {f f' : FileStream}
    {line prev : Line} (h : SideRead bytes pre (some f) line prev)
    (hg : fgets (MAX_LINE_LEN - 1) f = (none, f')) :
    SideRead bytes pre (some f') [] (last_seen line prev) := by
  obtain ⟨⟨f0, hf0, hpre⟩, hch, hlast⟩ := h
  simp only [Option.some.injEq] at hf0
  subst hf0
  obtain ⟨hnil, hf'⟩ := fgets_none hg
  refine ⟨⟨f', rfl, ?_⟩, hch, ?_⟩
  · rw [hpre, hnil, hf']
  · intro m hm
    rw [hlast m hm]
    simp [last_seen]

theorem ReadInv_fresh (left right : List Nat) (out : Bool) :
    ReadInv left right (fresh_context (some left) (some right) out) :=
  ⟨⟨[], ⟨⟨left, false⟩, rfl, rfl⟩, List.chain'_nil, by simp [nonempty_lines]⟩,
   ⟨[], ⟨⟨right, false⟩, rfl, rfl⟩, List.chain'_nil, by simp [nonempty_lines]⟩⟩

theorem ReadInv_advance_L {left right : List Nat} {ctx ctx' : context} {r : Nat}
    (h : ReadInv left right ctx) (hadv : advance_side ctx 'L' = .ok (ctx', r)) :
    ReadInv left right ctx' := by
  obtain ⟨⟨preL, hSL⟩, ⟨preR, hSR⟩⟩ := h
  obtain ⟨hf1, hf2, hf3, _, _⟩ := advance_side_L_frame hadv
  obtain ⟨fh, fh', hfh, _, hcase⟩ := advance_side_L_inv hadv
  rw [hfh] at hSL
  refine ⟨?_, ⟨preR, by rw [hf1, hf2, hf3]; exact hSR⟩⟩
  rcases hcase with ⟨hg, hc⟩ | ⟨bytes, hg, _, hc, hd⟩
  · refine ⟨preL, ?_⟩
    rw [hc]
    exact SideRead_eof hSL hg
  · refine ⟨preL ++ [stripped bytes], ?_⟩
    have hchk := (detect_sort_problems_ok hd).1
    rw [hc] at hchk ⊢
    exact SideRead_read hSL hg hchk

theorem ReadInv_advance_R {left right : List Nat} {ctx ctx' : context} {r : Nat}
    (h : ReadInv left right ctx) (hadv : advance_side ctx 'R' = .ok (ctx', r)) :
    ReadInv left right ctx' := by
  obtain ⟨⟨preL, hSL⟩, ⟨preR, hSR⟩⟩ := h
  obtain ⟨hf1, hf2, hf3, _, _⟩ := advance_side_R_frame hadv
  obtain ⟨fh, fh', hfh, _, hcase⟩ := advance_side_R_inv hadv
  rw [hfh] at hSR
  refine ⟨⟨preL, by rw [hf1, hf2, hf3]; exact hSL⟩, ?_⟩
  rcases hcase with ⟨hg, hc⟩ | ⟨bytes, hg, _, hc, hd⟩
  · refine ⟨preR, ?_⟩
    rw [hc]
    exact SideRead_eof hSR hg
  · refine ⟨preR ++ [stripped bytes], ?_⟩
    have hchk := (detect_sort_problems_ok hd).2
    rw [hc] at hchk ⊢
    exact SideRead_read hSR hg hchk

theorem ReadInv_fprintf {left right : List Nat} {ctx ctx' : context}
    (h : ReadInv left right ctx) (hpr : fprintf_left_line ctx = .ok ctx') :
    ReadInv left right ctx' := by
  obtain ⟨out, _, hc⟩ := fprintf_left_line_inv hpr
  rw [hc]
  exact h

/-- For any inputs: in the context in which `main` ends normally, both streams are open
and the non-empty lines read from each file are in non-decreasing order. -/
theorem ReadInv_main (cmp : Line → Line → Nat → Int) {left right : List Nat} {out : Bool}
    {ctx : context} (h : main cmp (some left) (some right) out = .ok ctx) :
    ReadInv left right ctx := by
  have key := main_holds (I := ReadInv left right) (Q := fun _ => True) cmp
    (fun _ _ => trivial)
    (fun c hc => by
      cases hadv : advance_side c 'L' with
      | ok p => exact @ReadInv_advance_L left right c p.1 p.2 hc hadv
      | exit_failure w c' => trivial
      | undefined => trivial
      | out_of_fuel => trivial)
    (fun c hc => by
      cases hadv : advance_side c 'R' with
      | ok p => exact @ReadInv_advance_R left right c p.1 p.2 hc hadv
      | exit_failure w c' => trivial
      | undefined => trivial
      | out_of_fuel => trivial)
    (fun c hc => by
      cases hpr : fprintf_left_line c with
      | ok p => exact ReadInv_fprintf hc hpr
      | exit_failure w c' => trivial
      | undefined => trivial
      | out_of_fuel => trivial)
    (some left) (some right) out (ReadInv_fresh left right out)
  rw [h] at key
  exact key

/-! ## The number of lines written, on arbitrary inputs -/

theorem merge_loop_CountInv (cmp : Line → Line → Nat → Int) {left right : List Nat} :
    ∀ (fuel : Nat) (ctx : context) (act : Nat) (ctx' : context),
      (∃ l r, act = l + r ∧ l ≤ 1 ∧ r ≤ 1 ∧ CountInv left right l r ctx) →
      merge_loop cmp fuel ctx act = .ok ctx' → CountInv left right 0 0 ctx' := by
  intro fuel
  induction fuel with
  | zero =>
    intro ctx act ctx' h hloop
    unfold merge_loop at hloop
    split at hloop
    · simp at hloop
    · simp only [Result.ok.injEq] at hloop
      subst hloop
      obtain ⟨l, r, _, _, _, h⟩ := h
      exact CountInv_mono h (Nat.zero_le _) (Nat.zero_le _)
  | succ fuel ih =>
    intro ctx act ctx' h hloop
    unfold merge_loop at hloop
    split at hloop
    · rename_i hact
      subst hact
      have h11 : CountInv left right 1 1 ctx := by
        obtain ⟨l, r, hlr, hl, hr, h⟩ := h
        have hl1 : l = 1 := by omega
        have hr1 : r = 1 := by omega
        subst hl1 hr1
        exact h
      obtain ⟨s, hs, hloop⟩ := Result.bind_eq_ok hloop
      exact ih s.1 s.2 ctx' (CountInv_merge_step h11 hs) hloop
    · simp only [Result.ok.injEq] at hloop
      subst hloop
      obtain ⟨l, r, _, _, _, h⟩ := h
      exact CountInv_mono h (Nat.zero_le _) (Nat.zero_le _)

/-- For any inputs: in the context in which `main` ends normally, no more lines have
been written than have been read from the left file, nor than from the right file. -/
theorem CountInv_main (cmp : Line → Line → Nat → Int) {left right : Option (List Nat)}
    {ctx : context} (h : main cmp left right true = .ok ctx) :
    CountInv (left.getD []) (right.getD []) 0 0 ctx := by
  obtain ⟨c0, hopen, hloop⟩ := main_inv h
  exact merge_loop_CountInv cmp _ c0 2 ctx
    ⟨1, 1, rfl, le_refl _, le_refl _, CountInv_open_context hopen⟩ hloop

/-! ## Inputs without NUL bytes: no undefined behaviour -/

theorem Result.defined_bind {α β : Type} {P : α → Prop} {P' : β → Prop}
    {r : Result α} {f : α → Result β}
    (hr : r.defined P) (hf : ∀ a, P a → (f a).defined P') : (r.bind f).defined P' := by
  cases r with
  | ok a => exact hf a hr
  | exit_failure w c => trivial
  | undefined => exact hr
  | out_of_fuel => trivial

theorem bail_defined {α : Type} {P : α → Prop} (msg : Failure) {ctx : context}
    (h : OpenNulFree ctx) : (bail msg ctx : Result α).defined P := by
  obtain ⟨⟨fl, hl, _⟩, ⟨fr, hr, _⟩, ⟨out, ho⟩⟩ := h
  rw [bail_eq msg fl fr out hl hr ho]
  trivial

theorem detect_sort_problems_defined {ctx : context} (h : OpenNulFree ctx) :
    (detect_sort_problems ctx).defined (fun _ => True) := by
  unfold detect_sort_problems
  split
  · exact bail_defined _ h
  · split
    · exact bail_defined _ h
    · trivial

theorem cstr_eq_self {bytes : List Nat} (h : ∀ b ∈ bytes, b ≠ 0) : cstr bytes = bytes := by
  unfold cstr
  rw [List.takeWhile_eq_self_iff]
  intro b hb
  simpa using h b hb

theorem advance_side_L_defined {ctx : context} (h : OpenNulFree ctx) :
    (advance_side ctx 'L').defined (fun p => OpenNulFree p.1) := by
  obtain ⟨⟨fl, hl, hnl⟩, ⟨fr, hr, hnr⟩, ⟨out, ho⟩⟩ := h
  rcases fgets_cases fl with ⟨fh', hg⟩ | ⟨bytes, fh', hg⟩
  · rw [advance_side_L_null fl hl hg]
    show OpenNulFree (left_advanced ctx [] fh')
    refine ⟨⟨fh', rfl, ?_⟩, ⟨fr, hr, hnr⟩, ⟨out, ho⟩⟩
    rw [(fgets_none hg).2]
    simp
  · obtain ⟨_, _, _, hne, hsplit⟩ := fgets_some hg
    have hb : ∀ b ∈ bytes, b ≠ 0 :=
      fun b hb => hnl b (by rw [hsplit]; exact List.mem_append_left _ hb)
    have hr' : ∀ b ∈ fh'.rest, b ≠ 0 :=
      fun b hb => hnl b (by rw [hsplit]; exact List.mem_append_right _ hb)
    have hc : cstr bytes ≠ [] := by rw [cstr_eq_self hb]; exact hne
    have hI : OpenNulFree (left_advanced ctx (stripped bytes) fh') :=
      ⟨⟨fh', rfl, hr'⟩, ⟨fr, hr, hnr⟩, ⟨out, ho⟩⟩
    rw [advance_side_L_read fl hl hg hc]
    exact Result.defined_bind (detect_sort_problems_defined hI) (fun _ _ => hI)

theorem advance_side_R_defined {ctx : context} (h : OpenNulFree ctx) :
    (advance_side ctx 'R').defined (fun p => OpenNulFree p.1) := by
  obtain ⟨⟨fl, hl, hnl⟩, ⟨fr, hr, hnr⟩, ⟨out, ho⟩⟩ := h
  rcases fgets_cases fr with ⟨fh', hg⟩ | ⟨bytes, fh', hg⟩
  · rw [advance_side_R_null fr hr hg]
    show OpenNulFree (right_advanced ctx [] fh')
    refine ⟨⟨fl, hl, hnl⟩, ⟨fh', rfl, ?_⟩, ⟨out, ho⟩⟩
    rw [(fgets_none hg).2]
    simp
  · obtain ⟨_, _, _, hne, hsplit⟩ := fgets_some hg
    have hb : ∀ b ∈ bytes, b ≠ 0 :=
      fun b hb => hnr b (by rw [hsplit]; exact List.mem_append_left _ hb)
    have hr' : ∀ b ∈ fh'.rest, b ≠ 0 :=
      fun b hb => hnr b (by rw [hsplit]; exact List.mem_append_right _ hb)
    have hc : cstr bytes ≠ [] := by rw [cstr_eq_self hb]; exact hne
    have hI : OpenNulFree (right_advanced ctx (stripped bytes) fh') :=
      ⟨⟨fl, hl, hnl⟩, ⟨fh', rfl, hr'⟩, ⟨out, ho⟩⟩
    rw [advance_side_R_read fr hr hg hc]
    exact Result.defined_bind (detect_sort_problems_defined hI) (fun _ _ => hI)

theorem fprintf_left_line_defined {ctx : context} (h : OpenNulFree ctx) :
    (fprintf_left_line ctx).defined OpenNulFree := by
  obtain ⟨hl, hr, ⟨out, ho⟩⟩ := h
  rw [fprintf_left_line_eq ho]
  exact ⟨hl, hr, ⟨_, rfl⟩⟩

theorem case_default_defined {ctx : context} (h : OpenNulFree ctx) :
    (case_default ctx).defined (fun p => OpenNulFree p.1) := by
  unfold case_default
  refine Result.defined_bind (fprintf_left_line_defined h) (fun c0 h0 => ?_)
  refine Result.defined_bind (advance_side_L_defined h0) (fun l h1 => ?_)
  refine Result.defined_bind (advance_side_R_defined h1) (fun r h2 => ?_)
  exact h2

theorem case_1_defined {ctx : context} (act : Nat) (h : OpenNulFree ctx) :
    (case_1 ctx act).defined (fun p => OpenNulFree p.1) := by
  unfold case_1
  exact Result.defined_bind (advance_side_R_defined h) (fun r h1 => case_default_defined h1)

theorem case_minus_1_defined {ctx : context} (h : OpenNulFree ctx) :
    (case_minus_1 ctx).defined (fun p => OpenNulFree p.1) := by
  unfold case_minus_1
  exact Result.defined_bind (advance_side_L_defined h) (fun l h1 => case_1_defined _ h1)

theorem merge_step_defined (cmp : Line → Line → Nat → Int) {ctx : context} (act : Nat)
    (h : OpenNulFree ctx) :
    (merge_step cmp ctx act).defined (fun p => OpenNulFree p.1) := by
  unfold merge_step
  simp only
  split
  · exact case_minus_1_defined h
  · split
    · exact case_1_defined _ h
    · exact case_default_defined h

theorem merge_loop_defined (cmp : Line → Line → Nat → Int) :
    ∀ (fuel : Nat) (ctx : context) (act : Nat), OpenNulFree ctx →
      (merge_loop cmp fuel ctx act).defined OpenNulFree := by
  intro fuel
  induction fuel with
  | zero =>
    intro ctx act h
    unfold merge_loop
    split
    · trivial
    · exact h
  | succ fuel ih =>
    intro ctx act h
    unfold merge_loop
    split
    · exact Result.defined_bind (merge_step_defined cmp act h) (fun s hs => ih s.1 s.2 hs)
    · exact h

theorem open_context_defined {left right : List Nat}
    (hl : ∀ b ∈ left, b ≠ 0) (hr : ∀ b ∈ right, b ≠ 0) :
    (open_context (some left) (some right) true).defined OpenNulFree := by
  have h0 : OpenNulFree (fresh_context (some left) (some right) true) :=
    ⟨⟨⟨left, false⟩, rfl, hl⟩, ⟨⟨right, false⟩, rfl, hr⟩, ⟨[], rfl⟩⟩
  unfold open_context
  refine Result.defined_bind (advance_side_L_defined h0) (fun l h1 => ?_)
  split
  · exact bail_defined _ h1
  · refine Result.defined_bind (advance_side_R_defined h1) (fun r h2 => ?_)
    split
    · exact bail_defined _ h2
    · exact h2

/-- With all three files open and no NUL byte in either input, the run ends by
returning from `main` or through `bail`. -/
theorem main_exits_nul_free (cmp : Line → Line → Nat → Int) {left right : List Nat}
    (hl : ∀ b ∈ left, b ≠ 0) (hr : ∀ b ∈ right, b ≠ 0) :
    (∃ ctx, main cmp (some left) (some right) true = .ok ctx) ∨
    (∃ why ctx, main cmp (some left) (some right) true = .exit_failure why ctx) := by
  have hd : (main cmp (some left) (some right) true).defined OpenNulFree := by
    unfold main
    refine Result.defined_bind (open_context_defined hl hr) (fun c0 h0 => ?_)
    refine Result.defined_bind (merge_loop_defined cmp _ c0 2 h0) (fun c1 h1 => ?_)
    obtain ⟨⟨fl, hfl, _⟩, ⟨fr, hfr, _⟩, ⟨out, ho⟩⟩ := h1
    unfold close_context
    rw [hfl, hfr, ho]
    exact ⟨⟨fl, hfl, by assumption⟩, ⟨fr, hfr, by assumption⟩, ⟨out, ho⟩⟩
  have hf := main_ne_out_of_fuel cmp (some left) (some right) true
  cases hm : main cmp (some left) (some right) true with
  | ok c => exact Or.inl ⟨c, rfl⟩
  | exit_failure w c => exact Or.inr ⟨w, c, rfl⟩
  | undefined => rw [hm] at hd; exact hd.elim
  | out_of_fuel => exact absurd hm hf

/-! ## The order of the lines written, on arbitrary inputs -/

theorem last_seen_nil (prev : Line) : last_seen [] prev = prev := by
  simp [last_seen]

theorem last_seen_ne_nil {line : Line} (prev : Line) (h : line ≠ []) :
    last_seen line prev = line := by
  simp [last_seen, h]

theorem OutSorted_fresh (left right : Option (List Nat)) (out : Bool) :
    OutSorted (fresh_context left right out) := by
  intro o ho
  cases out with
  | false => simp [fresh_context] at ho
  | true =>
    simp only [fresh_context, if_true, Option.some.injEq] at ho
    subst ho
    simp [nonempty_lines]

theorem OutSorted_left_advanced {ctx : context} (l : Line) (fh : FileStream)
    (h : OutSorted ctx)
    (hchk : l ≠ [] → byteLe (last_seen ctx.left_line ctx.prev_left_line) l) :
    OutSorted (left_advanced ctx l fh) := by
  intro o ho
  obtain ⟨hch, hlast⟩ := h o ho
  refine ⟨hch, ?_⟩
  intro m hm
  show byteLe m (last_seen l (last_seen ctx.left_line ctx.prev_left_line))
  by_cases hne : l = []
  · rw [hne, last_seen_nil]
    exact hlast m hm
  · rw [last_seen_ne_nil _ hne]
    exact byteLe_trans (hlast m hm) (hchk hne)

theorem OutSorted_advance_L {ctx ctx' : context} {r : Nat} (h : OutSorted ctx)
    (hadv : advance_side ctx 'L' = .ok (ctx', r)) : OutSorted ctx' := by
  obtain ⟨fh, fh', _, _, hcase⟩ := advance_side_L_inv hadv
  rcases hcase with ⟨_, hc⟩ | ⟨bytes, _, _, hc, hd⟩
  · rw [hc]
    exact OutSorted_left_advanced [] fh' h (fun hne => absurd rfl hne)
  · have hchk := (detect_sort_problems_ok hd).1
    rw [hc] at hchk ⊢
    exact OutSorted_left_advanced (stripped bytes) fh' h hchk

theorem OutSorted_advance_R {ctx ctx' : context} {r : Nat} (h : OutSorted ctx)
    (hadv : advance_side ctx 'R' = .ok (ctx', r)) : OutSorted ctx' := by
  obtain ⟨_, h2, h3, h4, _⟩ := advance_side_R_frame hadv
  unfold OutSorted
  rw [h2, h3, h4]
  exact h

theorem OutSorted_fprintf {ctx ctx' : context} (h : OutSorted ctx)
    (hpr : fprintf_left_line ctx = .ok ctx') : OutSorted ctx' := by
  obtain ⟨out, ho, hc⟩ := fprintf_left_line_inv hpr
  obtain ⟨hch, hlast⟩ := h out ho
  rw [hc]
  intro o ho'
  simp only [with_output, Option.some.injEq] at ho'
  subst ho'
  show (nonempty_lines (out ++ [ctx.left_line])).Chain' byteLe ∧
    ∀ m ∈ (nonempty_lines (out ++ [ctx.left_line])).getLast?,
      byteLe m (last_seen ctx.left_line ctx.prev_left_line)
  rw [nonempty_lines_append]
  by_cases hne : ctx.left_line = []
  · have : nonempty_lines [ctx.left_line] = [] := by simp [nonempty_lines, hne]
    rw [this, List.append_nil]
    exact ⟨hch, hlast⟩
  · have : nonempty_lines [ctx.left_line] = [ctx.left_line] := by
      simp [nonempty_lines, hne]
    rw [this, last_seen_ne_nil _ hne]
    constructor
    · rw [List.chain'_append]
      refine ⟨hch, by simp, ?_⟩
      intro x hx y hy
      simp only [List.head?_cons, Option.mem_def, Option.some.injEq] at hy
      subst hy
      have := hlast x hx
      rwa [last_seen_ne_nil _ hne] at this
    · intro m hm
      simp only [List.getLast?_append, List.getLast?_singleton, Option.mem_def] at hm
      have hm2 : ctx.left_line = m := by simpa [Option.or] using hm
      rw [← hm2]
      exact byteLe_refl _

/-- For any inputs: the non-empty lines written by a run that ends normally are in
non-decreasing order. -/
theorem OutSorted_main (cmp : Line → Line → Nat → Int) {left right : Option (List Nat)}
    {o : Bool} {ctx : context} (h : main cmp left right o = .ok ctx) : OutSorted ctx := by
  have key := main_holds (I := OutSorted) (Q := fun _ => True) cmp
    (fun _ _ => trivial)
    (fun c hc => by
      cases hadv : advance_side c 'L' with
      | ok p => exact @OutSorted_advance_L c p.1 p.2 hc hadv
      | exit_failure w c' => trivial
      | undefined => trivial
      | out_of_fuel => trivial)
    (fun c hc => by
      cases hadv : advance_side c 'R' with
      | ok p => exact @OutSorted_advance_R c p.1 p.2 hc hadv
      | exit_failure w c' => trivial
      | undefined => trivial
      | out_of_fuel => trivial)
    (fun c hc => by
      cases hpr : fprintf_left_line c with
      | ok p => exact OutSorted_fprintf hc hpr
      | exit_failure w c' => trivial
      | undefined => trivial
      | out_of_fuel => trivial)
    left right o (OutSorted_fresh left right o)
  rw [h] at key
  exact key

/-! ## Inputs that end with a newline: an exhausted side has an empty current line -/

theorem fgets_loop_terminated : ∀ (k : Nat) (rest : List Nat),
    (∀ x ∈ rest.getLast?, x = NL) → rest ≠ [] → (fgets_loop k rest).2.2 = false := by
  intro k
  induction k with
  | zero => intro rest _ _; rfl
  | succ k ih =>
    intro rest hlast hne
    cases rest with
    | nil => exact absurd rfl hne
    | cons c t =>
      unfold fgets_loop
      split
      · rfl
      · rename_i hc
        show (fgets_loop k t).2.2 = false
        cases t with
        | nil =>
          exfalso
          exact hc (hlast c (by simp))
        | cons d t' =>
          refine ih (d :: t') ?_ (by simp)
          intro x hx
          exact hlast x (by simpa [List.getLast?_cons_cons] using hx)

theorem getLast?_of_append {xs ys : List Nat} (h : ∀ x ∈ (xs ++ ys).getLast?, x = NL) :
    ∀ x ∈ ys.getLast?, x = NL := by
  intro x hx
  refine h x ?_
  rw [List.getLast?_append]
  simp only [Option.mem_def] at hx ⊢
  rw [hx]
  rfl

theorem SideTerminated_advance {f f' : FileStream} {line : Line}
    (h : SideTerminated (some f) line) :
    (fgets (MAX_LINE_LEN - 1) f = (none, f') → SideTerminated (some f') []) ∧
    (∀ bytes l, fgets (MAX_LINE_LEN - 1) f = (some bytes, f') →
      SideTerminated (some f') l) := by
  obtain ⟨f0, hf0, hlast, heof⟩ := h
  simp only [Option.some.injEq] at hf0
  subst hf0
  constructor
  · intro hg
    rw [(fgets_none hg).2]
    exact ⟨_, rfl, by simp, fun _ => ⟨rfl, rfl⟩⟩
  · intro bytes l hg
    obtain ⟨_, _, h3, hne, hsplit⟩ := fgets_some hg
    have hrest : f.rest ≠ [] := by
      rw [hsplit]
      simp [hne]
    have hf : f.eof = false := by
      cases he : f.eof with
      | false => rfl
      | true => exact absurd (heof he).1 hrest
    refine ⟨f', rfl, ?_, ?_⟩
    · rw [hsplit] at hlast
      exact getLast?_of_append hlast
    · intro he
      rw [h3, hf, fgets_loop_terminated _ _ hlast hrest] at he
      simp at he

theorem TerminatedInv_advance_L {ctx ctx' : context} {r : Nat} (h : TerminatedInv ctx)
    (hadv : advance_side ctx 'L' = .ok (ctx', r)) : TerminatedInv ctx' := by
  obtain ⟨hl, hr⟩ := h
  obtain ⟨h1, h2, _, _, _⟩ := advance_side_L_frame hadv
  obtain ⟨fh, fh', hfh, _, hcase⟩ := advance_side_L_inv hadv
  rw [hfh] at hl
  refine ⟨?_, by rw [h1, h2]; exact hr⟩
  rcases hcase with ⟨hg, hc⟩ | ⟨bytes, hg, _, hc, _⟩
  · rw [hc]
    exact (SideTerminated_advance hl).1 hg
  · rw [hc]
    exact (SideTerminated_advance hl).2 bytes _ hg

theorem TerminatedInv_advance_R {ctx ctx' : context} {r : Nat} (h : TerminatedInv ctx)
    (hadv : advance_side ctx 'R' = .ok (ctx', r)) : TerminatedInv ctx' := by
  obtain ⟨hl, hr⟩ := h
  obtain ⟨h1, h2, _, _, _⟩ := advance_side_R_frame hadv
  obtain ⟨fh, fh', hfh, _, hcase⟩ := advance_side_R_inv hadv
  rw [hfh] at hr
  refine ⟨by rw [h1, h2]; exact hl, ?_⟩
  rcases hcase with ⟨hg, hc⟩ | ⟨bytes, hg, _, hc, _⟩
  · rw [hc]
    exact (SideTerminated_advance hr).1 hg
  · rw [hc]
    exact (SideTerminated_advance hr).2 bytes _ hg

theorem TerminatedInv_fprintf {ctx ctx' : context} (h : TerminatedInv ctx)
    (hpr : fprintf_left_line ctx = .ok ctx') : TerminatedInv ctx' := by
  obtain ⟨out, _, hc⟩ := fprintf_left_line_inv hpr
  rw [hc]
  exact h

/-- On inputs that are empty or end with a newline: in the context in which `main` ends
normally, a side whose end-of-file flag is set has an empty current line. -/
theorem TerminatedInv_main (cmp : Line → Line → Nat → Int) {left right : List Nat}
    {out : Bool} {ctx : context}
    (hl : ∀ x ∈ left.getLast?, x = NL) (hr : ∀ x ∈ right.getLast?, x = NL)
    (h : main cmp (some left) (some right) out = .ok ctx) : TerminatedInv ctx := by
  have key := main_holds (I := TerminatedInv) (Q := fun _ => True) cmp
    (fun _ _ => trivial)
    (fun c hc => by
      cases hadv : advance_side c 'L' with
      | ok p => exact @TerminatedInv_advance_L c p.1 p.2 hc hadv
      | exit_failure w c' => trivial
      | undefined => trivial
      | out_of_fuel => trivial)
    (fun c hc => by
      cases hadv : advance_side c 'R' with
      | ok p => exact @TerminatedInv_advance_R c p.1 p.2 hc hadv
      | exit_failure w c' => trivial
      | undefined => trivial
      | out_of_fuel => trivial)
    (fun c hc => by
      cases hpr : fprintf_left_line c with
      | ok p => exact TerminatedInv_fprintf hc hpr
      | exit_failure w c' => trivial
      | undefined => trivial
      | out_of_fuel => trivial)
    (some left) (some right) out
    ⟨⟨⟨left, false⟩, rfl, hl, by simp⟩, ⟨⟨right, false⟩, rfl, hr, by simp⟩⟩
  rw [h] at key
  exact key

/-! ## C3: detection of order violations -/

set_option maxRecDepth 100000 in
/-- C3 (counterexample): the right file a, c, b has the line b strictly below its
predecessor c, yet the run with the left file a returns from `main` normally (having
written a) and not through `bail`: the loop stops once the left file is at its end, and
the line b is still unread in the right stream. The same happens when both files hold
the two lines of 254 bytes b..bz and b..ba, the second strictly below the first:
`advance_side` reads each of them as the 253 bytes b..b followed by an empty line, finds
nothing out of order, and the run ends normally. An empty line is accepted after any
line: both files holding the line b and then an empty line, the run ends normally. -/
theorem unread_order_violation_undetected :
    byteCompare (ascii "b") (ascii "c") = .lt ∧
    main strncmp_sign (some (file_of [ascii "a"]))
        (some (file_of [ascii "a", ascii "c", ascii "b"])) true
      = .ok { left_fh := some ⟨[], true⟩, right_fh := some ⟨file_of [ascii "b"], false⟩,
              out_fh := some [ascii "a"], prev_left_line := ascii "a",
              prev_right_line := ascii "a", left_line := [], right_line := ascii "c" } ∧
    main strncmp_diff (some (file_of [ascii "a"]))
        (some (file_of [ascii "a", ascii "c", ascii "b"])) true
      = .ok { left_fh := some ⟨[], true⟩, right_fh := some ⟨file_of [ascii "b"], false⟩,
              out_fh := some [ascii "a"], prev_left_line := ascii "a",
              prev_right_line := ascii "a", left_line := [], right_line := ascii "c" } ∧
    (List.replicate 253 98 ++ [122]).length = 254 ∧
    (List.replicate 253 98 ++ [97]).length = 254 ∧
    byteCompare (List.replicate 253 98 ++ [97]) (List.replicate 253 98 ++ [122]) = .lt ∧
    lines_read_from (file_of [List.replicate 253 98 ++ [122], List.replicate 253 98 ++ [97]])
      = [List.replicate 253 98, [], List.replicate 253 98, []] ∧
    main strncmp_sign
        (some (file_of [List.replicate 253 98 ++ [122], List.replicate 253 98 ++ [97]]))
        (some (file_of [List.replicate 253 98 ++ [122], List.replicate 253 98 ++ [97]])) true
      = .ok (lockstep [] true [] (List.replicate 253 98)
          [List.replicate 253 98, [], List.replicate 253 98, []]) ∧
    byteCompare (ascii "") (ascii "b") = .lt ∧
    main strncmp_sign (some (file_of [ascii "b", ascii ""]))
        (some (file_of [ascii "b", ascii ""])) true
      = .ok (lockstep [] true [] (ascii "b") [ascii "b", ascii ""]) := by
  refine ⟨by decide, by decide, by decide, rfl, rfl, ?_, ?_, ?_, by decide, by decide⟩ <;> rfl

/-- C3 (amended): the order check covers the lines that are read, as they are read.
For any inputs and every `strncmp`, when the run ends normally both streams are open and
the lines that `advance_side` has read from each file (`preL` and `preR`: the lines that
reading the file yields are these followed by the lines still to be read from the
stream) are, empty lines aside, in non-decreasing byte-wise order. For inputs without
NUL bytes the run ends in a fatal abort or ends normally in this way, so that a run
which reads a non-empty line strictly below the last non-empty line read before it from
the same file ends in a fatal abort. For text files (lines free of newline and NUL
bytes, at most 253 bytes long, each followed by a newline) the lines that reading
yields are the lines of the file, and the lines read are the first `kL` left and the
first `kR` right lines. Lines that are never read, and empty lines, are not checked. -/
theorem read_lines_sorted_or_fatal (cmp : Line → Line → Nat → Int) :
    (∀ (left right : List Nat) (ctx : context),
      main cmp (some left) (some right) true = .ok ctx →
      ∃ preL preR fl fr,
        ctx.left_fh = some fl ∧ lines_read_from left = preL ++ lines_read_from fl.rest ∧
        ctx.right_fh = some fr ∧ lines_read_from right = preR ++ lines_read_from fr.rest ∧
        List.Chain' byteLe (nonempty_lines preL) ∧
        List.Chain' byteLe (nonempty_lines preR)) ∧
    (∀ left right : List Nat, (∀ b ∈ left, b ≠ 0) → (∀ b ∈ right, b ≠ 0) →
      (∃ why ctx, main cmp (some left) (some right) true = .exit_failure why ctx) ∨
      (∃ ctx preL preR fl fr, main cmp (some left) (some right) true = .ok ctx ∧
        ctx.left_fh = some fl ∧ lines_read_from left = preL ++ lines_read_from fl.rest ∧
        ctx.right_fh = some fr ∧ lines_read_from right = preR ++ lines_read_from fr.rest ∧
        List.Chain' byteLe (nonempty_lines preL) ∧
        List.Chain' byteLe (nonempty_lines preR))) ∧
    (∀ L R : List Line, (∀ l ∈ L, text_line l) → (∀ l ∈ R, text_line l) →
      lines_read_from (file_of L) = L ∧ lines_read_from (file_of R) = R ∧
      ((∃ why ctx, main cmp (some (file_of L)) (some (file_of R)) true
          = .exit_failure why ctx) ∨
      (∃ ctx kL kR eL eR, main cmp (some (file_of L)) (some (file_of R)) true = .ok ctx ∧
        kL ≤ L.length ∧ kR ≤ R.length ∧
        ctx.left_fh = some ⟨file_of (L.drop kL), eL⟩ ∧
        ctx.right_fh = some ⟨file_of (R.drop kR), eR⟩ ∧
        List.Chain' byteLe (nonempty_lines (L.take kL)) ∧
        List.Chain' byteLe (nonempty_lines (R.take kR))))) := by
  have key : ∀ (left right : List Nat) (ctx : context),
      main cmp (some left) (some right) true = .ok ctx →
      ∃ preL preR fl fr,
        ctx.left_fh = some fl ∧ lines_read_from left = preL ++ lines_read_from fl.rest ∧
        ctx.right_fh = some fr ∧ lines_read_from right = preR ++ lines_read_from fr.rest ∧
        List.Chain' byteLe (nonempty_lines preL) ∧
        List.Chain' byteLe (nonempty_lines preR) := by
    intro left right ctx h
    obtain ⟨⟨preL, ⟨fl, hfl, hpl⟩, hcl, _⟩, ⟨preR, ⟨fr, hfr, hpr⟩, hcr, _⟩⟩ :=
      ReadInv_main cmp h
    exact ⟨preL, preR, fl, fr, hfl, hpl, hfr, hpr, hcl, hcr⟩
  refine ⟨key, ?_, ?_⟩
  · intro left right hl hr
    rcases main_exits_nul_free cmp hl hr with ⟨ctx, h⟩ | h
    · right
      obtain ⟨preL, preR, fl, fr, hk⟩ := key left right ctx h
      exact ⟨ctx, preL, preR, fl, fr, h, hk⟩
    · exact Or.inl h
  · intro L R hL hR
    refine ⟨lines_read_from_file_of L hL, lines_read_from_file_of R hR, ?_⟩
    rcases main_exits cmp hL hR with ⟨ctx, h⟩ | h
    · right
      obtain ⟨kL, kR, out, hSL, hSR, _⟩ := RunInv_main cmp hL hR h
      obtain ⟨hkL, ⟨eL, hfL, _⟩, hcL, _⟩ := hSL
      obtain ⟨hkR, ⟨eR, hfR, _⟩, hcR, _⟩ := hSR
      exact ⟨ctx, kL, kR, eL, eR, h, hkL, hkR, hfL, hfR, hcL, hcR⟩
    · exact Or.inl h

set_option maxRecDepth 100000 in
/-- C3 (witness): the amended statement at Left = a, Right = a, c, b, where the run ends
normally having read a from the left and a, c from the right file; at the files that
both hold the two 254-byte lines b..bz and b..ba, which have no NUL byte; and at the
text files Left = m, k (out of order), Right = a, b, c. -/
theorem read_lines_sorted_or_fatal_witness :
    main strncmp_sign (some (file_of [ascii "a"]))
        (some (file_of [ascii "a", ascii "c", ascii "b"])) true
      = .ok { left_fh := some ⟨[], true⟩, right_fh := some ⟨file_of [ascii "b"], false⟩,
              out_fh := some [ascii "a"], prev_left_line := ascii "a",
              prev_right_line := ascii "a", left_line := [], right_line := ascii "c" } ∧
    (∃ preL preR fl fr,
      some (⟨[], true⟩ : FileStream) = some fl ∧
      lines_read_from (file_of [ascii "a"]) = preL ++ lines_read_from fl.rest ∧
      some (⟨file_of [ascii "b"], false⟩ : FileStream) = some fr ∧
      lines_read_from (file_of [ascii "a", ascii "c", ascii "b"])
        = preR ++ lines_read_from fr.rest ∧
      List.Chain' byteLe (nonempty_lines preL) ∧
      List.Chain' byteLe (nonempty_lines preR)) ∧
    (∀ b ∈ file_of [List.replicate 253 98 ++ [122], List.replicate 253 98 ++ [97]],
      b ≠ 0) ∧
    ((∃ why ctx, main strncmp_sign
        (some (file_of [List.replicate 253 98 ++ [122], List.replicate 253 98 ++ [97]]))
        (some (file_of [List.replicate 253 98 ++ [122], List.replicate 253 98 ++ [97]]))
        true = .exit_failure why ctx) ∨
    (∃ ctx preL preR fl fr, main strncmp_sign
        (some (file_of [List.replicate 253 98 ++ [122], List.replicate 253 98 ++ [97]]))
        (some (file_of [List.replicate 253 98 ++ [122], List.replicate 253 98 ++ [97]]))
        true = .ok ctx ∧
      ctx.left_fh = some fl ∧
      lines_read_from (file_of [List.replicate 253 98 ++ [122], List.replicate 253 98 ++ [97]])
        = preL ++ lines_read_from fl.rest ∧
      ctx.right_fh = some fr ∧
      lines_read_from (file_of [List.replicate 253 98 ++ [122], List.replicate 253 98 ++ [97]])
        = preR ++ lines_read_from fr.rest ∧
      List.Chain' byteLe (nonempty_lines preL) ∧
      List.Chain' byteLe (nonempty_lines preR))) ∧
    (∀ l ∈ [ascii "m", ascii "k"], text_line l) ∧
    (∀ l ∈ [ascii "a", ascii "b", ascii "c"], text_line l) ∧
    lines_read_from (file_of [ascii "m", ascii "k"]) = [ascii "m", ascii "k"] ∧
    lines_read_from (file_of [ascii "a", ascii "b", ascii "c"])
      = [ascii "a", ascii "b", ascii "c"] ∧
    ((∃ why ctx, main strncmp_sign (some (file_of [ascii "m", ascii "k"]))
        (some (file_of [ascii "a", ascii "b", ascii "c"])) true = .exit_failure why ctx) ∨
    (∃ ctx kL kR eL eR, main strncmp_sign (some (file_of [ascii "m", ascii "k"]))
        (some (file_of [ascii "a", ascii "b", ascii "c"])) true = .ok ctx ∧
      kL ≤ [ascii "m", ascii "k"].length ∧ kR ≤ [ascii "a", ascii "b", ascii "c"].length ∧
      ctx.left_fh = some ⟨file_of ([ascii "m", ascii "k"].drop kL), eL⟩ ∧
      ctx.right_fh = some ⟨file_of ([ascii "a", ascii "b", ascii "c"].drop kR), eR⟩ ∧
      List.Chain' byteLe (nonempty_lines ([ascii "m", ascii "k"].take kL)) ∧
      List.Chain' byteLe (nonempty_lines ([ascii "a", ascii "b", ascii "c"].take kR)))) :=
  ⟨by decide,
    (read_lines_sorted_or_fatal strncmp_sign).1 (file_of [ascii "a"])
      (file_of [ascii "a", ascii "c", ascii "b"])
      { left_fh := some ⟨[], true⟩, right_fh := some ⟨file_of [ascii "b"], false⟩,
        out_fh := some [ascii "a"], prev_left_line := ascii "a",
        prev_right_line := ascii "a", left_line := [], right_line := ascii "c" }
      (by decide),
    by decide,
    (read_lines_sorted_or_fatal strncmp_sign).2.1
      (file_of [List.replicate 253 98 ++ [122], List.replicate 253 98 ++ [97]])
      (file_of [List.replicate 253 98 ++ [122], List.replicate 253 98 ++ [97]])
      (by decide) (by decide),
    by decide, by decide,
    (read_lines_sorted_or_fatal strncmp_sign).2.2 [ascii "m", ascii "k"]
      [ascii "a", ascii "b", ascii "c"] (by decide) (by decide)⟩

/-! ## C5: what happens to the longer input -/

/-- C5 (counterexample): Left = a and Right = a, b, c are sorted and non-empty, the
left one reaches its end first, and the run exits normally having written only a: the
remaining right lines b and c are not in the output. On Left = a, b, d, e and
Right = a, c the right file reaches its end first and the run exits normally having
written a, d: the remaining left line e is not in the output (d is, written in the pass
in which the right side reported the end). -/
theorem remaining_lines_not_drained :
    output_of (main strncmp_sign (some (file_of [ascii "a"]))
        (some (file_of [ascii "a", ascii "b", ascii "c"])) true) = some [ascii "a"] ∧
    output_of (main strncmp_diff (some (file_of [ascii "a"]))
        (some (file_of [ascii "a", ascii "b", ascii "c"])) true) = some [ascii "a"] ∧
    ascii "b" ∉ [ascii "a"] ∧ ascii "c" ∉ [ascii "a"] ∧
    main strncmp_sign (some (file_of [ascii "a", ascii "b", ascii "d", ascii "e"]))
        (some (file_of [ascii "a", ascii "c"])) true
      = .ok { left_fh := some ⟨[], false⟩, right_fh := some ⟨[], true⟩,
              out_fh := some [ascii "a", ascii "d"], prev_left_line := ascii "d",
              prev_right_line := ascii "c", left_line := ascii "e", right_line := [] } ∧
    ascii "e" ∉ [ascii "a", ascii "d"] := by
  refine ⟨?_, ?_, ?_, ?_, ?_, ?_⟩ <;> decide

/-- C5 (amended): for any inputs and every `strncmp`, when the run ends normally the
number of lines written is at most the number of lines that `advance_side` has read from
the left file and at most the number it has read from the right file (`preL` and `preR`:
the lines that reading a file yields are these followed by the lines still to be read
from its stream), hence at most the number of lines that reading either file yields.
For inputs without NUL bytes the run ends in a fatal abort or ends normally in this way.
For text files (lines free of newline and NUL bytes, at most 253 bytes long, each
followed by a newline) the lines that reading yields are the lines of the file, and the
run ends in a fatal abort, or it ends normally having written at most as many lines as
the left file has and at most as many as the right file has. -/
theorem output_length_bounded (cmp : Line → Line → Nat → Int) :
    (∀ (left right : List Nat) (ctx : context),
      main cmp (some left) (some right) true = .ok ctx →
      ∃ preL preR fl fr out,
        ctx.left_fh = some fl ∧ lines_read_from left = preL ++ lines_read_from fl.rest ∧
        ctx.right_fh = some fr ∧ lines_read_from right = preR ++ lines_read_from fr.rest ∧
        ctx.out_fh = some out ∧ out.length ≤ preL.length ∧ out.length ≤ preR.length ∧
        out.length ≤ (lines_read_from left).length ∧
        out.length ≤ (lines_read_from right).length) ∧
    (∀ left right : List Nat, (∀ b ∈ left, b ≠ 0) → (∀ b ∈ right, b ≠ 0) →
      (∃ why ctx, main cmp (some left) (some right) true = .exit_failure why ctx) ∨
      (∃ ctx out, main cmp (some left) (some right) true = .ok ctx ∧
        ctx.out_fh = some out ∧ out.length ≤ (lines_read_from left).length ∧
        out.length ≤ (lines_read_from right).length)) ∧
    (∀ L R : List Line, (∀ l ∈ L, text_line l) → (∀ l ∈ R, text_line l) →
      lines_read_from (file_of L) = L ∧ lines_read_from (file_of R) = R ∧
      ((∃ why ctx, main cmp (some (file_of L)) (some (file_of R)) true
          = .exit_failure why ctx) ∨
      (∃ ctx out, main cmp (some (file_of L)) (some (file_of R)) true = .ok ctx ∧
        ctx.out_fh = some out ∧ out.length ≤ L.length ∧ out.length ≤ R.length))) := by
  have key : ∀ (left right : List Nat) (ctx : context),
      main cmp (some left) (some right) true = .ok ctx →
      ∃ preL preR fl fr out,
        ctx.left_fh = some fl ∧ lines_read_from left = preL ++ lines_read_from fl.rest ∧
        ctx.right_fh = some fr ∧ lines_read_from right = preR ++ lines_read_from fr.rest ∧
        ctx.out_fh = some out ∧ out.length ≤ preL.length ∧ out.length ≤ preR.length ∧
        out.length ≤ (lines_read_from left).length ∧
        out.length ≤ (lines_read_from right).length := by
    intro left right ctx h
    obtain ⟨preL, preR, out, ⟨fl, hfl, hpl⟩, ⟨fr, hfr, hpr⟩, ho, h1, h2⟩ :=
      CountInv_main cmp h
    simp only [Option.getD_some] at hpl hpr
    have e1 := congrArg List.length hpl
    have e2 := congrArg List.length hpr
    simp only [List.length_append] at e1 e2
    exact ⟨preL, preR, fl, fr, out, hfl, hpl, hfr, hpr, ho, by omega, by omega,
      by omega, by omega⟩
  refine ⟨key, ?_, ?_⟩
  · intro left right hl hr
    rcases main_exits_nul_free cmp hl hr with ⟨ctx, h⟩ | h
    · right
      obtain ⟨preL, preR, fl, fr, out, _, _, _, _, ho, _, _, h1, h2⟩ := key left right ctx h
      exact ⟨ctx, out, h, ho, h1, h2⟩
    · exact Or.inl h
  · intro L R hL hR
    refine ⟨lines_read_from_file_of L hL, lines_read_from_file_of R hR, ?_⟩
    rcases main_exits cmp hL hR with ⟨ctx, hok⟩ | h
    · right
      obtain ⟨kL, kR, out, hSL, hSR, hout, ha, hb, _, _⟩ := RunInv_main cmp hL hR hok
      exact ⟨ctx, out, hok, hout, by have := hSL.1; omega, by have := hSR.1; omega⟩
    · exact Or.inl h

/-- C5 (witness): the amended statement at Left = a, b, d, e and Right = a, c, where the
run exits normally with the output a, d; at the inputs "a" and "a", a newline, "b"
without a final newline, which have no NUL byte; and at the text files Left = a,
Right = a, b, c, where the run exits normally with the output a. -/
theorem output_length_bounded_witness :
    main strncmp_sign (some (file_of [ascii "a", ascii "b", ascii "d", ascii "e"]))
        (some (file_of [ascii "a", ascii "c"])) true
      = .ok { left_fh := some ⟨[], false⟩, right_fh := some ⟨[], true⟩,
              out_fh := some [ascii "a", ascii "d"], prev_left_line := ascii "d",
              prev_right_line := ascii "c", left_line := ascii "e", right_line := [] } ∧
    (∃ preL preR fl fr out,
      some (⟨[], false⟩ : FileStream) = some fl ∧
      lines_read_from (file_of [ascii "a", ascii "b", ascii "d", ascii "e"])
        = preL ++ lines_read_from fl.rest ∧
      some (⟨[], true⟩ : FileStream) = some fr ∧
      lines_read_from (file_of [ascii "a", ascii "c"]) = preR ++ lines_read_from fr.rest ∧
      some [ascii "a", ascii "d"] = some out ∧
      out.length ≤ preL.length ∧ out.length ≤ preR.length ∧
      out.length ≤ (lines_read_from
        (file_of [ascii "a", ascii "b", ascii "d", ascii "e"])).length ∧
      out.length ≤ (lines_read_from (file_of [ascii "a", ascii "c"])).length) ∧
    (∀ b ∈ ascii "a", b ≠ 0) ∧ (∀ b ∈ ascii "a\nb", b ≠ 0) ∧
    ((∃ why ctx, main strncmp_sign (some (ascii "a")) (some (ascii "a\nb")) true
        = .exit_failure why ctx) ∨
    (∃ ctx out, main strncmp_sign (some (ascii "a")) (some (ascii "a\nb")) true = .ok ctx ∧
      ctx.out_fh = some out ∧ out.length ≤ (lines_read_from (ascii "a")).length ∧
      out.length ≤ (lines_read_from (ascii "a\nb")).length)) ∧
    (∀ l ∈ [ascii "a"], text_line l) ∧
    (∀ l ∈ [ascii "a", ascii "b", ascii "c"], text_line l) ∧
    output_of (main strncmp_sign (some (file_of [ascii "a"]))
      (some (file_of [ascii "a", ascii "b", ascii "c"])) true) = some [ascii "a"] ∧
    lines_read_from (file_of [ascii "a"]) = [ascii "a"] ∧
    lines_read_from (file_of [ascii "a", ascii "b", ascii "c"])
      = [ascii "a", ascii "b", ascii "c"] ∧
    ((∃ why ctx, main strncmp_sign (some (file_of [ascii "a"]))
        (some (file_of [ascii "a", ascii "b", ascii "c"])) true = .exit_failure why ctx) ∨
    (∃ ctx out, main strncmp_sign (some (file_of [ascii "a"]))
        (some (file_of [ascii "a", ascii "b", ascii "c"])) true = .ok ctx ∧
      ctx.out_fh = some out ∧ out.length ≤ [ascii "a"].length ∧
      out.length ≤ [ascii "a", ascii "b", ascii "c"].length)) :=
  ⟨by decide,
    (output_length_bounded strncmp_sign).1
      (file_of [ascii "a", ascii "b", ascii "d", ascii "e"]) (file_of [ascii "a", ascii "c"])
      { left_fh := some ⟨[], false⟩, right_fh := some ⟨[], true⟩,
        out_fh := some [ascii "a", ascii "d"], prev_left_line := ascii "d",
        prev_right_line := ascii "c", left_line := ascii "e", right_line := [] }
      (by decide),
    by decide, by decide,
    (output_length_bounded strncmp_sign).2.1 (ascii "a") (ascii "a\nb")
      (by decide) (by decide),
    by decide, by decide, by decide,
    (output_length_bounded strncmp_sign).2.2 [ascii "a"] [ascii "a", ascii "b", ascii "c"]
      (by decide) (by decide)⟩

/-! ## C6: order of the output -/

/-- C6 (counterexample): Left = Right = a, a, b are sorted and non-empty, the run exits
normally and writes a, a, b: the line a is written twice, so the output is not in
strictly increasing order. -/
theorem output_repeats_line :
    output_of (main strncmp_sign (some (file_of [ascii "a", ascii "a", ascii "b"]))
        (some (file_of [ascii "a", ascii "a", ascii "b"])) true)
      = some [ascii "a", ascii "a", ascii "b"] ∧
    output_of (main strncmp_diff (some (file_of [ascii "a", ascii "a", ascii "b"]))
        (some (file_of [ascii "a", ascii "a", ascii "b"])) true)
      = some [ascii "a", ascii "a", ascii "b"] ∧
    ¬ List.Chain' (fun x y => byteCompare x y = .lt) [ascii "a", ascii "a", ascii "b"] := by
  refine ⟨by decide, by decide, ?_⟩
  intro h
  exact absurd (List.chain'_cons.mp h).1 (by decide)

/-- C6 (amended): for any inputs and every `strncmp`, when the run ends normally the
non-empty lines written to the output are in non-decreasing byte-wise order (a line may
be written more than once). For inputs without NUL bytes, and so for every pair of text
files, the run ends in a fatal abort, or it ends normally with the output in this
order. -/
theorem nonempty_output_sorted (cmp : Line → Line → Nat → Int) :
    (∀ (left right : Option (List Nat)) (o : Bool) (ctx : context) (out : List Line),
      main cmp left right o = .ok ctx → ctx.out_fh = some out →
      List.Chain' byteLe (nonempty_lines out)) ∧
    (∀ left right : List Nat, (∀ b ∈ left, b ≠ 0) → (∀ b ∈ right, b ≠ 0) →
      (∃ why ctx, main cmp (some left) (some right) true = .exit_failure why ctx) ∨
      (∃ ctx out, main cmp (some left) (some right) true = .ok ctx ∧
        ctx.out_fh = some out ∧ List.Chain' byteLe (nonempty_lines out))) ∧
    (∀ L R : List Line, (∀ l ∈ L, text_line l) → (∀ l ∈ R, text_line l) →
      (∃ why ctx, main cmp (some (file_of L)) (some (file_of R)) true
          = .exit_failure why ctx) ∨
      (∃ ctx out, main cmp (some (file_of L)) (some (file_of R)) true = .ok ctx ∧
        ctx.out_fh = some out ∧ List.Chain' byteLe (nonempty_lines out))) := by
  refine ⟨?_, ?_, ?_⟩
  · intro left right o ctx out h ho
    exact (OutSorted_main cmp h out ho).1
  · intro left right hl hr
    rcases main_exits_nul_free cmp hl hr with ⟨ctx, h⟩ | h
    · right
      obtain ⟨fl, fr, out, _, _, ho⟩ : ∃ fl fr out, ctx.left_fh = some fl ∧
          ctx.right_fh = some fr ∧ ctx.out_fh = some out := by
        obtain ⟨_, _, out, ⟨fl, hfl, _⟩, ⟨fr, hfr, _⟩, ho, _⟩ := CountInv_main cmp h
        exact ⟨fl, fr, out, hfl, hfr, ho⟩
      exact ⟨ctx, out, h, ho, (OutSorted_main cmp h out ho).1⟩
    · exact Or.inl h
  · intro L R hL hR
    rcases main_exits cmp hL hR with ⟨ctx, hok⟩ | h
    · right
      obtain ⟨kL, kR, out, hSL, _, hout, _, _, hsub, _⟩ := RunInv_main cmp hL hR hok
      refine ⟨ctx, out, hok, hout, ?_⟩
      haveI : IsTrans Line byteLe := ⟨fun _ _ _ => byteLe_trans⟩
      have h1 : (nonempty_lines (L.take kL)).Pairwise byteLe :=
        List.chain'_iff_pairwise.mp hSL.2.2.1
      have h2 := nonempty_lines_sublist hsub
      rw [nonempty_lines_idem] at h2
      exact List.chain'_iff_pairwise.mpr (h1.sublist h2)
    · exact Or.inl h

/-- C6 (witness): the amended statement at Left = Right = a, a, b, where the run exits
normally with the output a, a, b, as text files and as inputs without NUL bytes. -/
theorem nonempty_output_sorted_witness :
    (∀ l ∈ [ascii "a", ascii "a", ascii "b"], text_line l) ∧
    output_of (main strncmp_sign (some (file_of [ascii "a", ascii "a", ascii "b"]))
      (some (file_of [ascii "a", ascii "a", ascii "b"])) true)
      = some [ascii "a", ascii "a", ascii "b"] ∧
    ((∃ why ctx, main strncmp_sign (some (file_of [ascii "a", ascii "a", ascii "b"]))
        (some (file_of [ascii "a", ascii "a", ascii "b"])) true = .exit_failure why ctx) ∨
    (∃ ctx out, main strncmp_sign (some (file_of [ascii "a", ascii "a", ascii "b"]))
        (some (file_of [ascii "a", ascii "a", ascii "b"])) true = .ok ctx ∧
      ctx.out_fh = some out ∧ List.Chain' byteLe (nonempty_lines out))) ∧
    (∀ b ∈ file_of [ascii "a", ascii "a", ascii "b"], b ≠ 0) ∧
    ((∃ why ctx, main strncmp_sign (some (file_of [ascii "a", ascii "a", ascii "b"]))
        (some (file_of [ascii "a", ascii "a", ascii "b"])) true = .exit_failure why ctx) ∨
    (∃ ctx out, main strncmp_sign (some (file_of [ascii "a", ascii "a", ascii "b"]))
        (some (file_of [ascii "a", ascii "a", ascii "b"])) true = .ok ctx ∧
      ctx.out_fh = some out ∧ List.Chain' byteLe (nonempty_lines out))) ∧
    main strncmp_sign (some (file_of [ascii "a", ascii "a", ascii "b"]))
        (some (file_of [ascii "a", ascii "a", ascii "b"])) true
      = .ok (lockstep [] true [] (ascii "b") [ascii "a", ascii "a", ascii "b"]) ∧
    List.Chain' byteLe (nonempty_lines [ascii "a", ascii "a", ascii "b"]) :=
  ⟨by decide, by decide,
    (nonempty_output_sorted strncmp_sign).2.2 [ascii "a", ascii "a", ascii "b"]
      [ascii "a", ascii "a", ascii "b"] (by decide) (by decide),
    by decide,
    (nonempty_output_sorted strncmp_sign).2.1 (file_of [ascii "a", ascii "a", ascii "b"])
      (file_of [ascii "a", ascii "a", ascii "b"]) (by decide) (by decide),
    by decide,
    (nonempty_output_sorted strncmp_sign).1 (some (file_of [ascii "a", ascii "a", ascii "b"]))
      (some (file_of [ascii "a", ascii "a", ascii "b"])) true
      (lockstep [] true [] (ascii "b") [ascii "a", ascii "a", ascii "b"])
      [ascii "a", ascii "a", ascii "b"] (by decide) rfl⟩

/-! ## C11: the merge step on equal lines -/

/-- C11: with a `strncmp` that conforms to the C standard, a pass through the `switch`
in which the left and the right current line are equal runs the `default` label only:
it writes the shared line once, then calls `advance_side` once for the left and once
for the right side. When the pass returns, the output has grown by exactly that line
and `active_files` is the sum of the two returned values. -/
theorem merge_step_equal_lines (cmp : Line → Line → Nat → Int)
    (hcmp : StrncmpConforms cmp) (ctx : context) (active_files : Nat)
    (heq : ctx.left_line = ctx.right_line) :
    merge_step cmp ctx active_files
      = (fprintf_left_line ctx).bind (fun c0 =>
          (advance_side c0 'L').bind (fun l =>
            (advance_side l.1 'R').bind (fun r => .ok (r.1, l.2 + r.2)))) ∧
    ∀ res, merge_step cmp ctx active_files = .ok res →
      ∃ out c1 l r, ctx.out_fh = some out ∧
        advance_side (with_output ctx (out ++ [ctx.right_line])) 'L' = .ok (c1, l) ∧
        advance_side c1 'R' = .ok (res.1, r) ∧ res.2 = l + r ∧
        res.1.out_fh = some (out ++ [ctx.right_line]) := by
  have h0 : cmp ctx.left_line ctx.right_line MAX_LINE_LEN = 0 := by
    rw [heq]
    exact strncmp_self hcmp _ _
  have hstep : merge_step cmp ctx active_files = case_default ctx := by
    unfold merge_step
    simp only [h0]
    rw [if_neg (by decide), if_neg (by decide)]
  refine ⟨by rw [hstep]; rfl, ?_⟩
  intro res hres
  rw [hstep] at hres
  rw [← heq]
  exact case_default_inv hres

/-- C11 (witness): the statement at the context primed on Left = Right = x, y: the pass
writes x once and reads y on both sides. -/
theorem merge_step_equal_lines_witness :
    StrncmpConforms strncmp_sign ∧
    (lockstep (ascii "y\n") false (ascii "x") [] []).left_line
      = (lockstep (ascii "y\n") false (ascii "x") [] []).right_line ∧
    merge_step strncmp_sign (lockstep (ascii "y\n") false (ascii "x") [] []) 2
      = .ok (lockstep [] false (ascii "y") (ascii "x") [ascii "x"], 2) ∧
    (merge_step strncmp_sign (lockstep (ascii "y\n") false (ascii "x") [] []) 2
      = (fprintf_left_line (lockstep (ascii "y\n") false (ascii "x") [] [])).bind (fun c0 =>
          (advance_side c0 'L').bind (fun l =>
            (advance_side l.1 'R').bind (fun r => .ok (r.1, l.2 + r.2))))) :=
  ⟨strncmp_sign_conforms, by decide, by decide,
    (merge_step_equal_lines strncmp_sign strncmp_sign_conforms
      (lockstep (ascii "y\n") false (ascii "x") [] []) 2 (by decide)).1⟩

/-! ## C12: the order check in `advance_side` -/

/-- C12: let `ctx` be a context of a run with the three files open. A call
`advance_side(ctx, 'L')` in which `fgets` reads a line (and the line does not start with
NUL) ends the run with the left order-violation error if and only if the new left
current line is non-empty and the left previous line, as it stands at the check, is
strictly greater byte-wise; otherwise the call returns. The same holds for the right
side with the right order-violation error. Consequently, after every call of
`advance_side` that returns, each side satisfies `current = ""` or
`previous <= current`. -/
theorem advance_side_order_check (ctx : context) (hreach : Reachable ctx)
    (fl fr : FileStream) (out : List Line)
    (hl : ctx.left_fh = some fl) (hr : ctx.right_fh = some fr)
    (ho : ctx.out_fh = some out) :
    (∀ fh' bytes, fgets (MAX_LINE_LEN - 1) fl = (some bytes, fh') → cstr bytes ≠ [] →
      ((∃ why c, advance_side ctx 'L' = .exit_failure why c) ↔
        ((left_advanced ctx (stripped bytes) fh').left_line ≠ [] ∧
          byteCompare (left_advanced ctx (stripped bytes) fh').prev_left_line
            (left_advanced ctx (stripped bytes) fh').left_line = .gt)) ∧
      (∀ why c, advance_side ctx 'L' = .exit_failure why c →
        why = .left_out_of_order ∧ c = left_advanced ctx (stripped bytes) fh') ∧
      ((∀ why c, advance_side ctx 'L' ≠ .exit_failure why c) →
        advance_side ctx 'L'
          = .ok (left_advanced ctx (stripped bytes) fh', not_feof fh'))) ∧
    (∀ fh' bytes, fgets (MAX_LINE_LEN - 1) fr = (some bytes, fh') → cstr bytes ≠ [] →
      ((∃ why c, advance_side ctx 'R' = .exit_failure why c) ↔
        ((right_advanced ctx (stripped bytes) fh').right_line ≠ [] ∧
          byteCompare (right_advanced ctx (stripped bytes) fh').prev_right_line
            (right_advanced ctx (stripped bytes) fh').right_line = .gt)) ∧
      (∀ why c, advance_side ctx 'R' = .exit_failure why c →
        why = .right_out_of_order ∧ c = right_advanced ctx (stripped bytes) fh') ∧
      ((∀ why c, advance_side ctx 'R' ≠ .exit_failure why c) →
        advance_side ctx 'R'
          = .ok (right_advanced ctx (stripped bytes) fh', not_feof fh'))) ∧
    (∀ LorR ctx' r, advance_side ctx LorR = .ok (ctx', r) → Checked ctx') := by
  have hck := Reachable_checked hreach
  refine ⟨?_, ?_, ?_⟩
  · intro fh' bytes hg hc
    have hadv := advance_side_L_read fl hl hg hc
    have hdet := detect_sort_problems_left (left_advanced ctx (stripped bytes) fh')
      fh' fr out rfl hr ho hck.2
    rw [hdet] at hadv
    by_cases hcond : (left_advanced ctx (stripped bytes) fh').left_line ≠ [] ∧
        byteCompare (left_advanced ctx (stripped bytes) fh').prev_left_line
          (left_advanced ctx (stripped bytes) fh').left_line = .gt
    · rw [if_pos hcond] at hadv
      simp only [Result.bind] at hadv
      refine ⟨⟨fun _ => hcond, fun _ => ⟨_, _, hadv⟩⟩, ?_, ?_⟩
      · intro why c h
        rw [hadv] at h
        simp only [Result.exit_failure.injEq] at h
        exact ⟨h.1.symm, h.2.symm⟩
      · intro h
        exact absurd hadv (h _ _)
    · rw [if_neg hcond] at hadv
      simp only [Result.bind] at hadv
      refine ⟨⟨?_, fun h => absurd h hcond⟩, ?_, fun _ => hadv⟩
      · rintro ⟨why, c, h⟩
        rw [hadv] at h
        simp at h
      · intro why c h
        rw [hadv] at h
        simp at h
  · intro fh' bytes hg hc
    have hadv := advance_side_R_read fr hr hg hc
    have hdet := detect_sort_problems_right (right_advanced ctx (stripped bytes) fh')
      fl fh' out hl rfl ho hck.1
    rw [hdet] at hadv
    by_cases hcond : (right_advanced ctx (stripped bytes) fh').right_line ≠ [] ∧
        byteCompare (right_advanced ctx (stripped bytes) fh').prev_right_line
          (right_advanced ctx (stripped bytes) fh').right_line = .gt
    · rw [if_pos hcond] at hadv
      simp only [Result.bind] at hadv
      refine ⟨⟨fun _ => hcond, fun _ => ⟨_, _, hadv⟩⟩, ?_, ?_⟩
      · intro why c h
        rw [hadv] at h
        simp only [Result.exit_failure.injEq] at h
        exact ⟨h.1.symm, h.2.symm⟩
      · intro h
        exact absurd hadv (h _ _)
    · rw [if_neg hcond] at hadv
      simp only [Result.bind] at hadv
      refine ⟨⟨?_, fun h => absurd h hcond⟩, ?_, fun _ => hadv⟩
      · rintro ⟨why, c, h⟩
        rw [hadv] at h
        simp at h
      · intro why c h
        rw [hadv] at h
        simp at h
  · intro LorR ctx' r h
    exact advance_side_checked hck h

/-- C12 (witness): the statement at the context reached by reading the first line of
Left = m, k (Right = a, b): the next left call reads k, which is below m, and ends the
run with the left order-violation error. -/
theorem advance_side_order_check_witness :
    Reachable { left_fh := some ⟨ascii "k\n", false⟩, right_fh := some ⟨ascii "a\nb\n", false⟩,
                out_fh := some [], prev_left_line := [], prev_right_line := [],
                left_line := ascii "m", right_line := [] } ∧
    advance_side { left_fh := some ⟨ascii "k\n", false⟩,
                   right_fh := some ⟨ascii "a\nb\n", false⟩,
                   out_fh := some [], prev_left_line := [], prev_right_line := [],
                   left_line := ascii "m", right_line := [] } 'L'
      = .exit_failure .left_out_of_order
          { left_fh := some ⟨[], false⟩, right_fh := some ⟨ascii "a\nb\n", false⟩,
            out_fh := some [], prev_left_line := ascii "m", prev_right_line := [],
            left_line := ascii "k", right_line := [] } ∧
    (∀ LorR ctx' r,
      advance_side { left_fh := some ⟨ascii "k\n", false⟩,
                     right_fh := some ⟨ascii "a\nb\n", false⟩,
                     out_fh := some [], prev_left_line := [], prev_right_line := [],
                     left_line := ascii "m", right_line := [] } LorR = .ok (ctx', r) →
      Checked ctx') :=
  ⟨Reachable.advance (r := 1) 'L' (Reachable.fresh (some (ascii "m\nk\n")) (some (ascii "a\nb\n")) true)
      (by decide),
    by decide,
    (advance_side_order_check
      { left_fh := some ⟨ascii "k\n", false⟩, right_fh := some ⟨ascii "a\nb\n", false⟩,
        out_fh := some [], prev_left_line := [], prev_right_line := [],
        left_line := ascii "m", right_line := [] }
      (Reachable.advance (r := 1) 'L'
        (Reachable.fresh (some (ascii "m\nk\n")) (some (ascii "a\nb\n")) true) (by decide))
      ⟨ascii "k\n", false⟩ ⟨ascii "a\nb\n", false⟩ [] rfl rfl rfl).2.2⟩

/-! ## C13: the value returned by `advance_side` -/

/-- C13: a call of `advance_side` that returns (does not abort) leaves the stream of its
side open and returns `!feof` of it: 1 (true) exactly when the end-of-file flag is clear
after the read, 0 (false) exactly when it is set. When `fgets` returns `NULL` (the end of
the stream is reached with no data read), the current line becomes the empty string, the
flag is set and the call returns 0. -/
theorem advance_side_return_value (ctx ctx' : context) (r : Nat) :
    (advance_side ctx 'L' = .ok (ctx', r) →
      ∃ fh, ctx'.left_fh = some fh ∧ (r = 1 ↔ fh.eof = false) ∧ (r = 0 ↔ fh.eof = true)) ∧
    (advance_side ctx 'R' = .ok (ctx', r) →
      ∃ fh, ctx'.right_fh = some fh ∧ (r = 1 ↔ fh.eof = false) ∧ (r = 0 ↔ fh.eof = true)) ∧
    (∀ fh fh', ctx.left_fh = some fh → fgets (MAX_LINE_LEN - 1) fh = (none, fh') →
      fh'.eof = true ∧
      advance_side ctx 'L' = .ok (left_advanced ctx [] fh', 0) ∧
      (left_advanced ctx [] fh').left_line = []) ∧
    (∀ fh fh', ctx.right_fh = some fh → fgets (MAX_LINE_LEN - 1) fh = (none, fh') →
      fh'.eof = true ∧
      advance_side ctx 'R' = .ok (right_advanced ctx [] fh', 0) ∧
      (right_advanced ctx [] fh').right_line = []) := by
  refine ⟨?_, ?_, ?_, ?_⟩
  · intro h
    obtain ⟨_, _, _, _, fh, hfh, hr⟩ := advance_side_L_frame h
    exact ⟨fh, hfh, by rw [hr]; exact not_feof_eq_one fh, by rw [hr]; exact not_feof_eq_zero fh⟩
  · intro h
    obtain ⟨_, _, _, _, fh, hfh, hr⟩ := advance_side_R_frame h
    exact ⟨fh, hfh, by rw [hr]; exact not_feof_eq_one fh, by rw [hr]; exact not_feof_eq_zero fh⟩
  · intro fh fh' hfh hg
    have he : fh'.eof = true := by rw [(fgets_none hg).2]
    refine ⟨he, ?_, rfl⟩
    rw [advance_side_L_null fh hfh hg, (not_feof_eq_zero fh').mpr he]
  · intro fh fh' hfh hg
    have he : fh'.eof = true := by rw [(fgets_none hg).2]
    refine ⟨he, ?_, rfl⟩
    rw [advance_side_R_null fh hfh hg, (not_feof_eq_zero fh').mpr he]

/-- C13 (witness): the statement at a context whose current lines are a and whose
streams are at their end with the flag still clear: the left call reads nothing, sets
the flag and returns 0. -/
theorem advance_side_return_value_witness :
    advance_side (lockstep [] false (ascii "a") [] []) 'L'
      = .ok (left_advanced (lockstep [] false (ascii "a") [] []) [] ⟨[], true⟩, 0) ∧
    (∃ fh, (left_advanced (lockstep [] false (ascii "a") [] []) [] ⟨[], true⟩).left_fh
        = some fh ∧ ((0 : Nat) = 1 ↔ fh.eof = false) ∧ ((0 : Nat) = 0 ↔ fh.eof = true)) :=
  ⟨by decide,
    (advance_side_return_value (lockstep [] false (ascii "a") [] [])
      (left_advanced (lockstep [] false (ascii "a") [] []) [] ⟨[], true⟩) 0).1 (by decide)⟩

/-! ## C14: what `advance_side` leaves alone -/

/-- C14: a call `advance_side(ctx, 'L')` that returns leaves the right side's current
line, previous line and stream (unread bytes and end-of-file flag) as they were, and a
call `advance_side(ctx, 'R')` that returns leaves the left side as it was; neither call
changes the output, also not when it ends the run through `bail`. -/
theorem advance_side_frame (ctx ctx' : context) (r : Nat) (why : Failure) :
    (advance_side ctx 'L' = .ok (ctx', r) →
      ctx'.right_line = ctx.right_line ∧ ctx'.prev_right_line = ctx.prev_right_line ∧
      ctx'.right_fh = ctx.right_fh ∧ ctx'.out_fh = ctx.out_fh) ∧
    (advance_side ctx 'R' = .ok (ctx', r) →
      ctx'.left_line = ctx.left_line ∧ ctx'.prev_left_line = ctx.prev_left_line ∧
      ctx'.left_fh = ctx.left_fh ∧ ctx'.out_fh = ctx.out_fh) ∧
    (advance_side ctx 'L' = .exit_failure why ctx' → ctx'.out_fh = ctx.out_fh) ∧
    (advance_side ctx 'R' = .exit_failure why ctx' → ctx'.out_fh = ctx.out_fh) := by
  refine ⟨?_, ?_, ?_, ?_⟩
  · intro h
    obtain ⟨h1, h2, h3, h4, _⟩ := advance_side_L_frame h
    exact ⟨h2, h3, h1, h4⟩
  · intro h
    obtain ⟨h1, h2, h3, h4, _⟩ := advance_side_R_frame h
    exact ⟨h2, h3, h1, h4⟩
  · intro h
    obtain ⟨_, _, _, _, _, _, hc, _⟩ := advance_side_L_inv_fail h
    rw [hc]
    rfl
  · intro h
    obtain ⟨_, _, _, _, _, _, hc, _⟩ := advance_side_R_inv_fail h
    rw [hc]
    rfl

/-- C14 (witness): the statement at the context primed on Left = a, c, d and
Right = b, c, e, where the left call reads c and leaves the right side (current line b,
stream c, e) and the empty output untouched. -/
theorem advance_side_frame_witness :
    advance_side
        { left_fh := some ⟨ascii "c\nd\n", false⟩, right_fh := some ⟨ascii "c\ne\n", false⟩,
          out_fh := some [], prev_left_line := [], prev_right_line := [],
          left_line := ascii "a", right_line := ascii "b" } 'L'
      = .ok ({ left_fh := some ⟨ascii "d\n", false⟩,
               right_fh := some ⟨ascii "c\ne\n", false⟩,
               out_fh := some [], prev_left_line := ascii "a", prev_right_line := [],
               left_line := ascii "c", right_line := ascii "b" }, 1) ∧
    ((ascii "b" = ascii "b") ∧ (([] : Line) = []) ∧
      (some (⟨ascii "c\ne\n", false⟩ : FileStream) = some ⟨ascii "c\ne\n", false⟩) ∧
      (some ([] : List Line) = some [])) :=
  ⟨by decide,
    (advance_side_frame
      { left_fh := some ⟨ascii "c\nd\n", false⟩, right_fh := some ⟨ascii "c\ne\n", false⟩,
        out_fh := some [], prev_left_line := [], prev_right_line := [],
        left_line := ascii "a", right_line := ascii "b" }
      { left_fh := some ⟨ascii "d\n", false⟩, right_fh := some ⟨ascii "c\ne\n", false⟩,
        out_fh := some [], prev_left_line := ascii "a", prev_right_line := [],
        left_line := ascii "c", right_line := ascii "b" } 1 .bad_LorR).1 (by decide)⟩

/-! ## C15: when the loop stops -/

/-- C15 (counterexample): on Left = a and Right = a, b, c the run ends normally although
the right side is not exhausted: its current line is b, its end-of-file flag is clear
and the line c is still unread. -/
theorem loop_exit_one_side_live :
    main strncmp_sign (some (file_of [ascii "a"]))
        (some (file_of [ascii "a", ascii "b", ascii "c"])) true
      = .ok { left_fh := some ⟨[], true⟩, right_fh := some ⟨file_of [ascii "c"], false⟩,
              out_fh := some [ascii "a"], prev_left_line := ascii "a",
              prev_right_line := ascii "a", left_line := [], right_line := ascii "b" } ∧
    main strncmp_diff (some (file_of [ascii "a"]))
        (some (file_of [ascii "a", ascii "b", ascii "c"])) true
      = .ok { left_fh := some ⟨[], true⟩, right_fh := some ⟨file_of [ascii "c"], false⟩,
              out_fh := some [ascii "a"], prev_left_line := ascii "a",
              prev_right_line := ascii "a", left_line := [], right_line := ascii "b" } ∧
    ascii "b" ≠ [] := by
  refine ⟨?_, ?_, ?_⟩ <;> decide

/-- C15 (amended): whenever the merge loop in `main` finishes normally, for any inputs
and any `strncmp`, at least one of the two sides is exhausted: both streams are open
and the end-of-file flag of at least one of them is set, that is, the latest
`advance_side` of that side returned 0. On text files, and more generally on inputs
that are empty or end with a newline (every line is followed by a newline, whatever its
length), the current line of an exhausted side is the empty string. The other side may
still hold a non-empty current line. -/
theorem loop_exit_some_side_exhausted (cmp : Line → Line → Nat → Int) :
    (∀ left right out ctx, main cmp left right out = .ok ctx →
      ∃ fl fr, ctx.left_fh = some fl ∧ ctx.right_fh = some fr ∧
        (fl.eof = true ∨ fr.eof = true) ∧
        (not_feof fl = 0 ∨ not_feof fr = 0)) ∧
    (∀ L R out ctx, (∀ l ∈ L, text_line l) → (∀ l ∈ R, text_line l) →
      main cmp (some (file_of L)) (some (file_of R)) out = .ok ctx →
      (∃ fl, ctx.left_fh = some fl ∧ fl.eof = true ∧ ctx.left_line = []) ∨
      (∃ fr, ctx.right_fh = some fr ∧ fr.eof = true ∧ ctx.right_line = [])) ∧
    (∀ (left right : List Nat) (out : Bool) (ctx : context),
      (∀ x ∈ left.getLast?, x = NL) → (∀ x ∈ right.getLast?, x = NL) →
      main cmp (some left) (some right) out = .ok ctx →
      (∃ fl, ctx.left_fh = some fl ∧ fl.eof = true ∧ ctx.left_line = []) ∨
      (∃ fr, ctx.right_fh = some fr ∧ fr.eof = true ∧ ctx.right_line = [])) := by
  have key : ∀ left right out ctx, main cmp left right out = .ok ctx →
      ∃ fl fr, ctx.left_fh = some fl ∧ ctx.right_fh = some fr ∧
        (fl.eof = true ∨ fr.eof = true) := by
    intro left right out ctx h
    obtain ⟨ctx0, _, hloop⟩ := main_inv h
    exact merge_loop_end cmp _ ctx0 2 ctx (fun hne => absurd rfl hne) hloop
  refine ⟨?_, ?_, ?_⟩
  · intro left right out ctx h
    obtain ⟨fl, fr, h1, h2, h3⟩ := key left right out ctx h
    refine ⟨fl, fr, h1, h2, h3, ?_⟩
    rcases h3 with h3 | h3
    · exact Or.inl ((not_feof_eq_zero fl).mpr h3)
    · exact Or.inr ((not_feof_eq_zero fr).mpr h3)
  · intro L R out ctx hL hR h
    obtain ⟨fl, fr, h1, h2, h3⟩ := key _ _ out ctx h
    obtain ⟨⟨ls, e, hfl, _, hel⟩, ⟨rs, e', hfr, _, her⟩⟩ := TextInv_main cmp L R out hL hR h
    rcases h3 with h3 | h3
    · left
      refine ⟨fl, h1, h3, ?_⟩
      rw [h1] at hfl
      simp only [Option.some.injEq] at hfl
      subst hfl
      exact (hel h3).2
    · right
      refine ⟨fr, h2, h3, ?_⟩
      rw [h2] at hfr
      simp only [Option.some.injEq] at hfr
      subst hfr
      exact (her h3).2
  · intro left right out ctx hl hr h
    obtain ⟨fl, fr, h1, h2, h3⟩ := key _ _ out ctx h
    obtain ⟨⟨f, hf, _, hel⟩, ⟨g, hg, _, her⟩⟩ := TerminatedInv_main cmp hl hr h
    rcases h3 with h3 | h3
    · left
      refine ⟨fl, h1, h3, ?_⟩
      rw [h1] at hf
      simp only [Option.some.injEq] at hf
      subst hf
      exact (hel h3).2
    · right
      refine ⟨fr, h2, h3, ?_⟩
      rw [h2] at hg
      simp only [Option.some.injEq] at hg
      subst hg
      exact (her h3).2

set_option maxRecDepth 100000 in
/-- C15 (witness): the amended statement at Left = a, Right = a, b, c, where the left
side is the exhausted one, and at the inputs that both consist of one line of 254 bytes a
followed by a newline, where both sides are exhausted with an empty current line. -/
theorem loop_exit_some_side_exhausted_witness :
    main strncmp_sign (some (file_of [ascii "a"]))
        (some (file_of [ascii "a", ascii "b", ascii "c"])) true
      = .ok { left_fh := some ⟨[], true⟩, right_fh := some ⟨file_of [ascii "c"], false⟩,
              out_fh := some [ascii "a"], prev_left_line := ascii "a",
              prev_right_line := ascii "a", left_line := [], right_line := ascii "b" } ∧
    (∃ fl fr, some (⟨[], true⟩ : FileStream) = some fl ∧
      some (⟨file_of [ascii "c"], false⟩ : FileStream) = some fr ∧
      (fl.eof = true ∨ fr.eof = true) ∧ (not_feof fl = 0 ∨ not_feof fr = 0)) ∧
    (∀ x ∈ (file_of [List.replicate 254 97]).getLast?, x = NL) ∧
    main strncmp_sign (some (file_of [List.replicate 254 97]))
        (some (file_of [List.replicate 254 97])) true
      = .ok (lockstep [] true [] (List.replicate 253 97) [List.replicate 253 97, []]) ∧
    ((∃ fl, some (⟨[], true⟩ : FileStream) = some fl ∧ fl.eof = true ∧
        ([] : Line) = []) ∨
      (∃ fr, some (⟨[], true⟩ : FileStream) = some fr ∧ fr.eof = true ∧
        ([] : Line) = [])) :=
  ⟨by decide,
    (loop_exit_some_side_exhausted strncmp_sign).1 (some (file_of [ascii "a"]))
      (some (file_of [ascii "a", ascii "b", ascii "c"])) true
      { left_fh := some ⟨[], true⟩, right_fh := some ⟨file_of [ascii "c"], false⟩,
        out_fh := some [ascii "a"], prev_left_line := ascii "a",
        prev_right_line := ascii "a", left_line := [], right_line := ascii "b" }
      (by decide),
    by decide, rfl,
    (loop_exit_some_side_exhausted strncmp_sign).2.2 (file_of [List.replicate 254 97])
      (file_of [List.replicate 254 97]) true
      (lockstep [] true [] (List.replicate 253 97) [List.replicate 253 97, []])
      (by decide) (by decide) rfl⟩

/-! ## C16: termination -/

set_option maxRecDepth 100000 in
/-- C16 (counterexample): both inputs consist of the one line of 254 bytes a followed by
a newline. The run ends normally after two passes through the loop (one pass is not
enough), having written the first 253 bytes of the line and an empty line: the number of
passes exceeds the number of lines of the shorter input, which is one (`advance_side`
reads the one line as two). -/
theorem long_line_two_passes :
    [List.replicate 254 97].length = 1 ∧
    lines_read_from (file_of [List.replicate 254 97]) = [List.replicate 253 97, []] ∧
    open_context (some (file_of [List.replicate 254 97]))
        (some (file_of [List.replicate 254 97])) true
      = .ok (lockstep [NL] false (List.replicate 253 97) [] []) ∧
    merge_loop strncmp_sign 1 (lockstep [NL] false (List.replicate 253 97) [] []) 2
      = .out_of_fuel ∧
    merge_loop strncmp_sign 2 (lockstep [NL] false (List.replicate 253 97) [] []) 2
      = .ok (lockstep [] true [] (List.replicate 253 97) [List.replicate 253 97, []]) ∧
    output_of (main strncmp_sign (some (file_of [List.replicate 254 97]))
        (some (file_of [List.replicate 254 97])) true)
      = some [List.replicate 253 97, []] := by
  refine ⟨rfl, ?_, ?_, ?_, ?_, ?_⟩ <;> rfl

/-- C16 (amended): for every pair of inputs and every `strncmp` the run ends after
finitely many passes through the loop: the loop bound of one more than the number of
bytes of the left file is never used up. With the output file open, the number of
passes is bounded by the smaller of the numbers of lines that `advance_side` reads from
the two files: the run with the loop cut off after that many passes ends in the very
same way. For every pair of text files the run ends normally or by a fatal abort, and
the number of passes is bounded by the number of lines of the shorter file. -/
theorem run_terminates (cmp : Line → Line → Nat → Int) :
    (∀ left right out, main cmp left right out ≠ .out_of_fuel) ∧
    (∀ left right,
      main cmp left right true
        = (open_context left right true).bind (fun c =>
            (merge_loop cmp
              (min (lines_read_from (left.getD [])).length
                (lines_read_from (right.getD [])).length) c 2).bind close_context)) ∧
    (∀ L R, (∀ l ∈ L, text_line l) → (∀ l ∈ R, text_line l) →
      ((∃ ctx, main cmp (some (file_of L)) (some (file_of R)) true = .ok ctx) ∨
        (∃ why ctx, main cmp (some (file_of L)) (some (file_of R)) true
          = .exit_failure why ctx)) ∧
      main cmp (some (file_of L)) (some (file_of R)) true
        = (open_context (some (file_of L)) (some (file_of R)) true).bind (fun c =>
            (merge_loop cmp (min L.length R.length) c 2).bind close_context)) := by
  refine ⟨main_ne_out_of_fuel cmp, main_eq_min_lines_read cmp, ?_⟩
  intro L R hL hR
  exact ⟨main_exits cmp hL hR, main_eq_min_fuel cmp hL hR⟩

/-- C16 (witness): the amended statement at Left = a and Right = a, b, c, where one pass
through the loop is enough. -/
theorem run_terminates_witness :
    (∀ l ∈ [ascii "a"], text_line l) ∧
    (∀ l ∈ [ascii "a", ascii "b", ascii "c"], text_line l) ∧
    min [ascii "a"].length [ascii "a", ascii "b", ascii "c"].length = 1 ∧
    main strncmp_sign (some (file_of [ascii "a"]))
        (some (file_of [ascii "a", ascii "b", ascii "c"])) true
      = (open_context (some (file_of [ascii "a"]))
          (some (file_of [ascii "a", ascii "b", ascii "c"])) true).bind (fun c =>
            (merge_loop strncmp_sign
              (min [ascii "a"].length [ascii "a", ascii "b", ascii "c"].length) c 2).bind
              close_context) :=
  ⟨by decide, by decide, by decide,
    ((run_terminates strncmp_sign).2.2 [ascii "a"] [ascii "a", ascii "b", ascii "c"]
      (by decide) (by decide)).2⟩

/-! ## C17: one line per pass -/

/-- C17: every pass through the `switch` that returns has appended exactly one line to
the output. So when the loop started with `active_files = 2` ends normally, the number
of lines it has written is the number of passes it made: with that many passes allowed
the loop ends in the same context, and with fewer it does not end. For a run of `main`
that exits normally, the whole output has as many lines as the loop made passes. -/
theorem one_line_per_iteration (cmp : Line → Line → Nat → Int) :
    (∀ ctx act res, merge_step cmp ctx act = .ok res →
      ∃ out line, ctx.out_fh = some out ∧ res.1.out_fh = some (out ++ [line])) ∧
    (∀ fuel ctx ctx', merge_loop cmp fuel ctx 2 = .ok ctx' →
      ∃ out written, ctx.out_fh = some out ∧ ctx'.out_fh = some (out ++ written) ∧
        merge_loop cmp written.length ctx 2 = .ok ctx' ∧
        ∀ m, m < written.length → merge_loop cmp m ctx 2 = .out_of_fuel) ∧
    (∀ left right out ctx', main cmp left right out = .ok ctx' →
      ∃ ctx0 written, open_context left right out = .ok ctx0 ∧
        ctx'.out_fh = some written ∧
        merge_loop cmp written.length ctx0 2 = .ok ctx' ∧
        ∀ m, m < written.length → merge_loop cmp m ctx0 2 = .out_of_fuel) := by
  have key : ∀ fuel ctx ctx', merge_loop cmp fuel ctx 2 = .ok ctx' →
      ∃ out written, ctx.out_fh = some out ∧ ctx'.out_fh = some (out ++ written) ∧
        merge_loop cmp written.length ctx 2 = .ok ctx' ∧
        ∀ m, m < written.length → merge_loop cmp m ctx 2 = .out_of_fuel := ?_
  · refine ⟨fun ctx act res h => merge_step_out h, key, ?_⟩
    intro left right out ctx' h
    obtain ⟨ctx0, hopen, hloop⟩ := main_inv h
    obtain ⟨out0, written, h0, h1, h2, h3⟩ := key _ ctx0 ctx' hloop
    have hout := open_context_out hopen
    rw [h0] at hout
    cases out with
    | false => simp at hout
    | true =>
      simp only [if_true, Option.some.injEq] at hout
      subst hout
      exact ⟨ctx0, written, hopen, by simpa using h1, h2, h3⟩
  intro fuel ctx ctx' h
  cases ho : ctx.out_fh with
  | none =>
    exfalso
    cases fuel with
    | zero => simp [merge_loop] at h
    | succ f =>
      unfold merge_loop at h
      rw [if_pos rfl] at h
      obtain ⟨s, hs, _⟩ := Result.bind_eq_ok h
      obtain ⟨out, _, ho', _⟩ := merge_step_out hs
      rw [ho] at ho'
      simp at ho'
  | some out =>
    obtain ⟨written, h1, h2, h3⟩ := merge_loop_written cmp fuel ctx 2 ctx' out ho h
    exact ⟨out, written, rfl, h1, h2, h3⟩

/-- C17 (witness): on the context primed on Left = a, c, d and Right = b, c, e the loop
ends normally after two passes, having written the two lines c and "". -/
theorem one_line_per_iteration_witness :
    merge_loop strncmp_sign 7
        { left_fh := some ⟨ascii "c\nd\n", false⟩, right_fh := some ⟨ascii "c\ne\n", false⟩,
          out_fh := some [], prev_left_line := [], prev_right_line := [],
          left_line := ascii "a", right_line := ascii "b" } 2
      = .ok { left_fh := some ⟨[], true⟩, right_fh := some ⟨[], true⟩,
              out_fh := some [ascii "c", ascii ""], prev_left_line := ascii "d",
              prev_right_line := ascii "e", left_line := [], right_line := [] } ∧
    merge_loop strncmp_sign 1
        { left_fh := some ⟨ascii "c\nd\n", false⟩, right_fh := some ⟨ascii "c\ne\n", false⟩,
          out_fh := some [], prev_left_line := [], prev_right_line := [],
          left_line := ascii "a", right_line := ascii "b" } 2
      = .out_of_fuel ∧
    ∃ out written,
      some ([] : List Line) = some out ∧
      some [ascii "c", ascii ""] = some (out ++ written) ∧
      merge_loop strncmp_sign written.length
        { left_fh := some ⟨ascii "c\nd\n", false⟩, right_fh := some ⟨ascii "c\ne\n", false⟩,
          out_fh := some [], prev_left_line := [], prev_right_line := [],
          left_line := ascii "a", right_line := ascii "b" } 2
      = .ok { left_fh := some ⟨[], true⟩, right_fh := some ⟨[], true⟩,
              out_fh := some [ascii "c", ascii ""], prev_left_line := ascii "d",
              prev_right_line := ascii "e", left_line := [], right_line := [] } ∧
      ∀ m, m < written.length →
        merge_loop strncmp_sign m
          { left_fh := some ⟨ascii "c\nd\n", false⟩, right_fh := some ⟨ascii "c\ne\n", false⟩,
            out_fh := some [], prev_left_line := [], prev_right_line := [],
            left_line := ascii "a", right_line := ascii "b" } 2
        = .out_of_fuel :=
  ⟨by decide, by decide,
    (one_line_per_iteration strncmp_sign).2.1 7
      { left_fh := some ⟨ascii "c\nd\n", false⟩, right_fh := some ⟨ascii "c\ne\n", false⟩,
        out_fh := some [], prev_left_line := [], prev_right_line := [],
        left_line := ascii "a", right_line := ascii "b" }
      { left_fh := some ⟨[], true⟩, right_fh := some ⟨[], true⟩,
        out_fh := some [ascii "c", ascii ""], prev_left_line := ascii "d",
        prev_right_line := ascii "e", left_line := [], right_line := [] } (by decide)⟩

/-! ## C18: only left lines are written -/

/-- C18: the only write to the output is `fprintf` of the left current line. In every
run, for any inputs and any `strncmp`, whether the run ends normally or through `bail`,
every line written is the empty string or one of the lines that `advance_side` reads
from the left file. For a left text file with the lines `L` this means: every line
written is empty or a line of `L`, and a non-empty line that is not in `L` (one that
occurs only in the right file) is never written. -/
theorem output_lines_from_left (cmp : Line → Line → Nat → Int) :
    (∀ ctx ctx', fprintf_left_line ctx = .ok ctx' →
      ∃ out, ctx.out_fh = some out ∧ ctx'.out_fh = some (out ++ [ctx.left_line])) ∧
    (∀ left right out ctx,
      (main cmp left right out = .ok ctx ∨
        ∃ why, main cmp left right out = .exit_failure why ctx) →
      ∀ lines, ctx.out_fh = some lines →
        ∀ o ∈ lines, o = [] ∨ o ∈ lines_read_from (left.getD [])) ∧
    (∀ L right out ctx, (∀ l ∈ L, text_line l) →
      (main cmp (some (file_of L)) right out = .ok ctx ∨
        ∃ why, main cmp (some (file_of L)) right out = .exit_failure why ctx) →
      ∀ lines, ctx.out_fh = some lines →
        (∀ o ∈ lines, o = [] ∨ o ∈ L) ∧ (∀ l, l ≠ [] → l ∉ L → l ∉ lines)) := by
  have key : ∀ left right out ctx,
      (main cmp left right out = .ok ctx ∨
        ∃ why, main cmp left right out = .exit_failure why ctx) →
      ∀ lines, ctx.out_fh = some lines →
        ∀ o ∈ lines, o = [] ∨ o ∈ lines_read_from (left.getD []) := by
    intro left right out ctx hm lines hl o ho
    have h := main_OutFromLeft cmp left right out
    rcases hm with hm | ⟨why, hm⟩ <;> rw [hm] at h <;> exact h lines hl o ho
  refine ⟨?_, key, ?_⟩
  · intro ctx ctx' h
    obtain ⟨out, ho, hc⟩ := fprintf_left_line_inv h
    exact ⟨out, ho, by rw [hc]; rfl⟩
  · intro L right out ctx hL hm lines hl
    have h := key (some (file_of L)) right out ctx hm lines hl
    simp only [Option.getD_some, lines_read_from_file_of L hL] at h
    refine ⟨h, ?_⟩
    intro l hne hnot hmem
    rcases h l hmem with h1 | h1
    · exact hne h1
    · exact hnot h1

/-- C18 (witness): on Left = a, c, d and Right = b, c, e the run ends normally having
written c and the empty line; b and e, which occur only in the right file, are not
written. -/
theorem output_lines_from_left_witness :
    lines_read_from (ascii "a\nc\nd\n") = [ascii "a", ascii "c", ascii "d"] ∧
    main strncmp_sign (some (ascii "a\nc\nd\n")) (some (ascii "b\nc\ne\n")) true
      = .ok { left_fh := some ⟨[], true⟩, right_fh := some ⟨[], true⟩,
              out_fh := some [ascii "c", ascii ""], prev_left_line := ascii "d",
              prev_right_line := ascii "e", left_line := [], right_line := [] } ∧
    ∀ o ∈ [ascii "c", ascii ""],
      o = [] ∨ o ∈ lines_read_from ((some (ascii "a\nc\nd\n")).getD []) :=
  ⟨by decide, by decide,
    (output_lines_from_left strncmp_sign).2.1 (some (ascii "a\nc\nd\n"))
      (some (ascii "b\nc\ne\n")) true
      { left_fh := some ⟨[], true⟩, right_fh := some ⟨[], true⟩,
        out_fh := some [ascii "c", ascii ""], prev_left_line := ascii "d",
        prev_right_line := ascii "e", left_line := [], right_line := [] }
      (Or.inl (by decide)) [ascii "c", ascii ""] rfl⟩

/-! ## C19: the `switch` of the merge step -/

/-- C19: the `switch` looks at the exact value of `strncmp`. For every result other than
-1 and 1, zero or not, the pass is the `default` label alone, the same pass as with the
result 0: write the left current line, advance the left side, advance the right side.
For the result 1 the pass first advances the right side and then runs on into the
`default` label; for the result -1 it first advances the left side, then the right
side, and then runs on into the `default` label. In all three cases a returning pass
ends with one write of the left current line followed by one advance of each side. -/
theorem merge_step_switch (cmp : Line → Line → Nat → Int) (ctx : context)
    (active_files : Nat) :
    (cmp ctx.left_line ctx.right_line MAX_LINE_LEN ≠ -1 →
      cmp ctx.left_line ctx.right_line MAX_LINE_LEN ≠ 1 →
        merge_step cmp ctx active_files = merge_step (fun _ _ _ => 0) ctx active_files ∧
        merge_step cmp ctx active_files
          = (fprintf_left_line ctx).bind (fun c0 =>
              (advance_side c0 'L').bind (fun l =>
                (advance_side l.1 'R').bind (fun r => .ok (r.1, l.2 + r.2))))) ∧
    (cmp ctx.left_line ctx.right_line MAX_LINE_LEN = 1 →
      merge_step cmp ctx active_files
        = (advance_side ctx 'R').bind (fun r0 =>
            (fprintf_left_line r0.1).bind (fun c0 =>
              (advance_side c0 'L').bind (fun l =>
                (advance_side l.1 'R').bind (fun r => .ok (r.1, l.2 + r.2)))))) ∧
    (cmp ctx.left_line ctx.right_line MAX_LINE_LEN = -1 →
      merge_step cmp ctx active_files
        = (advance_side ctx 'L').bind (fun l0 =>
            (advance_side l0.1 'R').bind (fun r0 =>
              (fprintf_left_line r0.1).bind (fun c0 =>
                (advance_side c0 'L').bind (fun l =>
                  (advance_side l.1 'R').bind (fun r => .ok (r.1, l.2 + r.2))))))) ∧
    (∀ res, merge_step cmp ctx active_files = .ok res →
      ∃ c out c1 l r, c.out_fh = some out ∧ ctx.out_fh = some out ∧
        advance_side (with_output c (out ++ [c.left_line])) 'L' = .ok (c1, l) ∧
        advance_side c1 'R' = .ok (res.1, r) ∧ res.2 = l + r ∧
        res.1.out_fh = some (out ++ [c.left_line])) := by
  refine ⟨?_, ?_, ?_, ?_⟩
  · intro h1 h2
    constructor
    · unfold merge_step
      simp only
      rw [if_neg h1, if_neg h2, if_neg (by decide), if_neg (by decide)]
    · unfold merge_step
      simp only
      rw [if_neg h1, if_neg h2]
      rfl
  · intro h1
    unfold merge_step
    simp only
    rw [h1, if_neg (by decide), if_pos rfl]
    rfl
  · intro h1
    unfold merge_step
    simp only
    rw [h1, if_pos rfl]
    rfl
  · intro res hres
    unfold merge_step at hres
    simp only at hres
    split at hres
    · unfold case_minus_1 at hres
      obtain ⟨⟨c1, l0⟩, hl0, hres⟩ := Result.bind_eq_ok hres
      unfold case_1 at hres
      obtain ⟨⟨c2, r0⟩, hr0, hres⟩ := Result.bind_eq_ok hres
      obtain ⟨out, c3, l, r, ho, hl, hr, hsum, hout⟩ := case_default_inv hres
      refine ⟨c2, out, c3, l, r, ho, ?_, hl, hr, hsum, hout⟩
      rw [← (advance_side_L_frame hl0).2.2.2.1, ← (advance_side_R_frame hr0).2.2.2.1]
      exact ho
    · split at hres
      · unfold case_1 at hres
        obtain ⟨⟨c2, r0⟩, hr0, hres⟩ := Result.bind_eq_ok hres
        obtain ⟨out, c3, l, r, ho, hl, hr, hsum, hout⟩ := case_default_inv hres
        refine ⟨c2, out, c3, l, r, ho, ?_, hl, hr, hsum, hout⟩
        rw [← (advance_side_R_frame hr0).2.2.2.1]
        exact ho
      · obtain ⟨out, c3, l, r, ho, hl, hr, hsum, hout⟩ := case_default_inv hres
        exact ⟨ctx, out, c3, l, r, ho, ho, hl, hr, hsum, hout⟩

/-- C19 (witness): with the difference-valued `strncmp` the lines a and c compare as -2;
the pass on Left = a, b and Right = c, d writes a and advances both sides once, as it
would for equal lines. -/
theorem merge_step_switch_witness :
    strncmp_diff (ascii "a") (ascii "c") MAX_LINE_LEN = -2 ∧
    merge_step strncmp_diff
        { left_fh := some ⟨ascii "b\n", false⟩, right_fh := some ⟨ascii "d\n", false⟩,
          out_fh := some [], prev_left_line := [], prev_right_line := [],
          left_line := ascii "a", right_line := ascii "c" } 2
      = .ok ({ left_fh := some ⟨[], false⟩, right_fh := some ⟨[], false⟩,
               out_fh := some [ascii "a"], prev_left_line := ascii "a",
               prev_right_line := ascii "c", left_line := ascii "b",
               right_line := ascii "d" }, 2) ∧
    merge_step strncmp_diff
        { left_fh := some ⟨ascii "b\n", false⟩, right_fh := some ⟨ascii "d\n", false⟩,
          out_fh := some [], prev_left_line := [], prev_right_line := [],
          left_line := ascii "a", right_line := ascii "c" } 2
      = merge_step (fun _ _ _ => 0)
        { left_fh := some ⟨ascii "b\n", false⟩, right_fh := some ⟨ascii "d\n", false⟩,
          out_fh := some [], prev_left_line := [], prev_right_line := [],
          left_line := ascii "a", right_line := ascii "c" } 2 :=
  ⟨by decide, by decide,
    ((merge_step_switch strncmp_diff
      { left_fh := some ⟨ascii "b\n", false⟩, right_fh := some ⟨ascii "d\n", false⟩,
        out_fh := some [], prev_left_line := [], prev_right_line := [],
        left_line := ascii "a", right_line := ascii "c" } 2).1 (by decide) (by decide)).1⟩

/-! ## C20: an input that is one unterminated line -/

set_option maxRecDepth 100000 in
/-- C20 (counterexample): the left file is a single line of 254 bytes with no newline
after it. `fgets` stops after 254 bytes without touching the end of the file, so the
priming `advance_side` returns 1 and `open_context` returns normally: no "file is
empty" abort. -/
theorem unterminated_long_line_not_empty :
    advance_side (fresh_context (some (List.replicate 254 97)) (some (ascii "x\n")) true) 'L'
      = .ok ({ left_fh := some ⟨[], false⟩, right_fh := some ⟨ascii "x\n", false⟩,
               out_fh := some [], prev_left_line := [], prev_right_line := [],
               left_line := List.replicate 253 97, right_line := [] }, 1) ∧
    open_context (some (List.replicate 254 97)) (some (ascii "x\n")) true
      = .ok { left_fh := some ⟨[], false⟩, right_fh := some ⟨[], false⟩,
              out_fh := some [], prev_left_line := [], prev_right_line := [],
              left_line := List.replicate 253 97, right_line := ascii "x" } := by
  constructor <;> rfl

/-- C20 (amended): let `line` be non-empty, without a newline, not starting with NUL and
shorter than 254 bytes. If the left input consists of `line` alone, with no terminator,
the priming `advance_side` call returns 0 (the read hit the end of the file) and
`open_context` ends the run with the "Left file is empty." error although the input has
one line. More generally, on either side, a returning `advance_side` that reads such a
`line` as the unterminated rest of the stream returns 0. -/
theorem unterminated_line_reads_as_end (line : List Nat) (hne : line ≠ [])
    (hnl : ∀ b ∈ line, b ≠ NL) (hnul : line.head? ≠ some 0)
    (hlen : line.length < MAX_LINE_LEN - 1 - 1) :
    (∀ right, ∃ c,
      advance_side (fresh_context (some line) (some right) true) 'L' = .ok (c, 0) ∧
      c.left_line = stripped line ∧
      open_context (some line) (some right) true = .exit_failure .left_file_empty c) ∧
    (∀ ctx e ctx' r, ctx.left_fh = some ⟨line, e⟩ →
      advance_side ctx 'L' = .ok (ctx', r) →
      r = 0 ∧ ctx'.left_fh = some ⟨[], true⟩ ∧ ctx'.left_line = stripped line) ∧
    (∀ ctx e ctx' r, ctx.right_fh = some ⟨line, e⟩ →
      advance_side ctx 'R' = .ok (ctx', r) →
      r = 0 ∧ ctx'.right_fh = some ⟨[], true⟩ ∧ ctx'.right_line = stripped line) := by
  have hc : cstr line ≠ [] := cstr_ne_nil_of_head hne hnul
  refine ⟨?_, ?_, ?_⟩
  · intro right
    have hg := fgets_unterminated line false hne hnl hlen
    have hadv : advance_side (fresh_context (some line) (some right) true) 'L'
        = .ok (left_advanced (fresh_context (some line) (some right) true)
            (stripped line) ⟨[], true⟩, 0) := by
      rw [advance_side_L_read ⟨line, false⟩ rfl hg hc]
      rw [detect_sort_problems_eq_ok (fun _ => byteLe_nil_left _) (fun h => absurd rfl h)]
      rfl
    refine ⟨_, hadv, rfl, ?_⟩
    unfold open_context
    dsimp only
    rw [hadv]
    simp only [Result.bind, if_true]
    rfl
  · intro ctx e ctx' r hfh h
    have hg := fgets_unterminated line e hne hnl hlen
    rw [advance_side_L_read ⟨line, e⟩ hfh hg hc] at h
    obtain ⟨_, _, h2⟩ := Result.bind_eq_ok h
    simp only [Result.ok.injEq, Prod.mk.injEq] at h2
    obtain ⟨rfl, rfl⟩ := h2
    exact ⟨rfl, rfl, rfl⟩
  · intro ctx e ctx' r hfh h
    have hg := fgets_unterminated line e hne hnl hlen
    rw [advance_side_R_read ⟨line, e⟩ hfh hg hc] at h
    obtain ⟨_, _, h2⟩ := Result.bind_eq_ok h
    simp only [Result.ok.injEq, Prod.mk.injEq] at h2
    obtain ⟨rfl, rfl⟩ := h2
    exact ⟨rfl, rfl, rfl⟩

/-- C20 (witness): the amended statement at the left file "ab" (no newline): the priming
call leaves "a" as the current line and returns 0, and `open_context` ends the run with
the "Left file is empty." error. -/
theorem unterminated_line_reads_as_end_witness :
    ascii "ab" ≠ [] ∧ (∀ b ∈ ascii "ab", b ≠ NL) ∧ (ascii "ab").head? ≠ some 0 ∧
    (ascii "ab").length < MAX_LINE_LEN - 1 - 1 ∧
    open_context (some (ascii "ab")) (some (ascii "x\n")) true
      = .exit_failure .left_file_empty
          { left_fh := some ⟨[], true⟩, right_fh := some ⟨ascii "x\n", false⟩,
            out_fh := some [], prev_left_line := [], prev_right_line := [],
            left_line := ascii "a", right_line := [] } ∧
    (∃ c, advance_side (fresh_context (some (ascii "ab")) (some (ascii "x\n")) true) 'L'
        = .ok (c, 0) ∧
      c.left_line = stripped (ascii "ab") ∧
      open_context (some (ascii "ab")) (some (ascii "x\n")) true
        = .exit_failure .left_file_empty c) :=
  ⟨by decide, by decide, by decide, by decide, by decide,
    (unterminated_line_reads_as_end (ascii "ab") (by decide) (by decide) (by decide)
      (by decide)).1 (ascii "x\n")⟩

end FileUnionFinder
